import Mathlib

/-! Rule 110 visualisation: scrolling board, vertex batch, simulation clock, frame renderer
and input handler, with the terminal Game of Life.

A shallow embedding of `visualization.c`, of `game_of_life.c` and of `next_row` of
`rule110.c`.

* C arrays are lists (`Row.cells`, `Board.rows`) or index maps (`vertex_buf`);
  every array read and write is bounds-checked and the embedded function
  returns `none` as soon as an access falls outside its array, so a result
  `some _` certifies that no access was out of bounds.
* `Cell` is the C enum seen as its integer value (`O = 0`, `I = 1`).
* `float` values are kept abstract: the renderer is parametric in the type of
  its coordinates and in the interpretation of the arithmetic operations; two
  interpretations are given, exact rationals (`exact_ops`) and finite values with the
  infinities and NaN (`ext_ops`).
* `double` values of the simulation clock are rational numbers.
* `int` values are integers; the counter `generation` is a 32-bit `int`, whose increment
  wraps around at `INT_MAX` (`wrap_int`); `size_t` values are natural numbers.
-/

namespace Automato

/-! ## Constants and data model -/

/-- Number of rows of the board (`#define ROWS 100`). -/
def ROWS : Nat := 100

/-- Number of columns of a row (`#define COLS 120`). -/
def COLS : Nat := 120

/-- Largest value of a C `int` (32 bits). -/
def INT_MAX : Int := 2147483647

/-- Smallest value of a C `int` (32 bits). -/
def INT_MIN : Int := -2147483648

/-- Value stored in a C `int` when the mathematical result is `x`: 32-bit two's complement, so
that an overflowing increment wraps around from `INT_MAX` to `INT_MIN`. -/
def wrap_int (x : Int) : Int := (x + 2147483648) % 4294967296 - 2147483648

/-- Value of a cell, the integer value of the C enum `Cell`. -/
abbrev Cell := Nat

/-- Dead cell (`O = 0`). -/
def O : Cell := 0

/-- Alive cell (`I = 1`). -/
def I : Cell := 1

/-- Rule 110 lookup table, indexed by the 3-bit pattern `0b000 .. 0b111`. -/
def patterns : List Cell := [O, I, I, I, O, I, I, O]

/-- Row of the automaton (`struct Row`, an array of cells). -/
structure Row where
  cells : List Cell
deriving DecidableEq, Repr

/-- Board: the rows, the index of the last populated row and the generation counter. The two
`int` fields are integers; `generation++` wraps around at `INT_MAX` (see `wrap_int`), and
`current_row++` is only executed below `ROWS - 1`. -/
structure Board where
  rows : List Row
  current_row : Int
  generation : Int
deriving DecidableEq, Repr

/-! ## Checked array accesses -/

/-- Read `a[i]`; `none` when `i` is outside the array. -/
def arr_get {α : Type} (a : List α) (i : Nat) : Option α := a[i]?

/-- Write `a[i] = v`; `none` when `i` is outside the array. -/
def arr_set {α : Type} (a : List α) (i : Nat) (v : α) : Option (List α) :=
  if i < a.length then some (a.set i v) else none

/-- Read `a[i]` for a signed index. -/
def arr_get_int {α : Type} (a : List α) (i : Int) : Option α :=
  if 0 ≤ i then arr_get a i.toNat else none

/-- Write `a[i] = v` for a signed index. -/
def arr_set_int {α : Type} (a : List α) (i : Int) (v : α) : Option (List α) :=
  if 0 ≤ i then arr_set a i.toNat v else none

/-! ## Rule engine -/

/-- Pattern index `(left << 2) | (center << 1) | right`. -/
def pattern_index (left center right : Nat) : Nat :=
  (left <<< 2) ||| (center <<< 1) ||| right

/-- Row of `W` dead cells (`Row next = {0}`). -/
def zero_row (W : Nat) : Row := ⟨List.replicate W O⟩

/-- Body of the `for` loop of `next_row` at column `i`, for rows of width `W`. -/
def next_row_body (W : Nat) (prev : Row) (i : Nat) (next : Row) : Option Row :=
  (if i = 0 then some 0 else arr_get prev.cells (i - 1)).bind fun left =>
  (arr_get prev.cells i).bind fun center =>
  (if i = W - 1 then some 0 else arr_get prev.cells (i + 1)).bind fun right =>
  (arr_get patterns (pattern_index left center right)).bind fun p =>
  (arr_set next.cells i p).bind fun cells =>
  some ⟨cells⟩

/-- The loop `for (i = ...; i < W; ++i)` of `next_row`, with `n` iterations left. -/
def next_row_loop (W : Nat) (prev : Row) : Nat → Nat → Row → Option Row
  | 0, _, next => some next
  | n + 1, i, next => (next_row_body W prev i next).bind (next_row_loop W prev n (i + 1))

/-- Function `next_row` for rows of width `W`. -/
def next_row_w (W : Nat) (prev : Row) : Option Row :=
  next_row_loop W prev W 0 (zero_row W)

/-- Function `next_row` of `visualization.c` (rows of width `COLS`). -/
def next_row (prev : Row) : Option Row := next_row_w COLS prev

/-- Rule 110 as the specification states it, one line per 3-bit neighbourhood. -/
def rule110 : Cell → Cell → Cell → Cell
  | 0, 0, 0 => 0
  | 0, 0, 1 => 1
  | 0, 1, 0 => 1
  | 0, 1, 1 => 1
  | 1, 0, 0 => 0
  | 1, 0, 1 => 1
  | 1, 1, 0 => 1
  | 1, 1, 1 => 0
  | _, _, _ => 0

/-- Left neighbour of column `i`: dead at the left border. -/
def left_of (prev : Row) (i : Nat) : Cell :=
  if i = 0 then 0 else prev.cells.getD (i - 1) 0

/-- Right neighbour of column `i` in a row of width `W`: dead at the right border. -/
def right_of (W : Nat) (prev : Row) (i : Nat) : Cell :=
  if i = W - 1 then 0 else prev.cells.getD (i + 1) 0

/-- Rule 110 value of column `i`: the table entry of (left, center, right). -/
def rule110_at (W : Nat) (prev : Row) (i : Nat) : Cell :=
  rule110 (left_of prev i) (prev.cells.getD i 0) (right_of W prev i)

/-- Rule 110 with hard borders applied to every column of a row of width `W`. -/
def rule110_row (W : Nat) (prev : Row) : Row :=
  ⟨(List.range W).map (rule110_at W prev)⟩

/-- Rows whose cells are all `O` or `I`. -/
def Row.binary (r : Row) : Prop := ∀ c ∈ r.cells, c = O ∨ c = I

instance (r : Row) : Decidable r.binary := by
  unfold Row.binary; infer_instance

/-- Rows as the C type has them: `COLS` cells, each `O` or `I`. -/
def Row.WF (r : Row) : Prop := r.cells.length = COLS ∧ r.binary

instance (r : Row) : Decidable r.WF := by
  unfold Row.WF; infer_instance

/-! ## Scrolling board -/

/-- Function `random_row`, loop `for (i = ...; i < COLS; ++i)` with `n` iterations left;
`draws i` is the value returned by the call of `rand()` made at column `i`. -/
def random_row_loop (draws : Nat → Nat) : Nat → Nat → Row → Option Row
  | 0, _, result => some result
  | n + 1, i, result =>
    (if draws i % 100 < 5 then (arr_set result.cells i I).bind fun cells => some ⟨cells⟩
     else some result).bind (random_row_loop draws n (i + 1))

/-- Function `random_row`: the middle column alive, then each column alive on a 5% draw. -/
def random_row (draws : Nat → Nat) : Option Row :=
  (arr_set (zero_row COLS).cells (COLS / 2) I).bind fun cells =>
  random_row_loop draws COLS 0 ⟨cells⟩

/-- Effect of `memset(board, 0, sizeof(*board))`: every byte of the board is zero. -/
def memset_zero (_board : Board) : Board :=
  ⟨List.replicate ROWS (zero_row COLS), 0, 0⟩

/-- Function `board_init`. -/
def board_init (draws : Nat → Nat) (board : Board) : Option Board :=
  (random_row draws).bind fun r =>
  (arr_set (memset_zero board).rows 0 r).bind fun rows =>
  some { rows := rows, current_row := 0, generation := 0 }

/-- The loop `for (i = ...; i < ROWS - 1; ++i) rows[i] = rows[i + 1]` with `n` iterations left. -/
def scroll_loop : Nat → Nat → List Row → Option (List Row)
  | 0, _, rows => some rows
  | n + 1, i, rows =>
    (arr_get rows (i + 1)).bind fun r =>
    (arr_set rows i r).bind (scroll_loop n (i + 1))

/-- Function `board_next_generation`. -/
def board_next_generation (board : Board) : Option Board :=
  if board.current_row < (ROWS : Int) - 1 then
    let current_row := board.current_row + 1
    (arr_get_int board.rows (current_row - 1)).bind fun prev =>
    (next_row prev).bind fun next =>
    (arr_set_int board.rows current_row next).bind fun rows =>
    some { rows := rows, current_row := current_row,
           generation := wrap_int (board.generation + 1) }
  else
    (scroll_loop (ROWS - 1) 0 board.rows).bind fun rows =>
    (arr_get rows (ROWS - 2)).bind fun prev =>
    (next_row prev).bind fun next =>
    (arr_set rows (ROWS - 1) next).bind fun rows =>
    some { rows := rows, current_row := board.current_row,
           generation := wrap_int (board.generation + 1) }

/-- Run `n` successive calls of `board_next_generation`. -/
def board_advance : Nat → Board → Option Board
  | 0, board => some board
  | n + 1, board => (board_next_generation board).bind (board_advance n)

/-- Boards as the C type has them: `ROWS` rows, each of them well formed. -/
def Board.WF (b : Board) : Prop := b.rows.length = ROWS ∧ ∀ r ∈ b.rows, r.WF

instance (b : Board) : Decidable b.WF := by
  unfold Board.WF; infer_instance

/-- Row with only the middle column alive. -/
def seed_row : Row := ⟨List.replicate 60 O ++ I :: List.replicate 59 O⟩

/-- Initial value of the global `board` (`static Board board = {0}`). -/
def zero_board : Board := ⟨List.replicate ROWS (zero_row COLS), 0, 0⟩

/-- Outcome of `rand()` in which no draw is below 5: every call returns 50. -/
def draws_50 : Nat → Nat := fun _ => 50

/-- Board returned by `board_init` under `draws_50`. -/
def seed_board : Board := ⟨seed_row :: List.replicate 99 (zero_row COLS), 0, 0⟩

/-- Board in the scrolling phase whose generation counter holds `INT_MAX`. -/
def max_generation_board : Board := ⟨List.replicate 100 seed_row, 99, 2147483647⟩

/-- Board in the scrolling phase: every row has its middle column alive, generation 250. -/
def full_board : Board := ⟨List.replicate 100 seed_row, 99, 250⟩

/-- Value of column `j` of the row built by `random_row` once columns below `i` were drawn. -/
def random_cell (draws : Nat → Nat) (i j : Nat) : Cell :=
  if j = COLS / 2 ∨ (j < i ∧ draws j % 100 < 5) then I else O

/-! ## Vertex batch -/

/-- Capacity of the vertex buffer (`#define VERTEX_BUF_CAP (128 * 1024)`). -/
def VERTEX_BUF_CAP : Nat := 128 * 1024

/-- Pair of floats (`V2f`). -/
structure V2f (F : Type) where
  x : F
  y : F
deriving DecidableEq, Repr

/-- Four floats (`V4f`). -/
structure V4f (F : Type) where
  x : F
  y : F
  z : F
  w : F
deriving DecidableEq, Repr

/-- Vertex: position, texture coordinate and colour. -/
structure Vertex (F : Type) where
  pos : V2f F
  uv : V2f F
  color : V4f F
deriving DecidableEq, Repr

/-- Interpretation of the `float` operations the renderer uses; `lit q` is the value of the
literal written `q` in the source and `lt a b` is the comparison `a < b`. -/
structure FloatOps (F : Type) where
  add : F → F → F
  sub : F → F → F
  mul : F → F → F
  div : F → F → F
  neg : F → F
  sqrt : F → F
  lt : F → F → Bool
  ofInt : Int → F
  lit : ℚ → F

/-- The part of `Renderer` the batch functions use: the cursor `vertex_buf_sz` and the
array `vertex_buf`, seen as a map from indices below `VERTEX_BUF_CAP` to vertices. -/
structure Renderer (F : Type) where
  vertex_buf_sz : Nat
  vertex_buf : Nat → Vertex F

/-- Constructor `v2f`. -/
def v2f {F : Type} (x y : F) : V2f F := ⟨x, y⟩

/-- Constructor `v4f`. -/
def v4f {F : Type} (x y z w : F) : V4f F := ⟨x, y, z, w⟩

/-- Function `v2f_add`. -/
def v2f_add {F : Type} (ops : FloatOps F) (a b : V2f F) : V2f F :=
  v2f (ops.add a.x b.x) (ops.add a.y b.y)

/-- Function `v2f_sub`. -/
def v2f_sub {F : Type} (ops : FloatOps F) (a b : V2f F) : V2f F :=
  v2f (ops.sub a.x b.x) (ops.sub a.y b.y)

/-- Function `v2f_scale`. -/
def v2f_scale {F : Type} (ops : FloatOps F) (a : V2f F) (s : F) : V2f F :=
  v2f (ops.mul a.x s) (ops.mul a.y s)

/-- Write `vertex_buf[i] = v`; `none` when `i` is outside the array. -/
def buf_write {F : Type} (buf : Nat → Vertex F) (i : Nat) (v : Vertex F) :
    Option (Nat → Vertex F) :=
  if i < VERTEX_BUF_CAP then some (fun j => if j = i then v else buf j) else none

/-- Function `r_vertex`: on a full buffer the vertex is skipped (a warning is printed). -/
def r_vertex {F : Type} (r : Renderer F) (pos uv : V2f F) (color : V4f F) :
    Option (Renderer F) :=
  if r.vertex_buf_sz ≥ VERTEX_BUF_CAP then some r
  else
    (buf_write r.vertex_buf r.vertex_buf_sz ⟨pos, uv, color⟩).bind fun buf =>
    some ⟨r.vertex_buf_sz + 1, buf⟩

/-- Function `r_quad`. -/
def r_quad {F : Type} (ops : FloatOps F) (r : Renderer F) (p1 p2 : V2f F) (color : V4f F) :
    Option (Renderer F) :=
  let a := p1
  let b := v2f p2.x p1.y
  let c := v2f p1.x p2.y
  let d := p2
  (r_vertex r a (v2f (ops.lit 0) (ops.lit 0)) color).bind fun r =>
  (r_vertex r b (v2f (ops.lit 1) (ops.lit 0)) color).bind fun r =>
  (r_vertex r c (v2f (ops.lit 0) (ops.lit 1)) color).bind fun r =>
  (r_vertex r b (v2f (ops.lit 1) (ops.lit 0)) color).bind fun r =>
  (r_vertex r c (v2f (ops.lit 0) (ops.lit 1)) color).bind fun r =>
  r_vertex r d (v2f (ops.lit 1) (ops.lit 1)) color

/-- Perpendicular offset computed by `r_line`: half the thickness along the normal, or the
unscaled normal when its length is not positive. -/
def line_norm {F : Type} (ops : FloatOps F) (p1 p2 : V2f F) (thickness : F) : V2f F :=
  let dir := v2f_sub ops p2 p1
  let norm := v2f (ops.neg dir.y) dir.x
  let len := ops.sqrt (ops.add (ops.mul norm.x norm.x) (ops.mul norm.y norm.y))
  if ops.lt (ops.lit 0) len then
    v2f_scale ops norm (ops.div thickness (ops.mul (ops.lit 2) len))
  else norm

/-- Function `r_line`. -/
def r_line {F : Type} (ops : FloatOps F) (r : Renderer F) (p1 p2 : V2f F) (color : V4f F)
    (thickness : F) : Option (Renderer F) :=
  let norm := line_norm ops p1 p2 thickness
  let a := v2f_add ops p1 norm
  let b := v2f_sub ops p1 norm
  let c := v2f_add ops p2 norm
  let d := v2f_sub ops p2 norm
  (r_vertex r a (v2f (ops.lit 0) (ops.lit 0)) color).bind fun r =>
  (r_vertex r b (v2f (ops.lit 0) (ops.lit 1)) color).bind fun r =>
  (r_vertex r c (v2f (ops.lit 1) (ops.lit 0)) color).bind fun r =>
  (r_vertex r b (v2f (ops.lit 0) (ops.lit 1)) color).bind fun r =>
  (r_vertex r c (v2f (ops.lit 1) (ops.lit 0)) color).bind fun r =>
  r_vertex r d (v2f (ops.lit 1) (ops.lit 1)) color

/-- Function `r_clear`. -/
def r_clear {F : Type} (r : Renderer F) : Renderer F :=
  { r with vertex_buf_sz := 0 }

/-- Successive calls of `r_vertex`, one per vertex of the list. -/
def r_vertex_list {F : Type} (r : Renderer F) : List (Vertex F) → Option (Renderer F)
  | [] => some r
  | v :: vs => (r_vertex r v.pos v.uv v.color).bind fun r1 => r_vertex_list r1 vs

/-- The six vertices `r_quad` passes to `r_vertex`, in call order. -/
def quad_vertices {F : Type} (ops : FloatOps F) (p1 p2 : V2f F) (color : V4f F) :
    List (Vertex F) :=
  [⟨p1, v2f (ops.lit 0) (ops.lit 0), color⟩,
   ⟨v2f p2.x p1.y, v2f (ops.lit 1) (ops.lit 0), color⟩,
   ⟨v2f p1.x p2.y, v2f (ops.lit 0) (ops.lit 1), color⟩,
   ⟨v2f p2.x p1.y, v2f (ops.lit 1) (ops.lit 0), color⟩,
   ⟨v2f p1.x p2.y, v2f (ops.lit 0) (ops.lit 1), color⟩,
   ⟨p2, v2f (ops.lit 1) (ops.lit 1), color⟩]

/-- The six vertices `r_line` passes to `r_vertex`, in call order. -/
def line_vertices {F : Type} (ops : FloatOps F) (p1 p2 : V2f F) (color : V4f F)
    (thickness : F) : List (Vertex F) :=
  [⟨v2f_add ops p1 (line_norm ops p1 p2 thickness), v2f (ops.lit 0) (ops.lit 0), color⟩,
   ⟨v2f_sub ops p1 (line_norm ops p1 p2 thickness), v2f (ops.lit 0) (ops.lit 1), color⟩,
   ⟨v2f_add ops p2 (line_norm ops p1 p2 thickness), v2f (ops.lit 1) (ops.lit 0), color⟩,
   ⟨v2f_sub ops p1 (line_norm ops p1 p2 thickness), v2f (ops.lit 0) (ops.lit 1), color⟩,
   ⟨v2f_add ops p2 (line_norm ops p1 p2 thickness), v2f (ops.lit 1) (ops.lit 0), color⟩,
   ⟨v2f_sub ops p2 (line_norm ops p1 p2 thickness), v2f (ops.lit 1) (ops.lit 1), color⟩]

/-- One call on the batch, with its arguments. -/
inductive RCall (F : Type) where
  | vertex (pos uv : V2f F) (color : V4f F)
  | quad (p1 p2 : V2f F) (color : V4f F)
  | line (p1 p2 : V2f F) (color : V4f F) (thickness : F)
  | clear

/-- Perform one call on the batch. -/
def r_call {F : Type} (ops : FloatOps F) (r : Renderer F) : RCall F → Option (Renderer F)
  | .vertex pos uv color => r_vertex r pos uv color
  | .quad p1 p2 color => r_quad ops r p1 p2 color
  | .line p1 p2 color thickness => r_line ops r p1 p2 color thickness
  | .clear => some (r_clear r)

/-- Perform a sequence of calls on the batch, in order. -/
def r_calls {F : Type} (ops : FloatOps F) (r : Renderer F) : List (RCall F) → Option (Renderer F)
  | [] => some r
  | c :: cs => (r_call ops r c).bind fun r1 => r_calls ops r1 cs

/-- Exact interpretation of the float operations over the rationals (the square root is the
rational square root of Mathlib, exact on squares). -/
def exact_ops : FloatOps ℚ where
  add := fun a b => a + b
  sub := fun a b => a - b
  mul := fun a b => a * b
  div := fun a b => a / b
  neg := fun a => -a
  sqrt := Rat.sqrt
  lt := fun a b => decide (a < b)
  ofInt := fun n => n
  lit := fun q => q

/-- Vertex at the origin, black and transparent. -/
def zero_vertex : Vertex ℚ := ⟨v2f 0 0, v2f 0 0, v4f 0 0 0 0⟩

/-- Batch holding `sz` vertices, all `zero_vertex`. -/
def batch_of_size (sz : Nat) : Renderer ℚ := ⟨sz, fun _ => zero_vertex⟩

/-! ## Simulation clock -/

/-- Global state of the program that the simulation update reads and writes; the `double`
variables are rational numbers. -/
structure Sim where
  board : Board
  time_accumulator : ℚ
  generation_time : ℚ
  paused : Bool
  show_grid : Bool

/-- The loop `while (time_accumulator >= generation_time)` of `main`, run for at most `fuel`
tests of its condition (`none` when the fuel runs out or a call leaves its arrays); `calls`
counts the calls of `board_next_generation` made so far. -/
def clock_loop : Nat → Sim → Nat → Option (Sim × Nat)
  | 0, _, _ => none
  | fuel + 1, s, calls =>
    if s.time_accumulator ≥ s.generation_time then
      (board_next_generation s.board).bind fun board =>
      clock_loop fuel { s with board := board,
                               time_accumulator := s.time_accumulator - s.generation_time }
        (calls + 1)
    else some (s, calls)

/-- The simulation update of one frame of `main` (`if (!paused) ...`), with the number of
calls of `board_next_generation` it made. -/
def clock_tick (fuel : Nat) (s : Sim) (delta_time : ℚ) : Option (Sim × Nat) :=
  if !s.paused then
    clock_loop fuel { s with time_accumulator := s.time_accumulator + delta_time } 0
  else some (s, 0)

/-- State of the scenario of the specification: interval 0.1, nothing accumulated, running. -/
def scenario_sim : Sim := ⟨seed_board, 0, 1 / 10, false, true⟩

/-- Initial values of the globals (`board = {0}`, no time accumulated, interval 0.15,
running, grid shown). -/
def initial_sim : Sim := ⟨zero_board, 0, 15 / 100, false, true⟩

/-! ## Input handler -/

/-- Value of `GLFW_PRESS`. -/
def GLFW_PRESS : Int := 1

/-- Value of `GLFW_KEY_SPACE`. -/
def GLFW_KEY_SPACE : Int := 32

/-- Value of `GLFW_KEY_R`. -/
def GLFW_KEY_R : Int := 82

/-- Value of `GLFW_KEY_G`. -/
def GLFW_KEY_G : Int := 71

/-- Value of `GLFW_KEY_UP`. -/
def GLFW_KEY_UP : Int := 265

/-- Value of `GLFW_KEY_DOWN`. -/
def GLFW_KEY_DOWN : Int := 264

/-- Value of `GLFW_KEY_ESCAPE`. -/
def GLFW_KEY_ESCAPE : Int := 256

/-- Value of `GLFW_KEY_Q`. -/
def GLFW_KEY_Q : Int := 81

/-- Value of `GLFW_KEY_RIGHT`. -/
def GLFW_KEY_RIGHT : Int := 262

/-- The `switch (key)` of `key_callback`; the boolean tells whether the window was asked to
close; `draws` are the values `rand()` returns should `board_init` be called. -/
def key_switch (s : Sim) (key : Int) (draws : Nat → Nat) : Option (Sim × Bool) :=
  if key = GLFW_KEY_SPACE then some ({ s with paused := !s.paused }, false)
  else if key = GLFW_KEY_R then
    (board_init draws s.board).bind fun board => some ({ s with board := board }, false)
  else if key = GLFW_KEY_G then some ({ s with show_grid := !s.show_grid }, false)
  else if key = GLFW_KEY_UP then
    some ({ s with generation_time := max (1 / 100) (s.generation_time - 1 / 100) }, false)
  else if key = GLFW_KEY_DOWN then
    some ({ s with generation_time := min 1 (s.generation_time + 1 / 100) }, false)
  else if key = GLFW_KEY_ESCAPE ∨ key = GLFW_KEY_Q then some (s, true)
  else some (s, false)

/-- Function `key_callback`. -/
def key_callback (s : Sim) (key action : Int) (draws : Nat → Nat) : Option (Sim × Bool) :=
  if action = GLFW_PRESS then
    (key_switch s key draws).bind fun p =>
    if p.1.paused = true ∧ key = GLFW_KEY_RIGHT then
      (board_next_generation p.1.board).bind fun board => some ({ p.1 with board := board }, p.2)
    else some p
  else some (s, false)

/-- One key event: key, action and the values `rand()` would return. -/
structure KeyEvent where
  key : Int
  action : Int
  draws : Nat → Nat

/-- Handle a sequence of key events, in order. -/
def key_callbacks (s : Sim) : List KeyEvent → Option Sim
  | [] => some s
  | e :: es => (key_callback s e.key e.action e.draws).bind fun p => key_callbacks p.1 es

/-! ## Game of Life (terminal variant, `game_of_life.c`) -/

namespace GameOfLife

/-- Number of rows of the grid (`#define ROWS 50`). -/
def ROWS : Nat := 50

/-- Number of columns of the grid (`#define COLS 50`). -/
def COLS : Nat := 50

/-- Number of cells of the grid (`#define CELLS (ROWS*COLS)`). -/
def CELLS : Nat := ROWS * COLS

/-- Character code of `ALIVE`, the star. -/
def ALIVE : Nat := 42

/-- Character code of `DEAD`, the blank. -/
def DEAD : Nat := 32

/-- Function `cell_to_index`; the operator `%` of C is the truncated remainder. -/
def cell_to_index (x y : Int) : Int :=
  let x := if x ≥ (COLS : Int) then Int.tmod x COLS else x
  let y := if y ≥ (COLS : Int) then Int.tmod y ROWS else y
  let x := if x < 0 then (COLS : Int) - Int.tmod (-x) COLS else x
  let y := if y < 0 then (ROWS : Int) - Int.tmod (-y) ROWS else y
  y * ROWS + x

/-- Function `set_cell`. -/
def set_cell (grid : List Nat) (x y : Int) (state : Nat) : Option (List Nat) :=
  arr_set_int grid (cell_to_index x y) state

/-- Function `get_cell`. -/
def get_cell (grid : List Nat) (x y : Int) : Option Nat :=
  arr_get_int grid (cell_to_index x y)

/-- Inner loop of `count_living_neighbors` (`for (xo = ...; xo <= 1; xo++)`), with `n`
iterations left. -/
def neighbors_xo_loop (grid : List Nat) (x y yo : Int) : Nat → Int → Int → Option Int
  | 0, _, alive => some alive
  | n + 1, xo, alive =>
    if xo = 0 ∧ yo = 0 then neighbors_xo_loop grid x y yo n (xo + 1) alive
    else
      (get_cell grid (x + xo) (y + yo)).bind fun c =>
      neighbors_xo_loop grid x y yo n (xo + 1) (if c = ALIVE then alive + 1 else alive)

/-- Outer loop of `count_living_neighbors` (`for (yo = ...; yo <= 1; yo++)`), with `n`
iterations left. -/
def neighbors_yo_loop (grid : List Nat) (x y : Int) : Nat → Int → Int → Option Int
  | 0, _, alive => some alive
  | n + 1, yo, alive =>
    (neighbors_xo_loop grid x y yo 3 (-1) alive).bind (neighbors_yo_loop grid x y n (yo + 1))

/-- Function `count_living_neighbors`. -/
def count_living_neighbors (grid : List Nat) (x y : Int) : Option Int :=
  neighbors_yo_loop grid x y 3 (-1) 0

/-- New state of a cell from its state and its number of living neighbours. -/
def new_state (c : Nat) (n_alive : Int) : Nat :=
  if c = ALIVE then (if n_alive = 2 ∨ n_alive = 3 then ALIVE else DEAD)
  else (if n_alive = 3 then ALIVE else DEAD)

/-- Inner loop of `compute_new_state` (`for (x = ...; x < COLS; x++)`), with `n` iterations
left. -/
def new_state_x_loop (old : List Nat) (y : Nat) : Nat → Nat → List Nat → Option (List Nat)
  | 0, _, new => some new
  | n + 1, x, new =>
    (count_living_neighbors old x y).bind fun n_alive =>
    (get_cell old x y).bind fun c =>
    (set_cell new x y (new_state c n_alive)).bind (new_state_x_loop old y n (x + 1))

/-- Outer loop of `compute_new_state` (`for (y = ...; y < ROWS; y++)`), with `n` iterations
left. -/
def new_state_y_loop (old : List Nat) : Nat → Nat → List Nat → Option (List Nat)
  | 0, _, new => some new
  | n + 1, y, new => (new_state_x_loop old y COLS 0 new).bind (new_state_y_loop old n (y + 1))

/-- Function `compute_new_state`; the result is the content of `new` after the call. -/
def compute_new_state (old new : List Nat) : Option (List Nat) :=
  new_state_y_loop old ROWS 0 new

/-- Index of the cell `(x, y)` on the torus: mathematical, non-negative remainders. -/
def torus_index (x y : Int) : Int := (y % ROWS) * COLS + x % COLS

/-- Whether the cell `(x, y)` of the torus is alive, as 0 or 1. -/
def torus_alive (grid : List Nat) (x y : Int) : Int :=
  if grid.getD (torus_index x y).toNat DEAD = ALIVE then 1 else 0

/-- Number of alive cells among the 8 cells surrounding `(x, y)` on the torus. -/
def torus_neighbors (grid : List Nat) (x y : Int) : Int :=
  torus_alive grid (x - 1) (y - 1) + torus_alive grid x (y - 1) + torus_alive grid (x + 1) (y - 1)
  + torus_alive grid (x - 1) y + torus_alive grid (x + 1) y
  + torus_alive grid (x - 1) (y + 1) + torus_alive grid x (y + 1) + torus_alive grid (x + 1) (y + 1)

/-- Rule of the Game of Life for the cell `(x, y)`: alive when it is alive with 2 or 3 alive
neighbours, or not alive with exactly 3. -/
def life_rule (old : List Nat) (x y : Nat) : Nat :=
  if (old.getD (y * COLS + x) DEAD = ALIVE ∧
        (torus_neighbors old x y = 2 ∨ torus_neighbors old x y = 3)) ∨
     (old.getD (y * COLS + x) DEAD ≠ ALIVE ∧ torus_neighbors old x y = 3)
  then ALIVE else DEAD

end GameOfLife

/-! ## Frame renderer -/

/-- Colour `COLOR_PINK_V4F`. -/
def COLOR_PINK_V4F {F : Type} (ops : FloatOps F) : V4f F :=
  v4f (ops.lit (73 / 100)) (ops.lit (67 / 100)) (ops.lit 1) (ops.lit 1)

/-- Colour `grid_color` of `board_render`. -/
def grid_color {F : Type} (ops : FloatOps F) : V4f F :=
  v4f (ops.lit (2 / 10)) (ops.lit (2 / 10)) (ops.lit (2 / 10)) (ops.lit (3 / 10))

/-- Top-left corner `v2f(x, y)` of the quad of cell `(row, col)`, with `x = col * cell_width`
and `y = row * cell_height`. -/
def cell_p1 {F : Type} (ops : FloatOps F) (cell_width cell_height : F) (row col : Nat) : V2f F :=
  v2f (ops.mul (ops.ofInt col) cell_width) (ops.mul (ops.ofInt row) cell_height)

/-- Bottom-right corner `v2f(x + cell_width, y + cell_height)` of the quad of a cell. -/
def cell_p2 {F : Type} (ops : FloatOps F) (cell_width cell_height : F) (row col : Nat) : V2f F :=
  v2f (ops.add (ops.mul (ops.ofInt col) cell_width) cell_width)
    (ops.add (ops.mul (ops.ofInt row) cell_height) cell_height)

/-- Inner loop of the cells of `board_render` (`for (col = ...; col < COLS; ++col)`), with `n`
iterations left. -/
def render_cols_loop {F : Type} (ops : FloatOps F) (board : Board) (cell_width cell_height : F)
    (row : Nat) : Nat → Nat → Renderer F → Option (Renderer F)
  | 0, _, r => some r
  | n + 1, col, r =>
    (arr_get board.rows row).bind fun the_row =>
    (arr_get the_row.cells col).bind fun c =>
    (if c = I then
      r_quad ops r (cell_p1 ops cell_width cell_height row col)
        (cell_p2 ops cell_width cell_height row col) (COLOR_PINK_V4F ops)
     else some r).bind (render_cols_loop ops board cell_width cell_height row n (col + 1))

/-- Outer loop of the cells of `board_render` (`for (row = ...; row <= max_row; ++row)`), with
`n` iterations left. -/
def render_rows_loop {F : Type} (ops : FloatOps F) (board : Board) (cell_width cell_height : F) :
    Nat → Nat → Renderer F → Option (Renderer F)
  | 0, _, r => some r
  | n + 1, row, r =>
    (render_cols_loop ops board cell_width cell_height row COLS 0 r).bind
      (render_rows_loop ops board cell_width cell_height n (row + 1))

/-- Loop of the vertical grid lines (`for (col = ...; col <= COLS; col += col_step)`), run for
at most `fuel` tests of its condition (`none` when the fuel runs out). -/
def grid_cols_loop {F : Type} (ops : FloatOps F) (cell_width : F) (height : Int)
    (col_step : Nat) : Nat → Nat → Renderer F → Option (Renderer F)
  | 0, _, _ => none
  | fuel + 1, col, r =>
    if col ≤ COLS then
      (r_line ops r (v2f (ops.mul (ops.ofInt col) cell_width) (ops.ofInt 0))
        (v2f (ops.mul (ops.ofInt col) cell_width) (ops.ofInt height)) (grid_color ops)
        (ops.lit 1)).bind (grid_cols_loop ops cell_width height col_step fuel (col + col_step))
    else some r

/-- Loop of the horizontal grid lines (`for (row = ...; row <= max_row; row += row_step)`),
run for at most `fuel` tests of its condition (`none` when the fuel runs out). -/
def grid_rows_loop {F : Type} (ops : FloatOps F) (cell_height : F) (width : Int)
    (max_row : Int) (row_step : Nat) : Nat → Nat → Renderer F → Option (Renderer F)
  | 0, _, _ => none
  | fuel + 1, row, r =>
    if (row : Int) ≤ max_row then
      (r_line ops r (v2f (ops.ofInt 0) (ops.mul (ops.ofInt row) cell_height))
        (v2f (ops.ofInt width) (ops.mul (ops.ofInt row) cell_height)) (grid_color ops)
        (ops.lit 1)).bind
        (grid_rows_loop ops cell_height width max_row row_step fuel (row + row_step))
    else some r

/-- Value `max_row` of `board_render`. -/
def max_row (board : Board) : Int :=
  if board.current_row < (ROWS : Int) - 1 then board.current_row else (ROWS : Int) - 1

/-- Whether `board_render` draws the grid:
`show_grid && cell_width > 2.0f && cell_height > 2.0f`. -/
def grid_shown {F : Type} (ops : FloatOps F) (show_grid : Bool) (cell_width cell_height : F) :
    Bool :=
  show_grid && ops.lt (ops.lit 2) cell_width && ops.lt (ops.lit 2) cell_height

/-- Step of a grid loop: 5 when the cell dimension is below 4, else 1. -/
def grid_step {F : Type} (ops : FloatOps F) (cell_dim : F) : Nat :=
  if ops.lt cell_dim (ops.lit 4) then 5 else 1

/-- Function `board_render`; `show_grid` is the value of the global of that name. The board is
only read: the function returns the batch alone. -/
def board_render {F : Type} (ops : FloatOps F) (show_grid : Bool) (r : Renderer F)
    (board : Board) (width height : Int) : Option (Renderer F) :=
  let cell_width := ops.div (ops.ofInt width) (ops.ofInt COLS)
  let cell_height := ops.div (ops.ofInt height) (ops.ofInt ROWS)
  (render_rows_loop ops board cell_width cell_height (max_row board + 1).toNat 0 r).bind fun r =>
  if grid_shown ops show_grid cell_width cell_height then
    (grid_cols_loop ops cell_width height (grid_step ops cell_width) (COLS + 2) 0 r).bind fun r =>
    grid_rows_loop ops cell_height width (max_row board) (grid_step ops cell_height) (ROWS + 2) 0 r
  else some r

/-- Columns of a row that hold an alive cell, in increasing order. -/
def alive_cols (row : Row) : List Nat :=
  (List.range COLS).filter fun col => decide (row.cells.getD col O = I)

/-- Number of alive cells in the rows `0 .. current_row` of a board. -/
def alive_count (board : Board) : Nat :=
  ((List.range (board.current_row.toNat + 1)).map fun row =>
    (alive_cols (board.rows.getD row ⟨[]⟩)).length).sum

/-- Vertices of the quads of the alive cells of row `row`, by increasing column. -/
def row_vertices {F : Type} (ops : FloatOps F) (board : Board) (cell_width cell_height : F)
    (row : Nat) : List (Vertex F) :=
  (alive_cols (board.rows.getD row ⟨[]⟩)).flatMap fun col =>
    quad_vertices ops (cell_p1 ops cell_width cell_height row col)
      (cell_p2 ops cell_width cell_height row col) (COLOR_PINK_V4F ops)

/-- Vertices of the quads of the alive cells of the rows `0 .. current_row`, in row-major
order. -/
def cells_vertices {F : Type} (ops : FloatOps F) (board : Board) (width height : Int) :
    List (Vertex F) :=
  (List.range (board.current_row.toNat + 1)).flatMap
    (row_vertices ops board (ops.div (ops.ofInt width) (ops.ofInt COLS))
      (ops.div (ops.ofInt height) (ops.ofInt ROWS)))

/-- Vertices of the vertical grid lines, in the order of `grid_cols_loop`. -/
def grid_cols_vertices {F : Type} (ops : FloatOps F) (cell_width : F) (height : Int)
    (col_step : Nat) : Nat → Nat → List (Vertex F)
  | 0, _ => []
  | fuel + 1, col =>
    if col ≤ COLS then
      line_vertices ops (v2f (ops.mul (ops.ofInt col) cell_width) (ops.ofInt 0))
        (v2f (ops.mul (ops.ofInt col) cell_width) (ops.ofInt height)) (grid_color ops)
        (ops.lit 1) ++ grid_cols_vertices ops cell_width height col_step fuel (col + col_step)
    else []

/-- Vertices of the horizontal grid lines, in the order of `grid_rows_loop`. -/
def grid_rows_vertices {F : Type} (ops : FloatOps F) (cell_height : F) (width : Int)
    (max_row : Int) (row_step : Nat) : Nat → Nat → List (Vertex F)
  | 0, _ => []
  | fuel + 1, row =>
    if (row : Int) ≤ max_row then
      line_vertices ops (v2f (ops.ofInt 0) (ops.mul (ops.ofInt row) cell_height))
        (v2f (ops.ofInt width) (ops.mul (ops.ofInt row) cell_height)) (grid_color ops)
        (ops.lit 1) ++
        grid_rows_vertices ops cell_height width max_row row_step fuel (row + row_step)
    else []

/-- Vertices `board_render` passes to `r_vertex`, in call order: the quads of the alive
cells, then the vertical and the horizontal grid lines when the grid is drawn. -/
def render_vertices {F : Type} (ops : FloatOps F) (show_grid : Bool) (board : Board)
    (width height : Int) : List (Vertex F) :=
  cells_vertices ops board width height ++
    (if grid_shown ops show_grid (ops.div (ops.ofInt width) (ops.ofInt COLS))
        (ops.div (ops.ofInt height) (ops.ofInt ROWS)) then
      grid_cols_vertices ops (ops.div (ops.ofInt width) (ops.ofInt COLS)) height
        (grid_step ops (ops.div (ops.ofInt width) (ops.ofInt COLS))) (COLS + 2) 0 ++
      grid_rows_vertices ops (ops.div (ops.ofInt height) (ops.ofInt ROWS)) width
        (max_row board) (grid_step ops (ops.div (ops.ofInt height) (ops.ofInt ROWS)))
        (ROWS + 2) 0
    else [])

/-- Board with one alive cell in every row, of which only row 0 is populated. -/
def one_row_board : Board := ⟨List.replicate 100 seed_row, 0, 0⟩

/-! ## Predicates and inputs of the statements -/

/-- Rows of index `1 .. current_row` are the Rule 110 successors of the rows before them. -/
def Board.chained (b : Board) : Prop :=
  ∀ i : Nat, 1 ≤ i → (i : Int) ≤ b.current_row →
    ∃ p q, b.rows[i - 1]? = some p ∧ b.rows[i]? = some q ∧ next_row p = some q

/-- Board reached from `seed_board` by one call of `board_next_generation`. -/
def seed_board_1 : Board :=
  ⟨seed_row :: rule110_row COLS seed_row :: List.replicate 98 (zero_row COLS), 1, 1⟩

/-- The board of the state is well formed with `0 ≤ current_row ≤ ROWS - 1`. -/
def Sim.valid (s : Sim) : Prop :=
  s.board.WF ∧ 0 ≤ s.board.current_row ∧ s.board.current_row ≤ (ROWS : Int) - 1

/-- Generation time after a key event, as the handler computes it: `fmax(0.01, g - 0.01)`
on a press of UP, `fmin(1.0, g + 0.01)` on a press of DOWN, unchanged otherwise. -/
def next_generation_time (g : ℚ) (key action : Int) : ℚ :=
  if action = GLFW_PRESS ∧ key = GLFW_KEY_UP then max (1 / 100) (g - 1 / 100)
  else if action = GLFW_PRESS ∧ key = GLFW_KEY_DOWN then min 1 (g + 1 / 100)
  else g

/-- Paused state with some time accumulated. -/
def paused_sim : Sim := ⟨seed_board, 3 / 100, 1 / 10, true, true⟩

/-- Every call of `r_vertex` of the sequence finds room: none takes the overflow branch. -/
def r_vertex_list_room {F : Type} (r : Renderer F) : List (Vertex F) → Bool
  | [] => true
  | v :: vs =>
    decide (r.vertex_buf_sz < VERTEX_BUF_CAP) &&
      match r_vertex r v.pos v.uv v.color with
      | some r1 => r_vertex_list_room r1 vs
      | none => false

/-! ## Extended float values -/

/-- Value of a `float`: a finite number, an infinity or a NaN. Finite values are kept as
rationals and the operations on them are exact: rounding, overflow to an infinity and the sign
of zero are not represented. -/
inductive XFloat where
  | fin (q : ℚ)
  | pinf
  | ninf
  | nan
deriving DecidableEq

/-- Negation of a `float`. -/
def XFloat.neg : XFloat → XFloat
  | .fin q => .fin (-q)
  | .pinf => .ninf
  | .ninf => .pinf
  | .nan => .nan

/-- Addition of two `float`s: a NaN operand gives NaN, and so do infinities of opposite
signs. -/
def XFloat.add : XFloat → XFloat → XFloat
  | .fin a, .fin b => .fin (a + b)
  | .fin _, .pinf => .pinf
  | .fin _, .ninf => .ninf
  | .pinf, .fin _ => .pinf
  | .pinf, .pinf => .pinf
  | .pinf, .ninf => .nan
  | .ninf, .fin _ => .ninf
  | .ninf, .ninf => .ninf
  | .ninf, .pinf => .nan
  | .nan, _ => .nan
  | _, .nan => .nan

/-- Subtraction of two `float`s. -/
def XFloat.sub (a b : XFloat) : XFloat := XFloat.add a (XFloat.neg b)

/-- Infinity with the sign of `q`, NaN when `q` is zero. -/
def XFloat.inf_of_sign (q : ℚ) : XFloat :=
  if 0 < q then .pinf else if q < 0 then .ninf else .nan

/-- Multiplication of two `float`s: a NaN operand gives NaN, and so does zero times an
infinity. -/
def XFloat.mul : XFloat → XFloat → XFloat
  | .fin a, .fin b => .fin (a * b)
  | .fin a, .pinf => XFloat.inf_of_sign a
  | .fin a, .ninf => XFloat.inf_of_sign (-a)
  | .pinf, .fin b => XFloat.inf_of_sign b
  | .ninf, .fin b => XFloat.inf_of_sign (-b)
  | .pinf, .pinf => .pinf
  | .pinf, .ninf => .ninf
  | .ninf, .pinf => .ninf
  | .ninf, .ninf => .pinf
  | .nan, _ => .nan
  | _, .nan => .nan

/-- Division of two `float`s: a NaN operand gives NaN, and so do `0 / 0` and an infinity
over an infinity; a non-zero finite value over zero gives an infinity. -/
def XFloat.div : XFloat → XFloat → XFloat
  | .fin a, .fin b => if b = 0 then XFloat.inf_of_sign a else .fin (a / b)
  | .fin _, .pinf => .fin 0
  | .fin _, .ninf => .fin 0
  | .pinf, .fin b => if 0 ≤ b then .pinf else .ninf
  | .ninf, .fin b => if 0 ≤ b then .ninf else .pinf
  | .pinf, .pinf => .nan
  | .pinf, .ninf => .nan
  | .ninf, .pinf => .nan
  | .ninf, .ninf => .nan
  | .nan, _ => .nan
  | _, .nan => .nan

/-- Square root of a `float` (`sqrtf`): NaN below zero. -/
def XFloat.sqrt : XFloat → XFloat
  | .fin q => if q < 0 then .nan else .fin (Rat.sqrt q)
  | .pinf => .pinf
  | .ninf => .nan
  | .nan => .nan

/-- Comparison `a < b` of two `float`s: false when an operand is NaN. -/
def XFloat.lt : XFloat → XFloat → Bool
  | .fin a, .fin b => decide (a < b)
  | .fin _, .pinf => true
  | .ninf, .fin _ => true
  | .ninf, .pinf => true
  | _, _ => false

/-- Interpretation of the float operations over finite values, infinities and NaN. -/
def ext_ops : FloatOps XFloat where
  add := XFloat.add
  sub := XFloat.sub
  mul := XFloat.mul
  div := XFloat.div
  neg := XFloat.neg
  sqrt := XFloat.sqrt
  lt := XFloat.lt
  ofInt := fun n => .fin n
  lit := fun q => .fin q

/-- Empty batch over the extended values. -/
def ext_batch : Renderer XFloat :=
  ⟨0, fun _ =>
    ⟨v2f (.fin 0) (.fin 0), v2f (.fin 0) (.fin 0), v4f (.fin 0) (.fin 0) (.fin 0) (.fin 0)⟩⟩

/-- Point with an infinite abscissa. -/
def inf_point : V2f XFloat := v2f .pinf (.fin 2)

/-- Colour red. -/
def ext_red : V4f XFloat := v4f (.fin 1) (.fin 0) (.fin 0) (.fin 1)

namespace GameOfLife

/-- One coordinate after the two wrapping steps of `cell_to_index`. -/
def wrap_coord (x : Int) : Int :=
  if (if x ≥ 50 then Int.tmod x 50 else x) < 0
  then 50 - Int.tmod (-(if x ≥ 50 then Int.tmod x 50 else x)) 50
  else (if x ≥ 50 then Int.tmod x 50 else x)

/-- Rule of the Game of Life for the cell of linear index `j`. -/
def life_rule_at (old : List Nat) (j : Nat) : Nat := life_rule old (j % COLS) (j / COLS)

/-- Grid whose cells are all dead. -/
def dead_grid : List Nat := List.replicate CELLS DEAD

/-- Grid with a blinker lying across the left and right borders of row 0: the cells
`(49, 0)`, `(0, 0)` and `(1, 0)` are alive. -/
def blinker_grid : List Nat := ((dead_grid.set 49 ALIVE).set 0 ALIVE).set 1 ALIVE

/-- Grid whose cells are all alive. -/
def full_grid : List Nat := List.replicate CELLS ALIVE

end GameOfLife

/-! ## Terminal variant of the rule engine (`rule110.c`) -/

namespace Rule110

/-- Width of a row of the terminal variant (`#define ROW_SIZE 60`). -/
def ROW_SIZE : Nat := 60

/-- Rule 110 lookup table of `rule110.c`. -/
def patterns : List Cell := [O, I, I, I, O, I, I, O]

/-- Body of the `for` loop of `next_row` of `rule110.c` at column `i`. -/
def next_row_body (prev : Row) (i : Nat) (next : Row) : Option Row :=
  (arr_get prev.cells (i - 1)).bind fun left =>
  (arr_get prev.cells i).bind fun center =>
  (arr_get prev.cells (i + 1)).bind fun right =>
  (arr_get patterns (pattern_index left center right)).bind fun p =>
  (arr_set next.cells i p).bind fun cells =>
  some ⟨cells⟩

/-- The loop `for (i = ...; i < ROW_SIZE-1; ++i)` of `next_row` of `rule110.c`, with `n`
iterations left. -/
def next_row_loop (prev : Row) : Nat → Nat → Row → Option Row
  | 0, _, next => some next
  | n + 1, i, next => (next_row_body prev i next).bind (next_row_loop prev n (i + 1))

/-- Function `next_row` of `rule110.c` for rows of width `W`: the loop runs over the columns
`1 .. W - 2`. -/
def next_row_w (W : Nat) (prev : Row) : Option Row :=
  next_row_loop prev (W - 2) 1 (zero_row W)

/-- Function `next_row` of `rule110.c` (rows of width `ROW_SIZE`). -/
def next_row (prev : Row) : Option Row := next_row_w ROW_SIZE prev

/-- Rule 110 value of an interior column, a dead cell at the two border columns. -/
def interior_at (W : Nat) (prev : Row) (i : Nat) : Cell :=
  if 1 ≤ i ∧ i + 1 < W then rule110_at W prev i else O

/-- Row of width `W` whose cells are all alive. -/
def alive_row (W : Nat) : Row := ⟨List.replicate W I⟩

end Rule110

/-! ## 32-bit counter: lemmas -/

theorem wrap_int_of_range (x : Int) (h1 : INT_MIN ≤ x) (h2 : x ≤ INT_MAX) : wrap_int x = x := by
  unfold INT_MIN at h1
  unfold INT_MAX at h2
  unfold wrap_int
  omega

theorem wrap_int_range (x : Int) : INT_MIN ≤ wrap_int x ∧ wrap_int x ≤ INT_MAX := by
  unfold INT_MIN INT_MAX wrap_int
  omega

theorem wrap_int_idem (x : Int) : wrap_int (wrap_int x) = wrap_int x := by
  unfold wrap_int
  omega

theorem wrap_int_add (x y : Int) : wrap_int (wrap_int x + y) = wrap_int (x + y) := by
  unfold wrap_int
  omega

/-! ## Rule engine: lemmas -/

theorem patterns_lookup (l c r : Cell) (hl : l = O ∨ l = I) (hc : c = O ∨ c = I)
    (hr : r = O ∨ r = I) :
    pattern_index l c r < 8 ∧ arr_get patterns (pattern_index l c r) = some (rule110 l c r) := by
  rcases hl with rfl | rfl <;> rcases hc with rfl | rfl <;> rcases hr with rfl | rfl <;>
    exact ⟨by decide, by decide⟩

theorem getD_binary (r : Row) (hb : r.binary) (i : Nat) :
    r.cells.getD i 0 = O ∨ r.cells.getD i 0 = I := by
  by_cases h : i < r.cells.length
  · have hm : r.cells.getD i 0 ∈ r.cells := by
      rw [List.getD_eq_getElem _ _ h]
      exact List.getElem_mem h
    exact hb _ hm
  · left
    rw [List.getD_eq_default _ _ (by omega)]
    rfl

theorem left_of_binary (r : Row) (hb : r.binary) (i : Nat) :
    left_of r i = O ∨ left_of r i = I := by
  unfold left_of
  split
  · left; rfl
  · exact getD_binary r hb _

theorem right_of_binary (W : Nat) (r : Row) (hb : r.binary) (i : Nat) :
    right_of W r i = O ∨ right_of W r i = I := by
  unfold right_of
  split
  · left; rfl
  · exact getD_binary r hb _

theorem arr_get_eq_getD (l : List Cell) (i : Nat) (h : i < l.length) :
    arr_get l i = some (l.getD i 0) := by
  unfold arr_get
  rw [List.getD_eq_getElem _ _ h]
  exact List.getElem?_eq_getElem h

/-- One iteration of the loop of `next_row` stores the Rule 110 value at column `i`. -/
theorem next_row_body_eq (W : Nat) (prev next : Row) (hlen : prev.cells.length = W)
    (hb : prev.binary) (i : Nat) (hi : i < W) (hn : i < next.cells.length) :
    next_row_body W prev i next = some ⟨next.cells.set i (rule110_at W prev i)⟩ := by
  have hleft : (if i = 0 then some 0 else arr_get prev.cells (i - 1)) = some (left_of prev i) := by
    unfold left_of
    split
    · rfl
    · exact arr_get_eq_getD _ _ (by omega)
  have hright : (if i = W - 1 then some 0 else arr_get prev.cells (i + 1))
      = some (right_of W prev i) := by
    unfold right_of
    split
    · rfl
    · exact arr_get_eq_getD _ _ (by omega)
  have hcenter : arr_get prev.cells i = some (prev.cells.getD i 0) :=
    arr_get_eq_getD _ _ (by omega)
  have hpat := (patterns_lookup _ _ _ (left_of_binary prev hb i) (getD_binary prev hb i)
    (right_of_binary W prev hb i)).2
  unfold next_row_body
  rw [hleft, hcenter, hright]
  simp only [Option.some_bind, hpat, arr_set, hn, if_true, rule110_at]

/-- Loop invariant of `next_row`: columns below `i` hold their Rule 110 value, the others are
still dead; the loop then ends with the whole Rule 110 row. -/
theorem next_row_loop_eq (W : Nat) (prev : Row) (hlen : prev.cells.length = W) (hb : prev.binary) :
    ∀ (n i : Nat) (next : Row), i + n = W →
      next.cells = (List.range i).map (rule110_at W prev) ++ List.replicate n O →
      next_row_loop W prev n i next = some (rule110_row W prev) := by
  intro n
  induction n with
  | zero =>
    intro i next hin hc
    simp only [next_row_loop, rule110_row]
    have : i = W := by omega
    subst this
    congr 1
    cases next
    simpa using hc
  | succ n ih =>
    intro i next hin hc
    have hn : i < next.cells.length := by
      rw [hc]; simp
    rw [next_row_loop, next_row_body_eq W prev next hlen hb i (by omega) hn, Option.some_bind]
    apply ih (i + 1) _ (by omega)
    show next.cells.set i (rule110_at W prev i) = _
    rw [hc, List.range_succ, List.map_append, List.replicate_succ]
    rw [List.set_append_right _ _ (by simp)]
    simp

/-- Function `next_row_w` computes the Rule 110 row on binary rows of width `W`. -/
theorem next_row_w_eq (W : Nat) (prev : Row) (hlen : prev.cells.length = W) (hb : prev.binary) :
    next_row_w W prev = some (rule110_row W prev) :=
  next_row_loop_eq W prev hlen hb W 0 (zero_row W) (by omega) (by simp [zero_row])

theorem rule110_binary (l c r : Cell) : rule110 l c r = O ∨ rule110 l c r = I := by
  unfold rule110
  split <;> simp [O, I]

theorem rule110_row_WF (prev : Row) : (rule110_row COLS prev).WF := by
  constructor
  · simp [rule110_row]
  · intro c hc
    simp only [rule110_row, List.mem_map] at hc
    obtain ⟨i, _, rfl⟩ := hc
    exact rule110_binary _ _ _

/-- On a well-formed row `next_row` succeeds and returns the Rule 110 row. -/
theorem next_row_eq (prev : Row) (h : prev.WF) : next_row prev = some (rule110_row COLS prev) :=
  next_row_w_eq COLS prev h.1 h.2

/-! ## Scrolling board: lemmas -/

theorem random_row_loop_spec (draws : Nat → Nat) :
    ∀ (n i : Nat) (result : Row), i + n = COLS → result.cells.length = COLS →
      (∀ j, j < COLS → result.cells[j]? = some (random_cell draws i j)) →
      ∃ r, random_row_loop draws n i result = some r ∧ r.cells.length = COLS ∧
        ∀ j, j < COLS → r.cells[j]? = some (random_cell draws COLS j) := by
  intro n
  induction n with
  | zero =>
    intro i result hin hlen hc
    have : i = COLS := by omega
    subst this
    exact ⟨result, rfl, hlen, hc⟩
  | succ n ih =>
    intro i result hin hlen hc
    rw [random_row_loop]
    by_cases hd : draws i % 100 < 5
    · have hi : i < result.cells.length := by omega
      simp only [hd, if_true, arr_set, hi, Option.some_bind]
      apply ih (i + 1) _ (by omega) (by simpa using hlen)
      intro j hj
      rw [List.getElem?_set]
      by_cases hij : i = j
      · subst hij
        simp [hi, random_cell, hd]
      · rw [if_neg hij, hc j hj]
        congr 1
        unfold random_cell
        have : (j < i + 1 ∧ draws j % 100 < 5) ↔ (j < i ∧ draws j % 100 < 5) := by
          constructor
          · rintro ⟨h1, h2⟩; exact ⟨by omega, h2⟩
          · rintro ⟨h1, h2⟩; exact ⟨by omega, h2⟩
        simp only [this]
    · simp only [hd, if_false, Option.some_bind]
      apply ih (i + 1) _ (by omega) hlen
      intro j hj
      rw [hc j hj]
      congr 1
      unfold random_cell
      have : (j < i + 1 ∧ draws j % 100 < 5) ↔ (j < i ∧ draws j % 100 < 5) := by
        constructor
        · rintro ⟨h1, h2⟩
          refine ⟨?_, h2⟩
          rcases Nat.lt_succ_iff_lt_or_eq.mp h1 with h | h
          · exact h
          · subst h; exact absurd h2 hd
        · rintro ⟨h1, h2⟩; exact ⟨by omega, h2⟩
      simp only [this]

/-- Function `random_row` always returns a row; column `j` is alive exactly when it is the
middle column or its draw was below 5. -/
theorem random_row_spec (draws : Nat → Nat) :
    ∃ r, random_row draws = some r ∧ r.cells.length = COLS ∧
      ∀ j, j < COLS → r.cells[j]? = some (random_cell draws COLS j) := by
  unfold random_row
  have hm : COLS / 2 < (zero_row COLS).cells.length := by simp [zero_row, COLS]
  simp only [arr_set, hm, if_true, Option.some_bind]
  apply random_row_loop_spec draws COLS 0 _ (by omega) (by simp [zero_row])
  intro j hj
  rw [List.getElem?_set]
  by_cases hij : COLS / 2 = j
  · simp [hij.symm, hm, random_cell]
  · rw [if_neg hij]
    have hne : ¬ (j = COLS / 2) := fun h => hij h.symm
    simp [zero_row, hj, random_cell, hne]

theorem random_cell_binary (draws : Nat → Nat) (i j : Nat) :
    random_cell draws i j = O ∨ random_cell draws i j = I := by
  unfold random_cell
  split
  · right; rfl
  · left; rfl

theorem random_row_WF (draws : Nat → Nat) (r : Row) (h : random_row draws = some r) : r.WF := by
  obtain ⟨r', hr, hlen, hc⟩ := random_row_spec draws
  rw [h] at hr
  cases hr
  refine ⟨hlen, ?_⟩
  intro c hmem
  obtain ⟨j, hj⟩ := List.mem_iff_getElem?.mp hmem
  have hjlt : j < COLS := by
    by_contra hge
    rw [List.getElem?_eq_none (by omega)] at hj
    cases hj
  rw [hc j hjlt] at hj
  cases hj
  exact random_cell_binary _ _ _

theorem zero_row_WF : (zero_row COLS).WF := by
  constructor
  · simp [zero_row]
  · intro c hc
    left
    exact List.eq_of_mem_replicate hc

/-- Function `board_init` always returns a board: row 0 is the random row, every other row
is dead, both counters are zero. -/
theorem board_init_spec (draws : Nat → Nat) (prior : Board) :
    ∃ r, random_row draws = some r ∧
      board_init draws prior = some ⟨r :: List.replicate (ROWS - 1) (zero_row COLS), 0, 0⟩ := by
  obtain ⟨r, hr, _, _⟩ := random_row_spec draws
  refine ⟨r, hr, ?_⟩
  unfold board_init
  rw [hr]
  simp [memset_zero, arr_set, ROWS, List.replicate_succ]

theorem board_init_WF (draws : Nat → Nat) (prior b : Board)
    (h : board_init draws prior = some b) :
    b.WF ∧ b.current_row = 0 ∧ b.generation = 0 := by
  obtain ⟨r, hr, hb⟩ := board_init_spec draws prior
  rw [h] at hb
  cases hb
  refine ⟨⟨by simp [ROWS], ?_⟩, rfl, rfl⟩
  intro x hx
  rcases List.mem_cons.mp hx with rfl | hx
  · exact random_row_WF draws _ hr
  · rw [List.eq_of_mem_replicate hx]
    exact zero_row_WF

theorem Board.WF_get (b : Board) (hwf : b.WF) (i : Nat) (r : Row) (h : b.rows[i]? = some r) :
    r.WF :=
  hwf.2 r (List.mem_iff_getElem?.mpr ⟨i, h⟩)

/-- Filling step: with `0 ≤ current_row < ROWS - 1` the call stores the Rule 110 successor of
row `current_row` at index `current_row + 1` and increments both counters. -/
theorem board_next_generation_fill (b : Board) (hwf : b.WF) (h0 : 0 ≤ b.current_row)
    (h1 : b.current_row < (ROWS : Int) - 1) :
    ∃ prev, b.rows[b.current_row.toNat]? = some prev ∧
      board_next_generation b = some ⟨b.rows.set (b.current_row.toNat + 1) (rule110_row COLS prev),
        b.current_row + 1, wrap_int (b.generation + 1)⟩ := by
  have hlen := hwf.1
  have hlt : b.current_row.toNat < b.rows.length := by
    have : (ROWS : Int) = 100 := rfl
    omega
  refine ⟨b.rows[b.current_row.toNat], List.getElem?_eq_getElem hlt, ?_⟩
  have hprev : (b.rows[b.current_row.toNat]).WF :=
    b.WF_get hwf _ _ (List.getElem?_eq_getElem hlt)
  have h2 : (0 : Int) ≤ b.current_row + 1 := by omega
  have h3 : (b.current_row + 1).toNat = b.current_row.toNat + 1 := by omega
  have h4 : b.current_row.toNat + 1 < b.rows.length := by
    have : (ROWS : Int) = 100 := rfl
    have : ROWS = 100 := rfl
    omega
  unfold board_next_generation
  rw [if_pos h1]
  simp only [arr_get_int, arr_set_int, arr_get, arr_set, add_sub_cancel_right, h0, h2, h3, h4,
    if_true, List.getElem?_eq_getElem hlt, Option.some_bind, next_row_eq _ hprev]

theorem scroll_loop_spec (orig : List Row) :
    ∀ (n i : Nat) (rows : List Row), i + n + 1 = orig.length → rows.length = orig.length →
      (∀ j, rows[j]? = if j < i then orig[j + 1]? else orig[j]?) →
      ∃ rows', scroll_loop n i rows = some rows' ∧ rows'.length = orig.length ∧
        ∀ j, rows'[j]? = if j < orig.length - 1 then orig[j + 1]? else orig[j]? := by
  intro n
  induction n with
  | zero =>
    intro i rows hin hlen hc
    have : i = orig.length - 1 := by omega
    subst this
    exact ⟨rows, rfl, hlen, hc⟩
  | succ n ih =>
    intro i rows hin hlen hc
    have hr : rows[i + 1]? = some (orig[i + 1]) := by
      rw [hc (i + 1), if_neg (by omega)]
      exact List.getElem?_eq_getElem (by omega)
    have hi : i < rows.length := by omega
    rw [scroll_loop]
    simp only [arr_get, arr_set, hr, hi, if_true, Option.some_bind]
    apply ih (i + 1) _ (by omega) (by simpa using hlen)
    intro j
    rw [List.getElem?_set]
    by_cases hij : i = j
    · subst hij
      rw [if_pos rfl, if_pos hi, if_pos (by omega)]
      exact (List.getElem?_eq_getElem (by omega)).symm
    · rw [if_neg hij, hc j]
      by_cases hlt : j < i
      · rw [if_pos hlt, if_pos (by omega)]
      · rw [if_neg hlt, if_neg (by omega)]

/-- Scrolling step: with `current_row ≥ ROWS - 1` the call shifts every row one index down,
stores the Rule 110 successor of the old last row at index `ROWS - 1`, increments
`generation` and leaves `current_row` as it is. -/
theorem board_next_generation_scroll (b : Board) (hwf : b.WF)
    (h : ¬ b.current_row < (ROWS : Int) - 1) :
    ∃ last b', b.rows[ROWS - 1]? = some last ∧ board_next_generation b = some b' ∧
      b'.current_row = b.current_row ∧ b'.generation = wrap_int (b.generation + 1) ∧
      b'.rows.length = ROWS ∧ (∀ j, j < ROWS - 1 → b'.rows[j]? = b.rows[j + 1]?) ∧
      b'.rows[ROWS - 1]? = some (rule110_row COLS last) := by
  have hlen := hwf.1
  have hR : ROWS = 100 := rfl
  obtain ⟨rows', hs, hlen', hc⟩ := scroll_loop_spec b.rows (ROWS - 1) 0 b.rows (by omega) rfl
    (by intro j; simp)
  have hlast : b.rows[ROWS - 1]? = some (b.rows[ROWS - 1]) :=
    List.getElem?_eq_getElem (by omega)
  have hprev : rows'[ROWS - 2]? = some (b.rows[ROWS - 1]) := by
    rw [hc (ROWS - 2), if_pos (by omega)]
    exact hlast
  have hwfl : (b.rows[ROWS - 1]).WF := b.WF_get hwf _ _ hlast
  have hi : ROWS - 1 < rows'.length := by omega
  refine ⟨b.rows[ROWS - 1], ⟨rows'.set (ROWS - 1) (rule110_row COLS (b.rows[ROWS - 1])),
    b.current_row, wrap_int (b.generation + 1)⟩, hlast, ?_, rfl, rfl, ?_, ?_, ?_⟩
  · unfold board_next_generation
    rw [if_neg h, hs]
    simp only [Option.some_bind, arr_get, hprev, next_row_eq _ hwfl, arr_set, hi, if_true]
  · simp only [List.length_set]; omega
  · intro j hj
    show (rows'.set (ROWS - 1) _)[j]? = _
    rw [List.getElem?_set, if_neg (by omega), hc j, if_pos (by omega)]
  · show (rows'.set (ROWS - 1) _)[ROWS - 1]? = _
    rw [List.getElem?_set, if_pos rfl, if_pos hi]

/-- A call of `board_next_generation` on a well-formed board with `0 ≤ current_row` returns a
well-formed board, `generation` incremented as a 32-bit `int` and `current_row` incremented
below `ROWS - 1`. -/
theorem board_next_generation_WF (b : Board) (hwf : b.WF) (h0 : 0 ≤ b.current_row) :
    ∃ b', board_next_generation b = some b' ∧ b'.WF ∧
      b'.generation = wrap_int (b.generation + 1) ∧
      b'.current_row = if b.current_row < (ROWS : Int) - 1 then b.current_row + 1
        else b.current_row := by
  by_cases h1 : b.current_row < (ROWS : Int) - 1
  · obtain ⟨prev, _, hb⟩ := board_next_generation_fill b hwf h0 h1
    refine ⟨_, hb, ⟨?_, ?_⟩, rfl, ?_⟩
    · simpa using hwf.1
    · intro r hr
      rcases List.mem_or_eq_of_mem_set hr with hr | rfl
      · exact hwf.2 r hr
      · exact rule110_row_WF _
    · simp [h1]
  · obtain ⟨last, b', _, hb, hcr, hg, hlen, hshift, hnew⟩ := board_next_generation_scroll b hwf h1
    refine ⟨b', hb, ⟨hlen, ?_⟩, hg, ?_⟩
    · intro r hr
      obtain ⟨j, hj⟩ := List.mem_iff_getElem?.mp hr
      have hjlt : j < ROWS := by
        by_contra hge
        rw [List.getElem?_eq_none (by omega)] at hj
        cases hj
      by_cases hj1 : j < ROWS - 1
      · rw [hshift j hj1] at hj
        exact b.WF_get hwf _ _ hj
      · have : j = ROWS - 1 := by omega
        subst this
        rw [hnew] at hj
        cases hj
        exact rule110_row_WF _
    · simp [h1, hcr]

theorem board_advance_succ (n : Nat) (b : Board) :
    board_advance (n + 1) b = (board_advance n b).bind board_next_generation := by
  induction n generalizing b with
  | zero =>
    simp only [board_advance, Option.some_bind]
    cases hb : board_next_generation b <;> simp [board_advance]
  | succ n ih =>
    rw [board_advance]
    cases hb : board_next_generation b with
    | none => simp [board_advance, hb]
    | some b1 =>
      rw [Option.some_bind, ih b1]
      conv_rhs => rw [board_advance, hb, Option.some_bind]

/-- After `n` calls on a well-formed board with `0 ≤ current_row ≤ ROWS - 1` and a generation
in the range of `int`, the board is well formed, `generation` grew by `n` as a 32-bit `int`
and `current_row` grew by `n` up to `ROWS - 1`. -/
theorem board_advance_spec (n : Nat) :
    ∀ b : Board, b.WF → 0 ≤ b.current_row → b.current_row ≤ (ROWS : Int) - 1 →
      wrap_int b.generation = b.generation →
      ∃ b', board_advance n b = some b' ∧ b'.WF ∧
        b'.generation = wrap_int (b.generation + n) ∧
        b'.current_row = min (b.current_row + n) ((ROWS : Int) - 1) := by
  induction n with
  | zero =>
    intro b hwf h0 h1 hg
    refine ⟨b, rfl, hwf, by simpa using hg.symm, ?_⟩
    simp only [Nat.cast_zero, add_zero]
    omega
  | succ n ih =>
    intro b hwf h0 h1 _
    obtain ⟨b1, hb1, hwf1, hg1, hc1⟩ := board_next_generation_WF b hwf h0
    have h01 : 0 ≤ b1.current_row := by rw [hc1]; split <;> omega
    have h11 : b1.current_row ≤ (ROWS : Int) - 1 := by rw [hc1]; split <;> omega
    have hgr : wrap_int b1.generation = b1.generation := by rw [hg1, wrap_int_idem]
    obtain ⟨b', hb', hwf', hg', hc'⟩ := ih b1 hwf1 h01 h11 hgr
    refine ⟨b', ?_, hwf', ?_, ?_⟩
    · rw [board_advance, hb1, Option.some_bind, hb']
    · rw [hg', hg1, wrap_int_add]
      congr 1
      push_cast
      ring
    · rw [hc', hc1]
      push_cast
      split <;> omega

/-- Boards reachable from `board_init`: after `n` calls, `generation` is `n` as a 32-bit `int`
and `current_row = min n (ROWS - 1)`. -/
theorem board_reachable_spec (draws : Nat → Nat) (prior b0 : Board) (n : Nat)
    (h0 : board_init draws prior = some b0) :
    ∃ b, board_advance n b0 = some b ∧ b.WF ∧ b.generation = wrap_int n ∧
      b.current_row = min (n : Int) ((ROWS : Int) - 1) := by
  obtain ⟨hwf, hc, hg⟩ := board_init_WF draws prior b0 h0
  obtain ⟨b, hb, hwfb, hgb, hcb⟩ := board_advance_spec n b0 hwf (by omega)
    (by rw [hc]; decide) (by rw [hg]; decide)
  exact ⟨b, hb, hwfb, by rw [hgb, hg]; simp, by rw [hcb, hc]; simp⟩

/-- Below `INT_MAX` calls the generation of a reachable board is the number of calls. -/
theorem wrap_int_calls (n : Nat) (h : (n : Int) ≤ INT_MAX) : wrap_int n = n :=
  wrap_int_of_range _ (by unfold INT_MIN; omega) h

/-! ## Claims on the rule engine -/

/-- C1: for every row `prev` of `COLS` binary cells, `next_row` returns a row of `COLS` cells
whose cell `i` is the entry of the table `patterns` at the pattern index of (left, center,
right), where center is `prev[i]`, left is `prev[i-1]` (0 at column 0) and right is
`prev[i+1]` (0 at column `COLS - 1`); the table is 000->0, 001->1, 010->1, 011->1, 100->0,
101->1, 110->1, 111->0 (function `rule110`), the pattern index is below 8, and, `next_row`
returning a row, no access left its array. -/
theorem next_row_rule110 (prev : Row) (hlen : prev.cells.length = COLS) (hbin : prev.binary) :
    patterns = [0, 1, 1, 1, 0, 1, 1, 0] ∧
    ∃ next : Row, next_row prev = some next ∧ next.cells.length = COLS ∧
      ∀ i, i < COLS →
        pattern_index (left_of prev i) (prev.cells.getD i 0) (right_of COLS prev i) < 8 ∧
        next.cells[i]? =
          patterns[pattern_index (left_of prev i) (prev.cells.getD i 0) (right_of COLS prev i)]? ∧
        next.cells[i]? =
          some (rule110 (left_of prev i) (prev.cells.getD i 0) (right_of COLS prev i)) := by
  refine ⟨rfl, rule110_row COLS prev, next_row_eq prev ⟨hlen, hbin⟩, (rule110_row_WF prev).1, ?_⟩
  intro i hi
  have hp := patterns_lookup _ _ _ (left_of_binary prev hbin i) (getD_binary prev hbin i)
    (right_of_binary COLS prev hbin i)
  have hv : (rule110_row COLS prev).cells[i]? =
      some (rule110 (left_of prev i) (prev.cells.getD i 0) (right_of COLS prev i)) := by
    simp only [rule110_row, List.getElem?_map, List.getElem?_range hi, Option.map_some',
      rule110_at]
  refine ⟨hp.1, ?_, hv⟩
  rw [hv]
  exact hp.2.symm

set_option maxRecDepth 100000 in
/-- Witness of C1: the row with only the middle column alive. -/
theorem next_row_rule110_witness :
    seed_row.cells.length = COLS ∧ seed_row.binary ∧
    ∃ next : Row, next_row seed_row = some next ∧ next.cells.length = COLS ∧
      ∀ i, i < COLS →
        pattern_index (left_of seed_row i) (seed_row.cells.getD i 0) (right_of COLS seed_row i) < 8 ∧
        next.cells[i]? = patterns[pattern_index (left_of seed_row i) (seed_row.cells.getD i 0)
          (right_of COLS seed_row i)]? ∧
        next.cells[i]? = some (rule110 (left_of seed_row i) (seed_row.cells.getD i 0)
          (right_of COLS seed_row i)) :=
  ⟨by decide, by decide, (next_row_rule110 seed_row (by decide) (by decide)).2⟩

/-- C2, as stated, fails: at width 5 the successor of `[0,0,1,0,0]` is not `[0,1,1,1,0]`
(column 3 sees the pattern 100, whose table entry is 0). -/
theorem next_row_w5_claimed_row_fails :
    next_row_w 5 ⟨[0, 0, 1, 0, 0]⟩ ≠ some ⟨[0, 1, 1, 1, 0]⟩ := by
  decide

/-- C2, amended: at width 5 the successor of `[0,0,1,0,0]` is `[0,1,1,0,0]`. -/
theorem next_row_w5_scenario :
    next_row_w 5 ⟨[0, 0, 1, 0, 0]⟩ = some ⟨[0, 1, 1, 0, 0]⟩ := by
  decide

/-! ## Claims on the scrolling board -/

/-- C3: for every outcome of the random draws and every prior board, `board_init` returns a
board; after exactly `ROWS` calls of `board_next_generation` it has `current_row = ROWS - 1`
and `generation = ROWS`; one more call leaves `current_row = ROWS - 1` and `ROWS` rows (the
rows moved one index down, so the former row 0 is gone) and gives `generation = ROWS + 1`. -/
theorem board_after_ROWS_calls (draws : Nat → Nat) (prior : Board) :
    ∃ b0 bH bH1, board_init draws prior = some b0 ∧
      board_advance ROWS b0 = some bH ∧
      bH.current_row = (ROWS : Int) - 1 ∧ bH.generation = ROWS ∧
      board_next_generation bH = some bH1 ∧ board_advance (ROWS + 1) b0 = some bH1 ∧
      bH1.current_row = (ROWS : Int) - 1 ∧ bH1.generation = (ROWS : Int) + 1 ∧
      bH1.rows.length = ROWS ∧ bH1.current_row + 1 = ROWS ∧
      ∀ j, j < ROWS - 1 → bH1.rows[j]? = bH.rows[j + 1]? := by
  obtain ⟨r, _, hb0⟩ := board_init_spec draws prior
  obtain ⟨bH, hH, hwfH, hgH, hcH⟩ := board_reachable_spec draws prior _ ROWS hb0
  have hcH' : bH.current_row = (ROWS : Int) - 1 := by rw [hcH]; decide
  have hnot : ¬ bH.current_row < (ROWS : Int) - 1 := by rw [hcH']; decide
  obtain ⟨last, bH1, _, hstep, hc1, hg1, hlen1, hshift, _⟩ :=
    board_next_generation_scroll bH hwfH hnot
  have hgH' : bH.generation = ROWS := by rw [hgH]; decide
  refine ⟨_, bH, bH1, hb0, hH, hcH', hgH', hstep, ?_, ?_, ?_, hlen1, ?_, hshift⟩
  · rw [board_advance_succ, hH, Option.some_bind, hstep]
  · rw [hc1, hcH']
  · rw [hg1, hgH']; decide
  · rw [hc1, hcH']; decide

/-- C4, as stated, fails, at two boards reachable from `board_init`. After 99 calls
`generation = 99 < ROWS`, yet the next call is not a filling step: `current_row` stays at
`ROWS - 1` instead of being incremented. After 2147483648 calls the 32-bit counter has
wrapped around to `generation = -2147483648`, which is below `ROWS - 1`, and the next call
is not a filling step either. -/
theorem fill_claim_fails_at_generation_99 :
    (∃ b0 b b', board_init draws_50 zero_board = some b0 ∧ board_advance 99 b0 = some b ∧
      b.generation < ROWS ∧ board_next_generation b = some b' ∧
      b'.current_row = b.current_row ∧ b'.current_row ≠ b.current_row + 1) ∧
    ∃ b0 b b', board_init draws_50 zero_board = some b0 ∧
      board_advance 2147483648 b0 = some b ∧
      b.generation = -2147483648 ∧ b.generation < (ROWS : Int) - 1 ∧
      board_next_generation b = some b' ∧
      b'.current_row = b.current_row ∧ b'.current_row ≠ b.current_row + 1 := by
  obtain ⟨r, _, hb0⟩ := board_init_spec draws_50 zero_board
  constructor
  · obtain ⟨b, hb, hwf, hg, hc⟩ := board_reachable_spec draws_50 zero_board _ 99 hb0
    have hc' : b.current_row = 99 := by rw [hc]; decide
    have hnot : ¬ b.current_row < (ROWS : Int) - 1 := by rw [hc']; decide
    obtain ⟨last, b', _, hstep, hc1, _⟩ := board_next_generation_scroll b hwf hnot
    refine ⟨_, b, b', hb0, hb, ?_, hstep, hc1, ?_⟩
    · rw [hg]; decide
    · rw [hc1]; omega
  · obtain ⟨b, hb, hwf, hg, hc⟩ := board_reachable_spec draws_50 zero_board _ 2147483648 hb0
    have hg' : b.generation = -2147483648 := by rw [hg]; decide
    have hc' : b.current_row = 99 := by rw [hc]; decide
    have hnot : ¬ b.current_row < (ROWS : Int) - 1 := by rw [hc']; decide
    obtain ⟨last, b', _, hstep, hc1, _⟩ := board_next_generation_scroll b hwf hnot
    refine ⟨_, b, b', hb0, hb, hg', ?_, hstep, hc1, ?_⟩
    · rw [hg']; decide
    · rw [hc1]; omega

/-- C4, amended: for every board reached from `board_init` by at most `INT_MAX` calls whose
generation is below `ROWS - 1`, `board_next_generation` is a filling step: it stores
`next_row` of row `current_row` at index `current_row + 1`, leaves the rows of index at most
`current_row` unchanged and increments `current_row` and `generation` by 1. -/
theorem fill_step_below_last_row (draws : Nat → Nat) (prior b0 b : Board) (n : Nat)
    (h0 : board_init draws prior = some b0) (hn : board_advance n b0 = some b)
    (hcalls : (n : Int) ≤ INT_MAX) (hg : b.generation < (ROWS : Int) - 1) :
    ∃ prev next b', arr_get_int b.rows b.current_row = some prev ∧ next_row prev = some next ∧
      board_next_generation b = some b' ∧
      arr_get_int b'.rows (b.current_row + 1) = some next ∧
      (∀ j : Nat, (j : Int) ≤ b.current_row → b'.rows[j]? = b.rows[j]?) ∧
      b'.current_row = b.current_row + 1 ∧ b'.generation = b.generation + 1 := by
  obtain ⟨b1, hb1, hwf, hg1, hc1⟩ := board_reachable_spec draws prior b0 n h0
  rw [hn] at hb1
  cases hb1
  rw [wrap_int_calls n hcalls] at hg1
  have hlen := hwf.1
  have hR : (ROWS : Int) = 100 := rfl
  have hR' : ROWS = 100 := rfl
  have hcn : b.current_row = n := by rw [hc1]; omega
  have h0' : 0 ≤ b.current_row := by omega
  have h1' : b.current_row < (ROWS : Int) - 1 := by omega
  obtain ⟨prev, hprev, hstep⟩ := board_next_generation_fill b hwf h0' h1'
  have hprevwf : prev.WF := b.WF_get hwf _ _ hprev
  have hset : b.current_row.toNat + 1 < b.rows.length := by omega
  have hgen : wrap_int (b.generation + 1) = b.generation + 1 :=
    wrap_int_of_range _ (by unfold INT_MIN; omega) (by unfold INT_MAX; omega)
  refine ⟨prev, rule110_row COLS prev, _, ?_, next_row_eq prev hprevwf, hstep, ?_, ?_, rfl,
    hgen⟩
  · simp only [arr_get_int, h0', if_true, arr_get, hprev]
  · have h2 : (0 : Int) ≤ b.current_row + 1 := by omega
    have h3 : (b.current_row + 1).toNat = b.current_row.toNat + 1 := by omega
    simp only [arr_get_int, h2, if_true, arr_get, h3]
    rw [List.getElem?_set, if_pos rfl, if_pos hset]
  · intro j hj
    show (b.rows.set _ _)[j]? = _
    rw [List.getElem?_set, if_neg (by omega)]

set_option maxRecDepth 1000000 in
/-- Witness of the amended C4: the board returned by `board_init` under `draws_50`. -/
theorem fill_step_below_last_row_witness :
    board_init draws_50 zero_board = some seed_board ∧
    board_advance 0 seed_board = some seed_board ∧
    ((0 : Nat) : Int) ≤ INT_MAX ∧
    seed_board.generation < (ROWS : Int) - 1 ∧
    ∃ prev next b', arr_get_int seed_board.rows seed_board.current_row = some prev ∧
      next_row prev = some next ∧ board_next_generation seed_board = some b' ∧
      arr_get_int b'.rows (seed_board.current_row + 1) = some next ∧
      (∀ j : Nat, (j : Int) ≤ seed_board.current_row → b'.rows[j]? = seed_board.rows[j]?) ∧
      b'.current_row = seed_board.current_row + 1 ∧ b'.generation = seed_board.generation + 1 :=
  ⟨by decide, by decide, by decide, by decide,
    fill_step_below_last_row draws_50 zero_board seed_board seed_board 0 (by decide) (by decide)
      (by decide) (by decide)⟩

set_option maxRecDepth 1000000 in
/-- C5, as stated, fails: on a well-formed board with `current_row = ROWS - 1` whose
generation is `INT_MAX`, the increment of the 32-bit counter wraps around: the new generation
is `INT_MIN`, not the old generation plus 1. -/
theorem scroll_claim_fails_at_INT_MAX :
    max_generation_board.WF ∧ max_generation_board.current_row = (ROWS : Int) - 1 ∧
    max_generation_board.generation = 2147483647 ∧
    ∃ b', board_next_generation max_generation_board = some b' ∧
      b'.generation = -2147483648 ∧
      b'.generation ≠ max_generation_board.generation + 1 := by
  have hwf : max_generation_board.WF := by decide
  have hnot : ¬ max_generation_board.current_row < (ROWS : Int) - 1 := by decide
  obtain ⟨last, b', _, hstep, _, hg, _⟩ :=
    board_next_generation_scroll max_generation_board hwf hnot
  have hg' : b'.generation = -2147483648 := by rw [hg]; decide
  refine ⟨hwf, by decide, rfl, b', hstep, hg', ?_⟩
  rw [hg']
  decide

/-- C5, amended: for every (well-formed) board with `current_row = ROWS - 1` whose generation
is an `int` below `INT_MAX`, `board_next_generation` returns a board whose row `i` is the old
row `i + 1` for every `i ≤ ROWS - 2`, whose row `ROWS - 1` is `next_row` of the new row
`ROWS - 2`, that is of the old row `ROWS - 1`, whose generation is the old one plus 1 and
whose `current_row` is still `ROWS - 1`. -/
theorem scroll_step (b : Board) (hwf : b.WF) (hc : b.current_row = (ROWS : Int) - 1)
    (hmin : INT_MIN ≤ b.generation) (hmax : b.generation < INT_MAX) :
    ∃ b' last next, board_next_generation b = some b' ∧
      (∀ i, i ≤ ROWS - 2 → b'.rows[i]? = b.rows[i + 1]?) ∧
      b'.rows[ROWS - 2]? = some last ∧ b.rows[ROWS - 1]? = some last ∧
      next_row last = some next ∧ b'.rows[ROWS - 1]? = some next ∧
      b'.rows.length = ROWS ∧
      b'.generation = b.generation + 1 ∧ b'.current_row = (ROWS : Int) - 1 := by
  have hnot : ¬ b.current_row < (ROWS : Int) - 1 := by rw [hc]; decide
  obtain ⟨last, b', hlast, hstep, hc1, hg1, hlen1, hshift, hnew⟩ :=
    board_next_generation_scroll b hwf hnot
  have hR : ROWS = 100 := rfl
  have hgen : wrap_int (b.generation + 1) = b.generation + 1 :=
    wrap_int_of_range _ (by unfold INT_MIN at *; omega) (by unfold INT_MAX at *; omega)
  refine ⟨b', last, rule110_row COLS last, hstep, ?_, ?_, hlast,
    next_row_eq last (b.WF_get hwf _ _ hlast), hnew, hlen1, by rw [hg1, hgen],
    by rw [hc1, hc]⟩
  · intro i hi
    exact hshift i (by omega)
  · rw [hshift (ROWS - 2) (by omega)]
    exact hlast

set_option maxRecDepth 1000000 in
/-- Witness of the amended C5: a board in the scrolling phase, generation 250. -/
theorem scroll_step_witness :
    full_board.WF ∧ full_board.current_row = (ROWS : Int) - 1 ∧
    INT_MIN ≤ full_board.generation ∧ full_board.generation < INT_MAX ∧
    ∃ b' last next, board_next_generation full_board = some b' ∧
      (∀ i, i ≤ ROWS - 2 → b'.rows[i]? = full_board.rows[i + 1]?) ∧
      b'.rows[ROWS - 2]? = some last ∧ full_board.rows[ROWS - 1]? = some last ∧
      next_row last = some next ∧ b'.rows[ROWS - 1]? = some next ∧
      b'.rows.length = ROWS ∧
      b'.generation = full_board.generation + 1 ∧ b'.current_row = (ROWS : Int) - 1 :=
  ⟨by decide, by decide, by decide, by decide,
    scroll_step full_board (by decide) (by decide) (by decide) (by decide)⟩

/-- C6: for every prior board and every outcome of the random draws, `board_init` returns a
board with `generation = 0`, `current_row = 0`, the middle column `COLS / 2` of row 0 alive
and every row of index at least 1 entirely dead. -/
theorem board_init_reset (draws : Nat → Nat) (prior : Board) :
    ∃ b row0, board_init draws prior = some b ∧ b.generation = 0 ∧ b.current_row = 0 ∧
      b.rows.length = ROWS ∧
      b.rows[0]? = some row0 ∧ row0.cells[COLS / 2]? = some I ∧
      ∀ i, 1 ≤ i → i < ROWS →
        ∃ row, b.rows[i]? = some row ∧ row.cells.length = COLS ∧ ∀ c ∈ row.cells, c = O := by
  obtain ⟨r, hr, hb0⟩ := board_init_spec draws prior
  obtain ⟨r', hr', _, hcells⟩ := random_row_spec draws
  rw [hr] at hr'
  cases hr'
  refine ⟨_, r, hb0, rfl, rfl, by simp [ROWS], rfl, ?_, ?_⟩
  · rw [hcells (COLS / 2) (by decide)]
    simp [random_cell]
  · intro i h1 h2
    refine ⟨zero_row COLS, ?_, by simp [zero_row], ?_⟩
    · obtain ⟨k, rfl⟩ : ∃ k, i = k + 1 := ⟨i - 1, by omega⟩
      have hk : k < ROWS - 1 := by omega
      simp [List.getElem?_replicate, hk]
    · intro c hc
      exact List.eq_of_mem_replicate hc

/-! ## Vertex batch: lemmas -/

theorem r_quad_eq_list {F : Type} (ops : FloatOps F) (r : Renderer F) (p1 p2 : V2f F)
    (color : V4f F) :
    r_quad ops r p1 p2 color = r_vertex_list r (quad_vertices ops p1 p2 color) := by
  simp only [r_quad, quad_vertices, r_vertex_list, Option.bind_some]

theorem r_line_eq_list {F : Type} (ops : FloatOps F) (r : Renderer F) (p1 p2 : V2f F)
    (color : V4f F) (thickness : F) :
    r_line ops r p1 p2 color thickness
      = r_vertex_list r (line_vertices ops p1 p2 color thickness) := by
  simp only [r_line, line_vertices, r_vertex_list, Option.bind_some]

/-- Function `r_vertex` never writes outside the buffer: it returns a batch, which is the
old one when the buffer is full and otherwise has the vertex stored at the old cursor. -/
theorem r_vertex_spec {F : Type} (r : Renderer F) (pos uv : V2f F) (color : V4f F) :
    r_vertex r pos uv color =
      some (if r.vertex_buf_sz < VERTEX_BUF_CAP then
        ⟨r.vertex_buf_sz + 1, fun j => if j = r.vertex_buf_sz then ⟨pos, uv, color⟩
          else r.vertex_buf j⟩
      else r) := by
  unfold r_vertex
  by_cases h : r.vertex_buf_sz < VERTEX_BUF_CAP
  · have h' : ¬ r.vertex_buf_sz ≥ VERTEX_BUF_CAP := by omega
    simp only [h', h, if_true, if_false, buf_write, Option.some_bind]
  · have h' : r.vertex_buf_sz ≥ VERTEX_BUF_CAP := by omega
    simp only [h', h, if_true, if_false]

/-- Effect of successive calls of `r_vertex`: the vertices are stored from the old cursor on,
as long as the buffer has room; the others are skipped. -/
theorem r_vertex_list_spec {F : Type} (vs : List (Vertex F)) :
    ∀ r : Renderer F, ∃ r', r_vertex_list r vs = some r' ∧
      r'.vertex_buf_sz = (if r.vertex_buf_sz ≤ VERTEX_BUF_CAP
        then min (r.vertex_buf_sz + vs.length) VERTEX_BUF_CAP else r.vertex_buf_sz) ∧
      ∀ j, r'.vertex_buf j = (if r.vertex_buf_sz ≤ j ∧ j < VERTEX_BUF_CAP
        then (vs[j - r.vertex_buf_sz]?).getD (r.vertex_buf j) else r.vertex_buf j) := by
  induction vs with
  | nil =>
    intro r
    refine ⟨r, rfl, ?_, ?_⟩
    · simp only [List.length_nil, add_zero]
      split <;> omega
    · intro j
      simp
  | cons v vs ih =>
    intro r
    rw [r_vertex_list, r_vertex_spec, Option.some_bind]
    by_cases h : r.vertex_buf_sz < VERTEX_BUF_CAP
    · rw [if_pos h]
      obtain ⟨r', hr', hsz, hbuf⟩ := ih ⟨r.vertex_buf_sz + 1, fun j =>
        if j = r.vertex_buf_sz then ⟨v.pos, v.uv, v.color⟩ else r.vertex_buf j⟩
      dsimp only at hsz hbuf
      refine ⟨r', hr', ?_, ?_⟩
      · rw [hsz]
        simp only [List.length_cons]
        rw [if_pos (by omega), if_pos (by omega)]
        omega
      · intro j
        rw [hbuf j]
        by_cases hj : j = r.vertex_buf_sz
        · rw [hj]
          have hc : r.vertex_buf_sz ≤ r.vertex_buf_sz ∧ r.vertex_buf_sz < VERTEX_BUF_CAP :=
            ⟨le_refl _, h⟩
          rw [if_neg (by omega), if_pos hc]
          simp
        · by_cases hlt : r.vertex_buf_sz + 1 ≤ j ∧ j < VERTEX_BUF_CAP
          · have hc : r.vertex_buf_sz ≤ j ∧ j < VERTEX_BUF_CAP := ⟨by omega, hlt.2⟩
            rw [if_pos hlt, if_pos hc, if_neg hj]
            obtain ⟨k, hk⟩ : ∃ k, j - r.vertex_buf_sz = k + 1 :=
              ⟨j - r.vertex_buf_sz - 1, by omega⟩
            have hk' : j - (r.vertex_buf_sz + 1) = k := by omega
            rw [hk, hk', List.getElem?_cons_succ]
          · have hc : ¬ (r.vertex_buf_sz ≤ j ∧ j < VERTEX_BUF_CAP) := by omega
            rw [if_neg hlt, if_neg hj, if_neg hc]
    · rw [if_neg h]
      obtain ⟨r', hr', hsz, hbuf⟩ := ih r
      refine ⟨r', hr', ?_, ?_⟩
      · rw [hsz]
        simp only [List.length_cons]
        split <;> omega
      · intro j
        have hc : ¬ (r.vertex_buf_sz ≤ j ∧ j < VERTEX_BUF_CAP) := by omega
        rw [hbuf j, if_neg hc, if_neg hc]

/-! ## Claims on the vertex batch -/

/-- C7: for every batch with `vertex_buf_sz + 6 ≤ VERTEX_BUF_CAP`, `r_quad` and `r_line` each
increase `vertex_buf_sz` by exactly 6 and leave the vertices stored below the old cursor
unchanged; the six positions appended by `r_quad` are, in order, a, b, c, b, c, d with
a = p1, b = (p2.x, p1.y), c = (p1.x, p2.y), d = p2, and all six carry the given colour. -/
theorem r_quad_r_line_append_six {F : Type} (ops : FloatOps F) (r : Renderer F)
    (p1 p2 : V2f F) (color : V4f F) (thickness : F)
    (h : r.vertex_buf_sz + 6 ≤ VERTEX_BUF_CAP) :
    ∃ rq rl, r_quad ops r p1 p2 color = some rq ∧
      r_line ops r p1 p2 color thickness = some rl ∧
      rq.vertex_buf_sz = r.vertex_buf_sz + 6 ∧ rl.vertex_buf_sz = r.vertex_buf_sz + 6 ∧
      (∀ j, j < r.vertex_buf_sz → rq.vertex_buf j = r.vertex_buf j) ∧
      (∀ j, j < r.vertex_buf_sz → rl.vertex_buf j = r.vertex_buf j) ∧
      (rq.vertex_buf r.vertex_buf_sz).pos = p1 ∧
      (rq.vertex_buf (r.vertex_buf_sz + 1)).pos = ⟨p2.x, p1.y⟩ ∧
      (rq.vertex_buf (r.vertex_buf_sz + 2)).pos = ⟨p1.x, p2.y⟩ ∧
      (rq.vertex_buf (r.vertex_buf_sz + 3)).pos = ⟨p2.x, p1.y⟩ ∧
      (rq.vertex_buf (r.vertex_buf_sz + 4)).pos = ⟨p1.x, p2.y⟩ ∧
      (rq.vertex_buf (r.vertex_buf_sz + 5)).pos = p2 ∧
      ∀ k, k < 6 → (rq.vertex_buf (r.vertex_buf_sz + k)).color = color := by
  obtain ⟨rq, hq, hqsz, hqbuf⟩ := r_vertex_list_spec (quad_vertices ops p1 p2 color) r
  obtain ⟨rl, hl, hlsz, hlbuf⟩ := r_vertex_list_spec (line_vertices ops p1 p2 color thickness) r
  have hat : ∀ k, k < 6 → rq.vertex_buf (r.vertex_buf_sz + k)
      = ((quad_vertices ops p1 p2 color)[k]?).getD (r.vertex_buf (r.vertex_buf_sz + k)) := by
    intro k hk
    have hc : r.vertex_buf_sz ≤ r.vertex_buf_sz + k ∧ r.vertex_buf_sz + k < VERTEX_BUF_CAP :=
      ⟨by omega, by omega⟩
    rw [hqbuf, if_pos hc, Nat.add_sub_cancel_left]
  refine ⟨rq, rl, (r_quad_eq_list ops r p1 p2 color).trans hq,
    (r_line_eq_list ops r p1 p2 color thickness).trans hl, ?_, ?_, ?_, ?_, ?_, ?_, ?_, ?_, ?_,
    ?_, ?_⟩
  · rw [hqsz, if_pos (by omega)]
    simp only [quad_vertices, List.length_cons, List.length_nil]
    omega
  · rw [hlsz, if_pos (by omega)]
    simp only [line_vertices, List.length_cons, List.length_nil]
    omega
  · intro j hj
    have hc : ¬ (r.vertex_buf_sz ≤ j ∧ j < VERTEX_BUF_CAP) := by omega
    rw [hqbuf, if_neg hc]
  · intro j hj
    have hc : ¬ (r.vertex_buf_sz ≤ j ∧ j < VERTEX_BUF_CAP) := by omega
    rw [hlbuf, if_neg hc]
  · have := hat 0 (by omega)
    rw [Nat.add_zero] at this
    rw [this]; rfl
  · rw [hat 1 (by omega)]; rfl
  · rw [hat 2 (by omega)]; rfl
  · rw [hat 3 (by omega)]; rfl
  · rw [hat 4 (by omega)]; rfl
  · rw [hat 5 (by omega)]; rfl
  · intro k hk
    rw [hat k hk]
    have : k = 0 ∨ k = 1 ∨ k = 2 ∨ k = 3 ∨ k = 4 ∨ k = 5 := by omega
    rcases this with rfl | rfl | rfl | rfl | rfl | rfl <;> rfl

/-- Witness of C7: a quad and a line pushed on the empty batch. -/
theorem r_quad_r_line_append_six_witness :
    (batch_of_size 0).vertex_buf_sz + 6 ≤ VERTEX_BUF_CAP ∧
    ∃ rq rl, r_quad exact_ops (batch_of_size 0) (v2f 1 2) (v2f 3 5) (v4f 1 0 0 1) = some rq ∧
      r_line exact_ops (batch_of_size 0) (v2f 1 2) (v2f 3 5) (v4f 1 0 0 1) 1 = some rl ∧
      rq.vertex_buf_sz = 6 ∧ rl.vertex_buf_sz = 6 ∧
      (rq.vertex_buf 0).pos = ⟨1, 2⟩ ∧ (rq.vertex_buf 1).pos = ⟨3, 2⟩ ∧
      (rq.vertex_buf 2).pos = ⟨1, 5⟩ ∧ (rq.vertex_buf 3).pos = ⟨3, 2⟩ ∧
      (rq.vertex_buf 4).pos = ⟨1, 5⟩ ∧ (rq.vertex_buf 5).pos = ⟨3, 5⟩ := by
  obtain ⟨rq, rl, hq, hl, hqsz, hlsz, _, _, h0, h1, h2, h3, h4, h5, _⟩ :=
    r_quad_r_line_append_six exact_ops (batch_of_size 0) (v2f 1 2) (v2f 3 5) (v4f 1 0 0 1) 1
      (by decide)
  exact ⟨by decide, rq, rl, hq, hl, hqsz, hlsz, h0, h1, h2, h3, h4, h5⟩

/-- C8, as stated, fails: on a batch with room for one vertex (`VERTEX_BUF_CAP - 1` stored),
where six more vertices would exceed the capacity, `r_quad` and `r_line` are not no-ops: each
appends one vertex, a partial primitive, and the cursor moves to `VERTEX_BUF_CAP`. -/
theorem r_quad_appends_one_vertex :
    (batch_of_size (VERTEX_BUF_CAP - 1)).vertex_buf_sz + 6 > VERTEX_BUF_CAP ∧
    (r_quad exact_ops (batch_of_size (VERTEX_BUF_CAP - 1)) (v2f 1 2) (v2f 3 5)
      (v4f 1 0 0 1)).map Renderer.vertex_buf_sz = some VERTEX_BUF_CAP ∧
    (r_line exact_ops (batch_of_size (VERTEX_BUF_CAP - 1)) (v2f 1 2) (v2f 3 5)
      (v4f 1 0 0 1) 1).map Renderer.vertex_buf_sz = some VERTEX_BUF_CAP ∧
    (r_quad exact_ops (batch_of_size (VERTEX_BUF_CAP - 1)) (v2f 1 2) (v2f 3 5)
      (v4f 1 0 0 1)).map Renderer.vertex_buf_sz
      ≠ some (batch_of_size (VERTEX_BUF_CAP - 1)).vertex_buf_sz := by
  decide

/-- C8, amended: on every batch with `vertex_buf_sz + 6 > VERTEX_BUF_CAP`, `r_quad` and
`r_line` leave the vertices stored below the old cursor unchanged and append only the
vertices of the primitive that still fit, in call order, the cursor ending at the larger of
`vertex_buf_sz` and `VERTEX_BUF_CAP`; they are no-ops when the batch is full
(`vertex_buf_sz ≥ VERTEX_BUF_CAP`). -/
theorem r_quad_r_line_overflow {F : Type} (ops : FloatOps F) (r : Renderer F)
    (p1 p2 : V2f F) (color : V4f F) (thickness : F)
    (h : r.vertex_buf_sz + 6 > VERTEX_BUF_CAP) :
    ∃ rq rl, r_quad ops r p1 p2 color = some rq ∧
      r_line ops r p1 p2 color thickness = some rl ∧
      rq.vertex_buf_sz = max r.vertex_buf_sz VERTEX_BUF_CAP ∧
      rl.vertex_buf_sz = max r.vertex_buf_sz VERTEX_BUF_CAP ∧
      (∀ j, j < r.vertex_buf_sz → rq.vertex_buf j = r.vertex_buf j) ∧
      (∀ j, j < r.vertex_buf_sz → rl.vertex_buf j = r.vertex_buf j) ∧
      (∀ k v, r.vertex_buf_sz + k < VERTEX_BUF_CAP →
        (quad_vertices ops p1 p2 color)[k]? = some v →
        rq.vertex_buf (r.vertex_buf_sz + k) = v) ∧
      (∀ k v, r.vertex_buf_sz + k < VERTEX_BUF_CAP →
        (line_vertices ops p1 p2 color thickness)[k]? = some v →
        rl.vertex_buf (r.vertex_buf_sz + k) = v) ∧
      (VERTEX_BUF_CAP ≤ r.vertex_buf_sz → rq = r ∧ rl = r) := by
  obtain ⟨rq, hq, hqsz, hqbuf⟩ := r_vertex_list_spec (quad_vertices ops p1 p2 color) r
  obtain ⟨rl, hl, hlsz, hlbuf⟩ := r_vertex_list_spec (line_vertices ops p1 p2 color thickness) r
  have hqlen : (quad_vertices ops p1 p2 color).length = 6 := rfl
  have hllen : (line_vertices ops p1 p2 color thickness).length = 6 := rfl
  rw [hqlen] at hqsz
  rw [hllen] at hlsz
  refine ⟨rq, rl, (r_quad_eq_list ops r p1 p2 color).trans hq,
    (r_line_eq_list ops r p1 p2 color thickness).trans hl, ?_, ?_, ?_, ?_, ?_, ?_, ?_⟩
  · rw [hqsz]; split <;> omega
  · rw [hlsz]; split <;> omega
  · intro j hj
    have hc : ¬ (r.vertex_buf_sz ≤ j ∧ j < VERTEX_BUF_CAP) := by omega
    rw [hqbuf, if_neg hc]
  · intro j hj
    have hc : ¬ (r.vertex_buf_sz ≤ j ∧ j < VERTEX_BUF_CAP) := by omega
    rw [hlbuf, if_neg hc]
  · intro k v hk hv
    have hc : r.vertex_buf_sz ≤ r.vertex_buf_sz + k ∧ r.vertex_buf_sz + k < VERTEX_BUF_CAP :=
      ⟨by omega, hk⟩
    rw [hqbuf, if_pos hc, Nat.add_sub_cancel_left, hv]
    rfl
  · intro k v hk hv
    have hc : r.vertex_buf_sz ≤ r.vertex_buf_sz + k ∧ r.vertex_buf_sz + k < VERTEX_BUF_CAP :=
      ⟨by omega, hk⟩
    rw [hlbuf, if_pos hc, Nat.add_sub_cancel_left, hv]
    rfl
  · intro hfull
    have hnc : ∀ j, ¬ (r.vertex_buf_sz ≤ j ∧ j < VERTEX_BUF_CAP) := by
      intro j; omega
    have e1 : rq.vertex_buf_sz = r.vertex_buf_sz := by rw [hqsz]; split <;> omega
    have e2 : rq.vertex_buf = r.vertex_buf := by
      funext j; rw [hqbuf, if_neg (hnc j)]
    have e3 : rl.vertex_buf_sz = r.vertex_buf_sz := by rw [hlsz]; split <;> omega
    have e4 : rl.vertex_buf = r.vertex_buf := by
      funext j; rw [hlbuf, if_neg (hnc j)]
    constructor
    · cases rq; cases r; simp only at e1 e2; subst e1; subst e2; rfl
    · cases rl; cases r; simp only at e3 e4; subst e3; subst e4; rfl

/-- Witness of the amended C8: a batch with room for two vertices. -/
theorem r_quad_r_line_overflow_witness :
    (batch_of_size (VERTEX_BUF_CAP - 2)).vertex_buf_sz + 6 > VERTEX_BUF_CAP ∧
    ∃ rq rl, r_quad exact_ops (batch_of_size (VERTEX_BUF_CAP - 2)) (v2f 1 2) (v2f 3 5)
        (v4f 1 0 0 1) = some rq ∧
      r_line exact_ops (batch_of_size (VERTEX_BUF_CAP - 2)) (v2f 1 2) (v2f 3 5)
        (v4f 1 0 0 1) 1 = some rl ∧
      rq.vertex_buf_sz = VERTEX_BUF_CAP ∧ rl.vertex_buf_sz = VERTEX_BUF_CAP ∧
      (rq.vertex_buf (VERTEX_BUF_CAP - 2)).pos = ⟨1, 2⟩ ∧
      (rq.vertex_buf (VERTEX_BUF_CAP - 1)).pos = ⟨3, 2⟩ := by
  obtain ⟨rq, rl, hq, hl, hqsz, hlsz, _, _, hqv, _, _⟩ :=
    r_quad_r_line_overflow exact_ops (batch_of_size (VERTEX_BUF_CAP - 2)) (v2f 1 2) (v2f 3 5)
      (v4f 1 0 0 1) 1 (by decide)
  have e0 := hqv 0 _ (by decide) rfl
  have e1 := hqv 1 _ (by decide) rfl
  exact ⟨by decide, rq, rl, hq, hl, hqsz, hlsz, congrArg Vertex.pos e0, congrArg Vertex.pos e1⟩

/-- On a batch with `vertex_buf_sz ≤ VERTEX_BUF_CAP` every call returns a batch, keeps the
cursor at most `VERTEX_BUF_CAP` and modifies no index outside the buffer. -/
theorem r_call_inv {F : Type} (ops : FloatOps F) (r : Renderer F) (c : RCall F)
    (h : r.vertex_buf_sz ≤ VERTEX_BUF_CAP) :
    ∃ r', r_call ops r c = some r' ∧ r'.vertex_buf_sz ≤ VERTEX_BUF_CAP ∧
      ∀ j, VERTEX_BUF_CAP ≤ j → r'.vertex_buf j = r.vertex_buf j := by
  have hlist : ∀ vs : List (Vertex F), ∃ r', r_vertex_list r vs = some r' ∧
      r'.vertex_buf_sz ≤ VERTEX_BUF_CAP ∧
      ∀ j, VERTEX_BUF_CAP ≤ j → r'.vertex_buf j = r.vertex_buf j := by
    intro vs
    obtain ⟨r', hr', hsz, hbuf⟩ := r_vertex_list_spec vs r
    refine ⟨r', hr', ?_, ?_⟩
    · rw [hsz, if_pos h]; omega
    · intro j hj
      have hc : ¬ (r.vertex_buf_sz ≤ j ∧ j < VERTEX_BUF_CAP) := by omega
      rw [hbuf, if_neg hc]
  cases c with
  | vertex pos uv color =>
    obtain ⟨r', hr', hsz, hbuf⟩ := hlist [⟨pos, uv, color⟩]
    refine ⟨r', ?_, hsz, hbuf⟩
    simpa only [r_vertex_list, Option.bind_some] using hr'
  | quad p1 p2 color =>
    obtain ⟨r', hr', hsz, hbuf⟩ := hlist (quad_vertices ops p1 p2 color)
    exact ⟨r', (r_quad_eq_list ops r p1 p2 color).trans hr', hsz, hbuf⟩
  | line p1 p2 color thickness =>
    obtain ⟨r', hr', hsz, hbuf⟩ := hlist (line_vertices ops p1 p2 color thickness)
    exact ⟨r', (r_line_eq_list ops r p1 p2 color thickness).trans hr', hsz, hbuf⟩
  | clear =>
    exact ⟨r_clear r, rfl, Nat.zero_le _, fun _ _ => rfl⟩

/-- C9: `vertex_buf_sz ≤ VERTEX_BUF_CAP` is an invariant of the batch: from any batch that
satisfies it, every finite sequence of `r_vertex`, `r_quad`, `r_line` and `r_clear` calls
returns a batch that satisfies it; every write lands at an index below `VERTEX_BUF_CAP` (the
sequence returns a batch, so no write left the buffer, and no index from `VERTEX_BUF_CAP` on
is modified); `r_clear` sets `vertex_buf_sz` to 0. -/
theorem vertex_buf_sz_invariant {F : Type} (ops : FloatOps F) (r : Renderer F)
    (calls : List (RCall F)) (h : r.vertex_buf_sz ≤ VERTEX_BUF_CAP) :
    (∃ r', r_calls ops r calls = some r' ∧ r'.vertex_buf_sz ≤ VERTEX_BUF_CAP ∧
      ∀ j, VERTEX_BUF_CAP ≤ j → r'.vertex_buf j = r.vertex_buf j) ∧
    (r_clear r).vertex_buf_sz = 0 ∧ r_call ops r RCall.clear = some (r_clear r) := by
  refine ⟨?_, rfl, rfl⟩
  induction calls generalizing r with
  | nil => exact ⟨r, rfl, h, fun _ _ => rfl⟩
  | cons c cs ih =>
    obtain ⟨r1, hr1, hsz1, hbuf1⟩ := r_call_inv ops r c h
    obtain ⟨r', hr', hsz', hbuf'⟩ := ih r1 hsz1
    refine ⟨r', ?_, hsz', ?_⟩
    · rw [r_calls, hr1, Option.some_bind, hr']
    · intro j hj
      rw [hbuf' j hj, hbuf1 j hj]

/-- Witness of C9: a full batch on which a quad, a line and a vertex are pushed, then a clear
and a further quad. -/
theorem vertex_buf_sz_invariant_witness :
    (batch_of_size VERTEX_BUF_CAP).vertex_buf_sz ≤ VERTEX_BUF_CAP ∧
    ∃ r', r_calls exact_ops (batch_of_size VERTEX_BUF_CAP)
        [RCall.quad (v2f 1 2) (v2f 3 5) (v4f 1 0 0 1),
         RCall.line (v2f 1 2) (v2f 3 5) (v4f 1 0 0 1) 1,
         RCall.vertex (v2f 1 2) (v2f 0 0) (v4f 1 0 0 1),
         RCall.clear,
         RCall.quad (v2f 1 2) (v2f 3 5) (v4f 1 0 0 1)] = some r' ∧
      r'.vertex_buf_sz ≤ VERTEX_BUF_CAP :=
  ⟨by decide,
    (vertex_buf_sz_invariant exact_ops (batch_of_size VERTEX_BUF_CAP) _ (by decide)).1.imp
      fun _ hr => ⟨hr.1, hr.2.1⟩⟩

/-! ## Claims on the simulation clock -/

theorem clock_loop_spec (k : Nat) :
    ∀ (s : Sim) (calls fuel : Nat), 0 < s.generation_time →
      (k : ℚ) * s.generation_time ≤ s.time_accumulator →
      s.time_accumulator < ((k : ℚ) + 1) * s.generation_time →
      s.board.WF → 0 ≤ s.board.current_row → s.board.current_row ≤ (ROWS : Int) - 1 →
      k < fuel →
      ∃ b', board_advance k s.board = some b' ∧
        clock_loop fuel s calls = some
          ({ s with board := b'
                    time_accumulator := s.time_accumulator - (k : ℚ) * s.generation_time },
           calls + k) := by
  induction k with
  | zero =>
    intro s calls fuel hg hlo hhi _ _ _ hfuel
    obtain ⟨f, rfl⟩ : ∃ f, fuel = f + 1 := ⟨fuel - 1, by omega⟩
    refine ⟨s.board, rfl, ?_⟩
    have hnot : ¬ s.time_accumulator ≥ s.generation_time := by
      simp only [Nat.cast_zero, zero_add, one_mul] at hhi
      exact not_le.mpr hhi
    rw [clock_loop, if_neg hnot]
    simp
  | succ k ih =>
    intro s calls fuel hg hlo hhi hwf h0 h1 hfuel
    obtain ⟨f, rfl⟩ : ∃ f, fuel = f + 1 := ⟨fuel - 1, by omega⟩
    have hge : s.time_accumulator ≥ s.generation_time := by
      push_cast at hlo
      have : 0 ≤ (k : ℚ) * s.generation_time :=
        mul_nonneg (Nat.cast_nonneg k) (le_of_lt hg)
      linarith
    obtain ⟨b1, hb1, hwf1, _, hc1⟩ := board_next_generation_WF s.board hwf h0
    have h01 : 0 ≤ b1.current_row := by rw [hc1]; split <;> omega
    have h11 : b1.current_row ≤ (ROWS : Int) - 1 := by rw [hc1]; split <;> omega
    obtain ⟨b', hb', hloop⟩ := ih
      { s with board := b1, time_accumulator := s.time_accumulator - s.generation_time }
      (calls + 1) f hg
      (by push_cast at hlo; simp only; linarith)
      (by push_cast at hhi; simp only; linarith)
      hwf1 h01 h11 (by omega)
    refine ⟨b', ?_, ?_⟩
    · rw [board_advance, hb1, Option.some_bind]
      exact hb'
    · rw [clock_loop, if_pos hge, hb1, Option.some_bind, hloop]
      simp only [Option.some.injEq, Prod.mk.injEq]
      refine ⟨?_, by omega⟩
      congr 1
      push_cast
      ring

/-- C10: in exact (rational) arithmetic, for every generation interval `g > 0`, accumulated
time `a ≥ 0` and delta `d ≥ 0`, the update of an unpaused clock (on a well-formed board with
`0 ≤ current_row ≤ ROWS - 1`) terminates: with any fuel above `n = floor((a + d) / g)` it
returns, having made exactly `n` calls of `board_next_generation` and leaving
`time_accumulator = a + d - n * g`, which lies in `[0, g)`. -/
theorem clock_tick_spec (s : Sim) (d : ℚ) (hp : s.paused = false)
    (hg : 0 < s.generation_time) (ha : 0 ≤ s.time_accumulator) (hd : 0 ≤ d)
    (hwf : s.board.WF) (h0 : 0 ≤ s.board.current_row)
    (h1 : s.board.current_row ≤ (ROWS : Int) - 1) :
    ∃ b', board_advance ⌊(s.time_accumulator + d) / s.generation_time⌋.toNat s.board = some b' ∧
      (∀ fuel, ⌊(s.time_accumulator + d) / s.generation_time⌋.toNat < fuel →
        clock_tick fuel s d = some
          ({ s with board := b'
                    time_accumulator := s.time_accumulator + d -
                      (⌊(s.time_accumulator + d) / s.generation_time⌋.toNat : ℚ) *
                        s.generation_time },
           ⌊(s.time_accumulator + d) / s.generation_time⌋.toNat)) ∧
      0 ≤ s.time_accumulator + d
        - (⌊(s.time_accumulator + d) / s.generation_time⌋.toNat : ℚ) * s.generation_time ∧
      s.time_accumulator + d
        - (⌊(s.time_accumulator + d) / s.generation_time⌋.toNat : ℚ) * s.generation_time
        < s.generation_time := by
  have hx : 0 ≤ (s.time_accumulator + d) / s.generation_time :=
    div_nonneg (by linarith) (le_of_lt hg)
  have hfl : 0 ≤ ⌊(s.time_accumulator + d) / s.generation_time⌋ := Int.floor_nonneg.mpr hx
  have hcast : ((⌊(s.time_accumulator + d) / s.generation_time⌋.toNat : ℕ) : ℚ)
      = ((⌊(s.time_accumulator + d) / s.generation_time⌋ : ℤ) : ℚ) := by
    have := Int.toNat_of_nonneg hfl
    exact_mod_cast congrArg (fun z : ℤ => (z : ℚ)) this
  have hlo : ((⌊(s.time_accumulator + d) / s.generation_time⌋.toNat : ℕ) : ℚ)
      * s.generation_time ≤ s.time_accumulator + d := by
    rw [hcast]
    exact (le_div_iff₀ hg).mp (Int.floor_le _)
  have hhi : s.time_accumulator + d
      < (((⌊(s.time_accumulator + d) / s.generation_time⌋.toNat : ℕ) : ℚ) + 1)
        * s.generation_time := by
    rw [hcast]
    exact (div_lt_iff₀ hg).mp (Int.lt_floor_add_one _)
  obtain ⟨b', hb', _⟩ := clock_loop_spec ⌊(s.time_accumulator + d) / s.generation_time⌋.toNat
    { s with time_accumulator := s.time_accumulator + d } 0 _ hg hlo hhi hwf h0 h1
    (Nat.lt_succ_self _)
  refine ⟨b', hb', ?_, by linarith, by linarith⟩
  intro fuel hfuel
  obtain ⟨b'', hb'', hloop⟩ := clock_loop_spec
    ⌊(s.time_accumulator + d) / s.generation_time⌋.toNat
    { s with time_accumulator := s.time_accumulator + d } 0 fuel hg hlo hhi hwf h0 h1 hfuel
  have hbb : b'' = b' := by
    have h2 : some b'' = some b' := hb''.symm.trans hb'
    exact Option.some.inj h2
  subst hbb
  have hcond : (!s.paused) = true := by rw [hp]; rfl
  unfold clock_tick
  rw [if_pos hcond, hloop]
  simp

set_option maxRecDepth 1000000 in
/-- Witness of C10, the scenario of the specification: with nothing accumulated, interval
0.1 and delta 0.25 the update makes exactly 2 calls and leaves 0.05. -/
theorem clock_tick_scenario :
    scenario_sim.paused = false ∧ scenario_sim.time_accumulator = 0 ∧
    scenario_sim.generation_time = 1 / 10 ∧
    ∃ b', board_advance 2 scenario_sim.board = some b' ∧
      clock_tick 3 scenario_sim (1 / 4) = some
        ({ scenario_sim with board := b'
                             time_accumulator := 1 / 20 }, 2) := by
  obtain ⟨b', hb', htick, _, _⟩ := clock_tick_spec scenario_sim (1 / 4) rfl
    (by norm_num [scenario_sim]) (by norm_num [scenario_sim]) (by norm_num)
    (by decide) (by decide) (by decide)
  have hn : ⌊(scenario_sim.time_accumulator + 1 / 4) / scenario_sim.generation_time⌋.toNat
      = 2 := by
    norm_num [scenario_sim]
    rfl
  rw [hn] at hb' htick
  refine ⟨rfl, rfl, rfl, b', hb', ?_⟩
  rw [htick 3 (by omega)]
  norm_num [scenario_sim]


/-! ## Claims on the paused clock and the row chain -/

/-- C11: for every delta time, accumulated time and board, the update of a paused clock makes
0 calls of `board_next_generation` and leaves the whole state, `time_accumulator` and the
board (rows, `current_row`, `generation`) included, unchanged; no fuel is needed. -/
theorem clock_tick_paused (fuel : Nat) (s : Sim) (d : ℚ) (hp : s.paused = true) :
    clock_tick fuel s d = some (s, 0) := by
  unfold clock_tick
  rw [hp]
  rfl

/-- Witness of C11: a paused state with time accumulated and a delta of 5. -/
theorem clock_tick_paused_witness :
    paused_sim.paused = true ∧ clock_tick 0 paused_sim 5 = some (paused_sim, 0) :=
  ⟨rfl, clock_tick_paused 0 paused_sim 5 rfl⟩

theorem board_next_generation_chained (b b' : Board) (hwf : b.WF) (h0 : 0 ≤ b.current_row)
    (h1 : b.current_row ≤ (ROWS : Int) - 1) (hch : b.chained)
    (hstep : board_next_generation b = some b') : b'.chained := by
  have hR : (ROWS : Int) = 100 := rfl
  have hR' : ROWS = 100 := rfl
  have hlen := hwf.1
  by_cases hlt : b.current_row < (ROWS : Int) - 1
  · obtain ⟨prev, hprev, hb⟩ := board_next_generation_fill b hwf h0 hlt
    rw [hstep] at hb
    cases hb
    intro i hi1 hi2
    simp only at hi2
    by_cases hi : (i : Int) ≤ b.current_row
    · obtain ⟨p, q, hp, hq, hpq⟩ := hch i hi1 hi
      refine ⟨p, q, ?_, ?_, hpq⟩
      · show (b.rows.set _ _)[i - 1]? = _
        rw [List.getElem?_set, if_neg (by omega)]
        exact hp
      · show (b.rows.set _ _)[i]? = _
        rw [List.getElem?_set, if_neg (by omega)]
        exact hq
    · have hieq : i = b.current_row.toNat + 1 := by omega
      refine ⟨prev, rule110_row COLS prev, ?_, ?_, next_row_eq prev (b.WF_get hwf _ _ hprev)⟩
      · show (b.rows.set _ _)[i - 1]? = _
        rw [List.getElem?_set, if_neg (by omega)]
        have : i - 1 = b.current_row.toNat := by omega
        rw [this]
        exact hprev
      · show (b.rows.set _ _)[i]? = _
        rw [List.getElem?_set, if_pos hieq.symm, if_pos (by omega)]
  · obtain ⟨last, b'', hlast, hb, hcr, _, hlen', hshift, hnew⟩ :=
      board_next_generation_scroll b hwf hlt
    rw [hstep] at hb
    cases hb
    intro i hi1 hi2
    rw [hcr] at hi2
    by_cases hi : i < ROWS - 1
    · obtain ⟨p, q, hp, hq, hpq⟩ := hch (i + 1) (by omega) (by push_cast; omega)
      refine ⟨p, q, ?_, ?_, hpq⟩
      · rw [hshift (i - 1) (by omega)]
        have : i - 1 + 1 = i + 1 - 1 := by omega
        rw [this]
        exact hp
      · rw [hshift i hi]
        exact hq
    · have hieq : i = ROWS - 1 := by omega
      subst hieq
      refine ⟨last, rule110_row COLS last, ?_, hnew, next_row_eq last (b.WF_get hwf _ _ hlast)⟩
      rw [hshift (ROWS - 1 - 1) (by omega)]
      exact hlast

theorem board_advance_chained (n : Nat) :
    ∀ b b' : Board, b.WF → 0 ≤ b.current_row → b.current_row ≤ (ROWS : Int) - 1 → b.chained →
      board_advance n b = some b' → b'.chained := by
  induction n with
  | zero =>
    intro b b' _ _ _ hch h
    cases h
    exact hch
  | succ n ih =>
    intro b b' hwf h0 h1 hch h
    obtain ⟨b1, hb1, hwf1, _, hc1⟩ := board_next_generation_WF b hwf h0
    rw [board_advance, hb1, Option.some_bind] at h
    have h01 : 0 ≤ b1.current_row := by rw [hc1]; split <;> omega
    have h11 : b1.current_row ≤ (ROWS : Int) - 1 := by rw [hc1]; split <;> omega
    exact ih b1 b' hwf1 h01 h11 (board_next_generation_chained b b1 hwf h0 h1 hch hb1) h

/-- C15: for every board reachable from `board_init` by any number of calls of
`board_next_generation`, in the filling and in the scrolling phase alike, every row of index
`i` with `1 ≤ i ≤ current_row` is `next_row` of the row of index `i - 1`. -/
theorem rows_chained (draws : Nat → Nat) (prior b0 b : Board) (n : Nat)
    (h0 : board_init draws prior = some b0) (hn : board_advance n b0 = some b) :
    ∀ i : Nat, 1 ≤ i → (i : Int) ≤ b.current_row →
      ∃ p q, b.rows[i - 1]? = some p ∧ b.rows[i]? = some q ∧ next_row p = some q := by
  obtain ⟨hwf, hc, _⟩ := board_init_WF draws prior b0 h0
  have hch0 : b0.chained := by
    intro i hi1 hi2
    omega
  exact board_advance_chained n b0 b hwf (by omega) (by rw [hc]; decide) hch0 hn

set_option maxRecDepth 1000000 in
/-- Witness of C15: the board after one call from the board of `draws_50`. -/
theorem rows_chained_witness :
    board_init draws_50 zero_board = some seed_board ∧
    board_advance 1 seed_board = some seed_board_1 ∧
    ∀ i : Nat, 1 ≤ i → (i : Int) ≤ seed_board_1.current_row →
      ∃ p q, seed_board_1.rows[i - 1]? = some p ∧ seed_board_1.rows[i]? = some q ∧
        next_row p = some q :=
  ⟨by decide, by decide,
    rows_chained draws_50 zero_board seed_board seed_board_1 1 (by decide) (by decide)⟩

/-! ## Activity never spreads to the right -/

theorem rule110_row_getElem? (W : Nat) (prev : Row) (i : Nat) (hi : i < W) :
    (rule110_row W prev).cells[i]? = some (rule110_at W prev i) := by
  simp only [rule110_row, List.getElem?_map, List.getElem?_range hi, Option.map_some']

theorem rule110_dead_right (l : Cell) (hl : l = O ∨ l = I) : rule110 l O O = O := by
  rcases hl with rfl | rfl <;> rfl

theorem getD_of_getElem? (l : List Cell) (i : Nat) (c : Cell) (h : l[i]? = some c) :
    l.getD i 0 = c := by
  rw [List.getD_eq_getElem?_getD, h]
  rfl

set_option maxRecDepth 100000 in
/-- C20: under the hard-boundary Rule 110 of `next_row` activity never spreads to the right:
for every binary row and every column `k`, if every cell at a column above `k` is dead then
every cell of the next row at a column above `k` is dead; and `next_row` of the all-dead row
is the all-dead row. -/
theorem next_row_no_spread_right (prev : Row) (hlen : prev.cells.length = COLS)
    (hbin : prev.binary) (k : Nat)
    (hdead : ∀ i, k < i → i < COLS → prev.cells[i]? = some O) :
    (∃ next, next_row prev = some next ∧ next.cells.length = COLS ∧
      ∀ i, k < i → i < COLS → next.cells[i]? = some O) ∧
    next_row (zero_row COLS) = some (zero_row COLS) := by
  constructor
  · refine ⟨rule110_row COLS prev, next_row_eq prev ⟨hlen, hbin⟩, (rule110_row_WF prev).1, ?_⟩
    intro i hki hi
    rw [rule110_row_getElem? COLS prev i hi]
    apply congrArg some
    unfold rule110_at
    have hc : prev.cells.getD i 0 = O := getD_of_getElem? _ _ _ (hdead i hki hi)
    have hr : right_of COLS prev i = O := by
      unfold right_of
      split
      · rfl
      · rename_i hne
        exact getD_of_getElem? _ _ _ (hdead (i + 1) (by omega) (by omega))
    rw [hc, hr]
    exact rule110_dead_right _ (left_of_binary prev hbin i)
  · rw [next_row_eq _ zero_row_WF]
    exact congrArg some (by decide)

set_option maxRecDepth 100000 in
/-- Witness of C20: the row with only the middle column alive, `k = 60`. -/
theorem next_row_no_spread_right_witness :
    seed_row.cells.length = COLS ∧ seed_row.binary ∧
    (∀ i, 60 < i → i < COLS → seed_row.cells[i]? = some O) ∧
    ∃ next, next_row seed_row = some next ∧ next.cells.length = COLS ∧
      ∀ i, 60 < i → i < COLS → next.cells[i]? = some O :=
  have hdead : ∀ i, 60 < i → i < COLS → seed_row.cells[i]? = some O := by
    intro i h1 h2
    have h3 : i < 120 := h2
    interval_cases i <;> rfl
  ⟨by decide, by decide, hdead,
    (next_row_no_spread_right seed_row (by decide) (by decide) 60 hdead).1⟩


/-! ## Claims on the input handler -/

theorem key_switch_spec (s : Sim) (key : Int) (draws : Nat → Nat) :
    ∃ p, key_switch s key draws = some p ∧
      p.1.generation_time =
        (if key = GLFW_KEY_UP then max (1 / 100) (s.generation_time - 1 / 100)
         else if key = GLFW_KEY_DOWN then min 1 (s.generation_time + 1 / 100)
         else s.generation_time) ∧
      (key ≠ GLFW_KEY_R → p.1.board = s.board) ∧
      (key = GLFW_KEY_R → board_init draws s.board = some p.1.board) := by
  unfold key_switch
  by_cases h1 : key = GLFW_KEY_SPACE
  · subst h1
    exact ⟨_, by rw [if_pos rfl], by rw [if_neg (by decide), if_neg (by decide)],
      fun _ => rfl, fun h => absurd h (by decide)⟩
  by_cases h2 : key = GLFW_KEY_R
  · subst h2
    obtain ⟨r, _, hb⟩ := board_init_spec draws s.board
    refine ⟨({ s with board := ⟨r :: List.replicate (ROWS - 1) (zero_row COLS), 0, 0⟩ }, false),
      ?_, ?_, fun h => absurd rfl h, fun _ => ?_⟩
    · rw [if_neg (by decide), if_pos rfl, hb, Option.some_bind]
    · rfl
    · exact hb
  by_cases h3 : key = GLFW_KEY_G
  · subst h3
    exact ⟨_, by rw [if_neg (by decide), if_neg (by decide), if_pos rfl],
      by rw [if_neg (by decide), if_neg (by decide)],
      fun _ => rfl, fun h => absurd h (by decide)⟩
  by_cases h4 : key = GLFW_KEY_UP
  · subst h4
    refine ⟨_, by rw [if_neg (by decide), if_neg (by decide), if_neg (by decide), if_pos rfl],
      ?_, fun _ => rfl, fun h => absurd h (by decide)⟩
    rw [if_pos rfl]
  by_cases h5 : key = GLFW_KEY_DOWN
  · subst h5
    refine ⟨_, by rw [if_neg (by decide), if_neg (by decide), if_neg (by decide),
      if_neg (by decide), if_pos rfl], ?_, fun _ => rfl, fun h => absurd h (by decide)⟩
    rw [if_neg (by decide), if_pos rfl]
  rw [if_neg h1, if_neg h2, if_neg h3, if_neg h4, if_neg h5]
  by_cases h6 : key = GLFW_KEY_ESCAPE ∨ key = GLFW_KEY_Q
  · rw [if_pos h6]
    exact ⟨_, rfl, by rw [if_neg h4, if_neg h5], fun _ => rfl, fun h => absurd h h2⟩
  · rw [if_neg h6]
    exact ⟨_, rfl, by rw [if_neg h4, if_neg h5], fun _ => rfl, fun h => absurd h h2⟩

theorem key_callback_spec (s : Sim) (key action : Int) (draws : Nat → Nat) (hv : s.valid) :
    ∃ p, key_callback s key action draws = some p ∧ p.1.valid ∧
      p.1.generation_time = next_generation_time s.generation_time key action := by
  unfold key_callback next_generation_time
  by_cases ha : action = GLFW_PRESS
  · obtain ⟨p, hp, hg, hb1, hb2⟩ := key_switch_spec s key draws
    rw [if_pos ha, hp, Option.some_bind]
    have hpv : p.1.valid := by
      by_cases hR : key = GLFW_KEY_R
      · obtain ⟨hwf, hc, _⟩ := board_init_WF draws s.board _ (hb2 hR)
        exact ⟨hwf, by rw [hc], by rw [hc]; decide⟩
      · unfold Sim.valid
        rw [hb1 hR]
        exact hv
    have hg' : p.1.generation_time =
        if action = GLFW_PRESS ∧ key = GLFW_KEY_UP then max (1 / 100) (s.generation_time - 1 / 100)
        else if action = GLFW_PRESS ∧ key = GLFW_KEY_DOWN then
          min 1 (s.generation_time + 1 / 100)
        else s.generation_time := by
      rw [hg]
      simp only [ha, true_and]
    by_cases hstep : p.1.paused = true ∧ key = GLFW_KEY_RIGHT
    · rw [if_pos hstep]
      obtain ⟨b', hb', hwf', _, hc'⟩ := board_next_generation_WF p.1.board hpv.1 hpv.2.1
      rw [hb', Option.some_bind]
      refine ⟨_, rfl, ⟨hwf', ?_, ?_⟩, hg'⟩
      · show 0 ≤ b'.current_row
        rw [hc']; split <;> have := hpv.2.1 <;> omega
      · show b'.current_row ≤ (ROWS : Int) - 1
        rw [hc']; split <;> have := hpv.2.2 <;> omega
    · rw [if_neg hstep]
      exact ⟨p, rfl, hpv, hg'⟩
  · rw [if_neg ha]
    refine ⟨(s, false), rfl, hv, ?_⟩
    have h1 : ¬ (action = GLFW_PRESS ∧ key = GLFW_KEY_UP) := fun h => ha h.1
    have h2 : ¬ (action = GLFW_PRESS ∧ key = GLFW_KEY_DOWN) := fun h => ha h.1
    rw [if_neg h1, if_neg h2]

theorem next_generation_time_bounds (g : ℚ) (key action : Int) (h1 : 1 / 100 ≤ g) (h2 : g ≤ 1) :
    1 / 100 ≤ next_generation_time g key action ∧ next_generation_time g key action ≤ 1 := by
  unfold next_generation_time
  split
  · exact ⟨le_max_left _ _, max_le (by norm_num) (by linarith)⟩
  · split
    · exact ⟨le_min (by norm_num) (by linarith), min_le_left _ _⟩
    · exact ⟨h1, h2⟩

theorem key_callbacks_spec (events : List KeyEvent) :
    ∀ s : Sim, s.valid → 1 / 100 ≤ s.generation_time → s.generation_time ≤ 1 →
      ∃ s', key_callbacks s events = some s' ∧ s'.valid ∧
        1 / 100 ≤ s'.generation_time ∧ s'.generation_time ≤ 1 := by
  induction events with
  | nil =>
    intro s hv h1 h2
    exact ⟨s, rfl, hv, h1, h2⟩
  | cons e es ih =>
    intro s hv h1 h2
    obtain ⟨p, hp, hpv, hg⟩ := key_callback_spec s e.key e.action e.draws hv
    have hb := next_generation_time_bounds s.generation_time e.key e.action h1 h2
    rw [← hg] at hb
    obtain ⟨s', hs', hres⟩ := ih p.1 hpv hb.1 hb.2
    exact ⟨s', by rw [key_callbacks, hp, Option.some_bind, hs'], hres⟩

theorem initial_sim_valid : initial_sim.valid := by
  refine ⟨⟨by simp [initial_sim, zero_board], ?_⟩, by decide, by decide⟩
  intro r hr
  rw [List.eq_of_mem_replicate hr]
  exact zero_row_WF

/-- C18: in exact arithmetic `0.01 ≤ generation_time ≤ 1.0` is an invariant of the input
handler: it holds for the initial value 0.15 and every key event preserves it (a press of UP
gives `max 0.01 (g - 0.01)`, a press of DOWN gives `min 1.0 (g + 0.01)`, every other event
leaves `generation_time` unchanged), hence so does every sequence of key events. -/
theorem generation_time_clamped (s : Sim) (events : List KeyEvent) (key action : Int)
    (draws : Nat → Nat) (hv : s.valid) (h1 : 1 / 100 ≤ s.generation_time)
    (h2 : s.generation_time ≤ 1) :
    (initial_sim.generation_time = 15 / 100 ∧ 1 / 100 ≤ initial_sim.generation_time ∧
      initial_sim.generation_time ≤ 1) ∧
    (∃ p, key_callback s key action draws = some p ∧
      1 / 100 ≤ p.1.generation_time ∧ p.1.generation_time ≤ 1 ∧
      p.1.generation_time =
        (if action = GLFW_PRESS ∧ key = GLFW_KEY_UP then
          max (1 / 100) (s.generation_time - 1 / 100)
        else if action = GLFW_PRESS ∧ key = GLFW_KEY_DOWN then
          min 1 (s.generation_time + 1 / 100)
        else s.generation_time)) ∧
    ∃ s', key_callbacks s events = some s' ∧
      1 / 100 ≤ s'.generation_time ∧ s'.generation_time ≤ 1 := by
  refine ⟨⟨rfl, by norm_num [initial_sim], by norm_num [initial_sim]⟩, ?_, ?_⟩
  · obtain ⟨p, hp, _, hg⟩ := key_callback_spec s key action draws hv
    have hb := next_generation_time_bounds s.generation_time key action h1 h2
    rw [← hg] at hb
    exact ⟨p, hp, hb.1, hb.2, hg⟩
  · obtain ⟨s', hs', _, hb1, hb2⟩ := key_callbacks_spec events s hv h1 h2
    exact ⟨s', hs', hb1, hb2⟩

/-- Witness of C18: the initial state and the presses UP, R, SPACE, RIGHT, DOWN. -/
theorem generation_time_clamped_witness :
    initial_sim.valid ∧ 1 / 100 ≤ initial_sim.generation_time ∧
    initial_sim.generation_time ≤ 1 ∧
    ∃ s', key_callbacks initial_sim
        [⟨GLFW_KEY_UP, GLFW_PRESS, draws_50⟩, ⟨GLFW_KEY_R, GLFW_PRESS, draws_50⟩,
         ⟨GLFW_KEY_SPACE, GLFW_PRESS, draws_50⟩, ⟨GLFW_KEY_RIGHT, GLFW_PRESS, draws_50⟩,
         ⟨GLFW_KEY_DOWN, GLFW_PRESS, draws_50⟩] = some s' ∧
      1 / 100 ≤ s'.generation_time ∧ s'.generation_time ≤ 1 :=
  ⟨initial_sim_valid, by norm_num [initial_sim], by norm_num [initial_sim],
    (generation_time_clamped initial_sim _ GLFW_KEY_UP GLFW_PRESS draws_50 initial_sim_valid
      (by norm_num [initial_sim]) (by norm_num [initial_sim])).2.2⟩

/-! ## Claims on the Game of Life -/

namespace GameOfLife


theorem cell_to_index_wrap (x y : Int) :
    cell_to_index x y = wrap_coord y * 50 + wrap_coord x := rfl

theorem wrap_coord_eq (x : Int) (hx : -50 < x) : wrap_coord x = x % 50 := by
  unfold wrap_coord
  by_cases h1 : x ≥ 50
  · have h2 : Int.tmod x 50 = x % 50 := Int.tmod_eq_emod (by omega) (by omega)
    rw [if_pos h1, h2, if_neg (by omega)]
  · rw [if_neg h1]
    by_cases h3 : x < 0
    · have h4 : Int.tmod (-x) 50 = (-x) % 50 := Int.tmod_eq_emod (by omega) (by omega)
      rw [if_pos h3, h4]
      omega
    · rw [if_neg h3]
      omega

theorem cell_to_index_eq_torus (x y : Int) (hx : -50 < x) (hy : -50 < y) :
    cell_to_index x y = torus_index x y ∧ 0 ≤ cell_to_index x y ∧
      cell_to_index x y < CELLS := by
  rw [cell_to_index_wrap, wrap_coord_eq x hx, wrap_coord_eq y hy]
  have hC : ((CELLS : Nat) : Int) = 2500 := rfl
  refine ⟨rfl, ?_, ?_⟩
  · omega
  · rw [hC]; omega

theorem get_cell_past_end (grid : List Nat) (hlen : grid.length = CELLS) :
    get_cell grid 0 (-50) = none := by
  have h : cell_to_index 0 (-50) = 2500 := by decide
  unfold get_cell arr_get_int arr_get
  rw [h, if_pos (by decide)]
  exact List.getElem?_eq_none (by rw [hlen]; decide)

/-- C14, evaluated at its failing inputs: for `x = -50` the function returns 50 where the
wrapped index is 0, and for `y = -50` it returns 2500 = `CELLS`, an index outside the grid,
so that `get_cell` reads past the end of the grid. -/
theorem cell_to_index_negative_multiple :
    cell_to_index (-50) 0 = 50 ∧ torus_index (-50) 0 = 0 ∧
    cell_to_index 0 (-50) = 2500 ∧ torus_index 0 (-50) = 0 ∧
    ¬ cell_to_index 0 (-50) < CELLS ∧ get_cell dead_grid 0 (-50) = none :=
  ⟨by decide, by decide, by decide, by decide, by decide,
    get_cell_past_end dead_grid (List.length_replicate _ _)⟩

theorem get_cell_eq (grid : List Nat) (hlen : grid.length = CELLS) (x y : Int)
    (hx : -50 < x) (hy : -50 < y) :
    get_cell grid x y = some (grid.getD (torus_index x y).toNat DEAD) := by
  obtain ⟨he, h0, h1⟩ := cell_to_index_eq_torus x y hx hy
  unfold get_cell arr_get_int arr_get
  rw [if_pos h0, he]
  rw [he] at h0 h1
  have hlt : (torus_index x y).toNat < grid.length := by
    rw [hlen]; omega
  rw [List.getElem?_eq_getElem hlt, List.getD_eq_getElem _ _ hlt]

theorem alive_step (a : Int) (c : Nat) :
    (if c = ALIVE then a + 1 else a) = a + (if c = ALIVE then 1 else 0) := by
  split <;> simp

theorem count_living_neighbors_eq (grid : List Nat) (hlen : grid.length = CELLS) (x y : Int)
    (hx0 : 0 ≤ x) (hx1 : x < 50) (hy0 : 0 ≤ y) (hy1 : y < 50) :
    count_living_neighbors grid x y = some (torus_neighbors grid x y) := by
  have e1 : ((-1 : Int) + 1) = 0 := by norm_num
  have e2 : ((0 : Int) + 1) = 1 := by norm_num
  have n1 : ¬ ((-1 : Int) = 0) := by norm_num
  have n2 : ¬ ((1 : Int) = 0) := by norm_num
  simp only [count_living_neighbors, neighbors_yo_loop, neighbors_xo_loop, e1, e2, n1, n2,
    false_and, and_false, and_self, if_true, if_false,
    get_cell_eq grid hlen (x + -1) (y + -1) (by omega) (by omega),
    get_cell_eq grid hlen (x + 0) (y + -1) (by omega) (by omega),
    get_cell_eq grid hlen (x + 1) (y + -1) (by omega) (by omega),
    get_cell_eq grid hlen (x + -1) (y + 0) (by omega) (by omega),
    get_cell_eq grid hlen (x + 1) (y + 0) (by omega) (by omega),
    get_cell_eq grid hlen (x + -1) (y + 1) (by omega) (by omega),
    get_cell_eq grid hlen (x + 0) (y + 1) (by omega) (by omega),
    get_cell_eq grid hlen (x + 1) (y + 1) (by omega) (by omega),
    Option.some_bind, alive_step]
  simp only [torus_neighbors, torus_alive, add_zero, zero_add, sub_eq_add_neg]


theorem torus_index_in_grid (x y : Nat) (hx : x < 50) (hy : y < 50) :
    (torus_index x y).toNat = y * COLS + x := by
  have hC : ((COLS : Nat) : Int) = 50 := rfl
  have hR : ((ROWS : Nat) : Int) = 50 := rfl
  have hC' : COLS = 50 := rfl
  unfold torus_index
  rw [hC, hR, hC']
  omega

theorem new_state_eq_life_rule (old : List Nat) (x y : Nat) :
    new_state (old.getD (y * COLS + x) DEAD) (torus_neighbors old x y) = life_rule old x y := by
  unfold new_state life_rule
  by_cases hc : old.getD (y * COLS + x) DEAD = ALIVE
  · simp only [hc, if_true, true_and, ne_eq, not_true_eq_false, false_and, or_false]
  · simp only [hc, if_false, false_and, ne_eq, not_false_eq_true, true_and, false_or]

theorem new_state_x_loop_spec (old : List Nat) (hold : old.length = CELLS) (y : Nat)
    (hy : y < 50) :
    ∀ (n x : Nat) (new : List Nat), x + n = 50 → new.length = CELLS →
      (∀ j, j < y * 50 + x → new[j]? = some (life_rule_at old j)) →
      ∃ new', new_state_x_loop old y n x new = some new' ∧ new'.length = CELLS ∧
        ∀ j, j < y * 50 + 50 → new'[j]? = some (life_rule_at old j) := by
  have hC : CELLS = 2500 := rfl
  have hCO : COLS = 50 := rfl
  intro n
  induction n with
  | zero =>
    intro x new hxn hlen hinv
    have : x = 50 := by omega
    subst this
    exact ⟨new, rfl, hlen, hinv⟩
  | succ n ih =>
    intro x new hxn hlen hinv
    have hx : x < 50 := by omega
    have hcount := count_living_neighbors_eq old hold (x : Int) (y : Int) (by omega) (by omega)
      (by omega) (by omega)
    have hget := get_cell_eq old hold (x : Int) (y : Int) (by omega) (by omega)
    rw [torus_index_in_grid x y hx hy] at hget
    obtain ⟨he, h0, h1⟩ := cell_to_index_eq_torus (x : Int) (y : Int) (by omega) (by omega)
    have hidx : (cell_to_index (x : Int) (y : Int)).toNat = y * 50 + x := by
      rw [he, torus_index_in_grid x y hx hy, hCO]
    have hset : set_cell new x y (life_rule old x y)
        = some (new.set (y * 50 + x) (life_rule old x y)) := by
      unfold set_cell arr_set_int arr_set
      rw [if_pos h0, hidx, if_pos (by rw [hlen, hC]; omega)]
    rw [new_state_x_loop, hcount, Option.some_bind, hget, Option.some_bind,
      new_state_eq_life_rule, hset, Option.some_bind]
    apply ih (x + 1) _ (by omega) (by simpa using hlen)
    intro j hj
    rw [List.getElem?_set]
    by_cases hjeq : y * 50 + x = j
    · rw [if_pos hjeq, if_pos (by rw [hlen, hC]; omega)]
      apply congrArg some
      unfold life_rule_at
      rw [hCO, ← hjeq]
      have e1 : (y * 50 + x) % 50 = x := by omega
      have e2 : (y * 50 + x) / 50 = y := by omega
      rw [e1, e2]
    · rw [if_neg hjeq]
      exact hinv j (by omega)

theorem new_state_y_loop_spec (old : List Nat) (hold : old.length = CELLS) :
    ∀ (n y : Nat) (new : List Nat), y + n = 50 → new.length = CELLS →
      (∀ j, j < y * 50 → new[j]? = some (life_rule_at old j)) →
      ∃ new', new_state_y_loop old n y new = some new' ∧ new'.length = CELLS ∧
        ∀ j, j < CELLS → new'[j]? = some (life_rule_at old j) := by
  have hC : CELLS = 2500 := rfl
  intro n
  induction n with
  | zero =>
    intro y new hyn hlen hinv
    have : y = 50 := by omega
    subst this
    exact ⟨new, rfl, hlen, fun j hj => hinv j (by rw [hC] at hj; omega)⟩
  | succ n ih =>
    intro y new hyn hlen hinv
    obtain ⟨new1, h1, hlen1, hinv1⟩ := new_state_x_loop_spec old hold y (by omega) COLS 0 new
      rfl hlen (by simpa using hinv)
    rw [new_state_y_loop, h1, Option.some_bind]
    exact ih (y + 1) new1 (by omega) hlen1 (fun j hj => hinv1 j (by omega))

/-- C13: for every grid `old` of `CELLS` cells (and array `new` of `CELLS` cells),
`compute_new_state` returns; afterwards, for every cell `(x, y)` with `x < COLS` and
`y < ROWS`, `new(x, y)` is `ALIVE` exactly when `old(x, y)` is `ALIVE` with 2 or 3 alive
neighbours or is not `ALIVE` with exactly 3, the neighbours being the 8 surrounding cells of
the torus; otherwise `new(x, y)` is `DEAD`. -/
theorem compute_new_state_rule (old new : List Nat) (hold : old.length = CELLS)
    (hnew : new.length = CELLS) :
    ∃ new', compute_new_state old new = some new' ∧ new'.length = CELLS ∧
      ∀ x y : Nat, x < COLS → y < ROWS →
        ∃ c_old c_new, get_cell old x y = some c_old ∧ get_cell new' x y = some c_new ∧
          (c_new = ALIVE ↔
            (c_old = ALIVE ∧ (torus_neighbors old x y = 2 ∨ torus_neighbors old x y = 3)) ∨
            (c_old ≠ ALIVE ∧ torus_neighbors old x y = 3)) ∧
          (c_new ≠ ALIVE → c_new = DEAD) := by
  have hC : CELLS = 2500 := rfl
  have hCO : COLS = 50 := rfl
  obtain ⟨new', h1, hlen', hinv⟩ := new_state_y_loop_spec old hold ROWS 0 new rfl hnew
    (by intro j hj; omega)
  refine ⟨new', h1, hlen', ?_⟩
  intro x y hx hy
  have hx' : x < 50 := hx
  have hy' : y < 50 := hy
  have hgo := get_cell_eq old hold (x : Int) (y : Int) (by omega) (by omega)
  have hgn := get_cell_eq new' hlen' (x : Int) (y : Int) (by omega) (by omega)
  rw [torus_index_in_grid x y hx' hy'] at hgo hgn
  have hval : new'.getD (y * COLS + x) DEAD = life_rule old x y := by
    rw [List.getD_eq_getElem?_getD, hinv (y * COLS + x) (by rw [hC, hCO]; omega)]
    unfold life_rule_at
    have e1 : (y * COLS + x) % COLS = x := by rw [hCO]; omega
    have e2 : (y * COLS + x) / COLS = y := by rw [hCO]; omega
    rw [e1, e2]
    rfl
  refine ⟨_, _, hgo, hgn, ?_, ?_⟩
  · rw [hval]
    unfold life_rule
    split
    · rename_i h; exact ⟨fun _ => h, fun _ => rfl⟩
    · rename_i h; exact ⟨fun hd => absurd hd (by decide), fun h' => absurd h' h⟩
  · rw [hval]
    unfold life_rule
    split
    · intro h; exact absurd rfl h
    · intro _; rfl


theorem blinker_grid_length : blinker_grid.length = CELLS := by
  simp [blinker_grid, dead_grid]

theorem blinker_grid_getD (j : Nat) :
    blinker_grid.getD j DEAD = if j = 0 ∨ j = 1 ∨ j = 49 then ALIVE else DEAD := by
  unfold blinker_grid dead_grid
  rw [List.getD_eq_getElem?_getD]
  simp only [List.getElem?_set, List.length_set, List.length_replicate, List.getElem?_replicate]
  have hC : CELLS = 2500 := rfl
  rw [hC]
  by_cases h1 : 1 = j
  · subst h1; simp
  by_cases h0 : 0 = j
  · subst h0; simp
  by_cases h49 : 49 = j
  · subst h49; simp
  have e1 : ¬ j = 1 := fun h => h1 h.symm
  have e0 : ¬ j = 0 := fun h => h0 h.symm
  have e49 : ¬ j = 49 := fun h => h49 h.symm
  simp only [h1, h0, h49, e1, e0, e49, if_false, or_self]
  split <;> rfl

theorem blinker_alive (x y : Int) :
    torus_alive blinker_grid x y =
      if (torus_index x y).toNat = 0 ∨ (torus_index x y).toNat = 1 ∨
        (torus_index x y).toNat = 49 then 1 else 0 := by
  unfold torus_alive
  rw [blinker_grid_getD]
  by_cases h : (torus_index x y).toNat = 0 ∨ (torus_index x y).toNat = 1 ∨
      (torus_index x y).toNat = 49
  · rw [if_pos h, if_pos h, if_pos rfl]
  · rw [if_neg h, if_neg h, if_neg (by decide)]

theorem blinker_cell (x y : Nat) (hx : x < 50) (hy : y < 50) :
    get_cell blinker_grid x y =
      some (if y * COLS + x = 0 ∨ y * COLS + x = 1 ∨ y * COLS + x = 49 then ALIVE else DEAD) := by
  rw [get_cell_eq blinker_grid blinker_grid_length (x : Int) (y : Int) (by omega) (by omega),
    torus_index_in_grid x y hx hy, blinker_grid_getD]

/-- Cell of the new grid that the rule makes alive. -/
theorem new_cell_alive (old new' : List Nat) (x y : Nat) (c : Nat)
    (hrule : ∃ c_old c_new, get_cell old x y = some c_old ∧ get_cell new' x y = some c_new ∧
      (c_new = ALIVE ↔
        (c_old = ALIVE ∧ (torus_neighbors old x y = 2 ∨ torus_neighbors old x y = 3)) ∨
        (c_old ≠ ALIVE ∧ torus_neighbors old x y = 3)) ∧
      (c_new ≠ ALIVE → c_new = DEAD))
    (hold : get_cell old x y = some c)
    (h : (c = ALIVE ∧ (torus_neighbors old x y = 2 ∨ torus_neighbors old x y = 3)) ∨
      (c ≠ ALIVE ∧ torus_neighbors old x y = 3)) :
    get_cell new' x y = some ALIVE := by
  obtain ⟨c_old, c_new, ho, hn, hiff, _⟩ := hrule
  rw [hold] at ho
  cases ho
  rw [hn, hiff.mpr h]

/-- Cell of the new grid that the rule makes dead. -/
theorem new_cell_dead (old new' : List Nat) (x y : Nat) (c : Nat)
    (hrule : ∃ c_old c_new, get_cell old x y = some c_old ∧ get_cell new' x y = some c_new ∧
      (c_new = ALIVE ↔
        (c_old = ALIVE ∧ (torus_neighbors old x y = 2 ∨ torus_neighbors old x y = 3)) ∨
        (c_old ≠ ALIVE ∧ torus_neighbors old x y = 3)) ∧
      (c_new ≠ ALIVE → c_new = DEAD))
    (hold : get_cell old x y = some c)
    (h : ¬ ((c = ALIVE ∧ (torus_neighbors old x y = 2 ∨ torus_neighbors old x y = 3)) ∨
      (c ≠ ALIVE ∧ torus_neighbors old x y = 3))) :
    get_cell new' x y = some DEAD := by
  obtain ⟨c_old, c_new, ho, hn, hiff, hdead⟩ := hrule
  rw [hold] at ho
  cases ho
  rw [hn, hdead (fun ha => h (hiff.mp ha))]

/-- Witness of C13: a blinker lying across the left and right borders of row 0, the new grid
initially all alive. The cells `(0, 49)` and `(0, 1)` are born with three neighbours (the one
at `(0, 49)` through the wrap of both coordinates), the cell `(0, 0)` survives with two, the
cells `(49, 0)` and `(1, 0)` die with one, and the cell `(25, 25)` is written dead. -/
theorem compute_new_state_rule_witness :
    blinker_grid.length = CELLS ∧ full_grid.length = CELLS ∧
    get_cell blinker_grid 49 0 = some ALIVE ∧ get_cell blinker_grid 0 0 = some ALIVE ∧
    get_cell blinker_grid 1 0 = some ALIVE ∧ get_cell blinker_grid 0 49 = some DEAD ∧
    get_cell blinker_grid 0 1 = some DEAD ∧
    ∃ new', compute_new_state blinker_grid full_grid = some new' ∧ new'.length = CELLS ∧
      get_cell new' 0 49 = some ALIVE ∧ get_cell new' 0 0 = some ALIVE ∧
      get_cell new' 0 1 = some ALIVE ∧ get_cell new' 49 0 = some DEAD ∧
      get_cell new' 1 0 = some DEAD ∧ get_cell new' 25 25 = some DEAD := by
  have hfull : full_grid.length = CELLS := List.length_replicate _ _
  obtain ⟨new', hcomp, hlen, hrule⟩ :=
    compute_new_state_rule blinker_grid full_grid blinker_grid_length hfull
  have c_49_0 := blinker_cell 49 0 (by decide) (by decide)
  have c_0_0 := blinker_cell 0 0 (by decide) (by decide)
  have c_1_0 := blinker_cell 1 0 (by decide) (by decide)
  have c_0_49 := blinker_cell 0 49 (by decide) (by decide)
  have c_0_1 := blinker_cell 0 1 (by decide) (by decide)
  have c_25_25 := blinker_cell 25 25 (by decide) (by decide)
  have n_0_49 : torus_neighbors blinker_grid ((0 : Nat) : Int) ((49 : Nat) : Int) = 3 := by
    simp only [torus_neighbors, blinker_alive]; decide
  have n_0_0 : torus_neighbors blinker_grid ((0 : Nat) : Int) ((0 : Nat) : Int) = 2 := by
    simp only [torus_neighbors, blinker_alive]; decide
  have n_0_1 : torus_neighbors blinker_grid ((0 : Nat) : Int) ((1 : Nat) : Int) = 3 := by
    simp only [torus_neighbors, blinker_alive]; decide
  have n_49_0 : torus_neighbors blinker_grid ((49 : Nat) : Int) ((0 : Nat) : Int) = 1 := by
    simp only [torus_neighbors, blinker_alive]; decide
  have n_1_0 : torus_neighbors blinker_grid ((1 : Nat) : Int) ((0 : Nat) : Int) = 1 := by
    simp only [torus_neighbors, blinker_alive]; decide
  have n_25_25 : torus_neighbors blinker_grid ((25 : Nat) : Int) ((25 : Nat) : Int) = 0 := by
    simp only [torus_neighbors, blinker_alive]; decide
  refine ⟨blinker_grid_length, hfull, c_49_0, c_0_0, c_1_0, c_0_49, c_0_1, new', hcomp, hlen,
    ?_, ?_, ?_, ?_, ?_, ?_⟩
  · exact new_cell_alive _ _ 0 49 _ (hrule 0 49 (by decide) (by decide)) c_0_49
      (Or.inr ⟨by decide, n_0_49⟩)
  · exact new_cell_alive _ _ 0 0 _ (hrule 0 0 (by decide) (by decide)) c_0_0
      (Or.inl ⟨by decide, Or.inl n_0_0⟩)
  · exact new_cell_alive _ _ 0 1 _ (hrule 0 1 (by decide) (by decide)) c_0_1
      (Or.inr ⟨by decide, n_0_1⟩)
  · exact new_cell_dead _ _ 49 0 _ (hrule 49 0 (by decide) (by decide)) c_49_0
      (by rw [n_49_0]; decide)
  · exact new_cell_dead _ _ 1 0 _ (hrule 1 0 (by decide) (by decide)) c_1_0
      (by rw [n_1_0]; decide)
  · exact new_cell_dead _ _ 25 25 _ (hrule 25 25 (by decide) (by decide)) c_25_25
      (by rw [n_25_25]; decide)

end GameOfLife

/-! ## Claims on the frame renderer -/

theorem r_vertex_list_append {F : Type} (a b : List (Vertex F)) :
    ∀ r : Renderer F,
      r_vertex_list r (a ++ b) = (r_vertex_list r a).bind fun r1 => r_vertex_list r1 b := by
  induction a with
  | nil => intro r; rfl
  | cons v vs ih =>
    intro r
    rw [List.cons_append, r_vertex_list, r_vertex_list]
    cases r_vertex r v.pos v.uv v.color with
    | none => rfl
    | some r1 => rw [Option.some_bind, Option.some_bind, ih r1]

theorem render_cols_loop_eq {F : Type} (ops : FloatOps F) (board : Board)
    (cell_width cell_height : F) (row : Nat) (the_row : Row)
    (hrow : board.rows[row]? = some the_row) (hlen : the_row.cells.length = COLS) :
    ∀ (n col : Nat) (r : Renderer F), col + n = COLS →
      render_cols_loop ops board cell_width cell_height row n col r =
        r_vertex_list r
          (((List.range' col n).filter fun c => decide (the_row.cells.getD c O = I)).flatMap
            fun c => quad_vertices ops (cell_p1 ops cell_width cell_height row c)
              (cell_p2 ops cell_width cell_height row c) (COLOR_PINK_V4F ops)) := by
  intro n
  induction n with
  | zero => intro col r _; rfl
  | succ n ih =>
    intro col r hcn
    have hc : col < the_row.cells.length := by omega
    have hget : arr_get the_row.cells col = some (the_row.cells.getD col O) := by
      unfold arr_get
      rw [List.getD_eq_getElem _ _ hc]
      exact List.getElem?_eq_getElem hc
    rw [render_cols_loop]
    simp only [arr_get] at hget ⊢
    rw [hrow, Option.some_bind, hget, Option.some_bind, List.range'_succ]
    by_cases ha : the_row.cells.getD col O = I
    · rw [if_pos ha, List.filter_cons_of_pos (by simpa using ha), List.flatMap_cons,
        r_vertex_list_append, r_quad_eq_list]
      cases r_vertex_list r (quad_vertices ops (cell_p1 ops cell_width cell_height row col)
        (cell_p2 ops cell_width cell_height row col) (COLOR_PINK_V4F ops)) with
      | none => rfl
      | some r1 =>
        rw [Option.some_bind, Option.some_bind]
        exact ih (col + 1) r1 (by omega)
    · rw [if_neg ha, List.filter_cons_of_neg (by simpa using ha), Option.some_bind]
      exact ih (col + 1) r (by omega)

theorem render_cols_loop_row {F : Type} (ops : FloatOps F) (board : Board) (hwf : board.WF)
    (cell_width cell_height : F) (row : Nat) (hrow : row < ROWS) (r : Renderer F) :
    render_cols_loop ops board cell_width cell_height row COLS 0 r =
      r_vertex_list r (row_vertices ops board cell_width cell_height row) := by
  have hlt : row < board.rows.length := by rw [hwf.1]; exact hrow
  have hget : board.rows[row]? = some (board.rows[row]) := List.getElem?_eq_getElem hlt
  have hwfr : (board.rows[row]).WF := board.WF_get hwf _ _ hget
  rw [render_cols_loop_eq ops board cell_width cell_height row _ hget hwfr.1 COLS 0 r
    (by omega)]
  unfold row_vertices alive_cols
  rw [List.getD_eq_getElem _ _ hlt, List.range_eq_range']

theorem render_rows_loop_eq {F : Type} (ops : FloatOps F) (board : Board) (hwf : board.WF)
    (cell_width cell_height : F) :
    ∀ (n row : Nat) (r : Renderer F), row + n ≤ ROWS →
      render_rows_loop ops board cell_width cell_height n row r =
        r_vertex_list r
          ((List.range' row n).flatMap (row_vertices ops board cell_width cell_height)) := by
  intro n
  induction n with
  | zero => intro row r _; rfl
  | succ n ih =>
    intro row r hrn
    rw [render_rows_loop, render_cols_loop_row ops board hwf cell_width cell_height row
      (by omega), List.range'_succ, List.flatMap_cons, r_vertex_list_append]
    cases r_vertex_list r (row_vertices ops board cell_width cell_height row) with
    | none => rfl
    | some r1 =>
      rw [Option.some_bind, Option.some_bind]
      exact ih (row + 1) r1 (by omega)


theorem line_vertices_length {F : Type} (ops : FloatOps F) (p1 p2 : V2f F) (color : V4f F)
    (thickness : F) : (line_vertices ops p1 p2 color thickness).length = 6 := rfl

theorem quad_vertices_length {F : Type} (ops : FloatOps F) (p1 p2 : V2f F) (color : V4f F) :
    (quad_vertices ops p1 p2 color).length = 6 := rfl

theorem grid_cols_loop_eq {F : Type} (ops : FloatOps F) (cell_width : F) (height : Int)
    (col_step : Nat) (hstep : 1 ≤ col_step) :
    ∀ (fuel col : Nat) (r : Renderer F), COLS + 2 ≤ col + fuel → 1 ≤ fuel →
      grid_cols_loop ops cell_width height col_step fuel col r =
        r_vertex_list r (grid_cols_vertices ops cell_width height col_step fuel col) := by
  intro fuel
  induction fuel with
  | zero => intro col r _ h; omega
  | succ fuel ih =>
    intro col r hcf _
    rw [grid_cols_loop, grid_cols_vertices]
    by_cases hc : col ≤ COLS
    · rw [if_pos hc, if_pos hc, r_vertex_list_append, r_line_eq_list]
      cases r_vertex_list r (line_vertices ops
        (v2f (ops.mul (ops.ofInt col) cell_width) (ops.ofInt 0))
        (v2f (ops.mul (ops.ofInt col) cell_width) (ops.ofInt height)) (grid_color ops)
        (ops.lit 1)) with
      | none => rfl
      | some r1 =>
        rw [Option.some_bind, Option.some_bind]
        exact ih (col + col_step) r1 (by omega) (by omega)
    · rw [if_neg hc, if_neg hc]
      rfl

theorem grid_cols_vertices_length {F : Type} (ops : FloatOps F) (cell_width : F)
    (height : Int) (col_step : Nat) (hstep : 1 ≤ col_step) :
    ∀ (fuel col : Nat), ∃ k,
      (grid_cols_vertices ops cell_width height col_step fuel col).length = 6 * k ∧
      k ≤ COLS + 1 - col := by
  intro fuel
  induction fuel with
  | zero => intro col; exact ⟨0, rfl, Nat.zero_le _⟩
  | succ fuel ih =>
    intro col
    rw [grid_cols_vertices]
    by_cases hc : col ≤ COLS
    · obtain ⟨k, hk, hle⟩ := ih (col + col_step)
      refine ⟨k + 1, ?_, by omega⟩
      rw [if_pos hc, List.length_append, line_vertices_length, hk]
      omega
    · rw [if_neg hc]
      exact ⟨0, rfl, Nat.zero_le _⟩

theorem grid_rows_loop_eq {F : Type} (ops : FloatOps F) (cell_height : F) (width : Int)
    (mrow : Int) (hmax : mrow ≤ (ROWS : Int) - 1) (row_step : Nat) (hstep : 1 ≤ row_step) :
    ∀ (fuel row : Nat) (r : Renderer F), ROWS + 1 ≤ row + fuel → 1 ≤ fuel →
      grid_rows_loop ops cell_height width mrow row_step fuel row r =
        r_vertex_list r (grid_rows_vertices ops cell_height width mrow row_step fuel row) := by
  intro fuel
  induction fuel with
  | zero => intro row r _ h; omega
  | succ fuel ih =>
    intro row r hrf _
    rw [grid_rows_loop, grid_rows_vertices]
    by_cases hc : (row : Int) ≤ mrow
    · rw [if_pos hc, if_pos hc, r_vertex_list_append, r_line_eq_list]
      cases r_vertex_list r (line_vertices ops
        (v2f (ops.ofInt 0) (ops.mul (ops.ofInt row) cell_height))
        (v2f (ops.ofInt width) (ops.mul (ops.ofInt row) cell_height)) (grid_color ops)
        (ops.lit 1)) with
      | none => rfl
      | some r1 =>
        rw [Option.some_bind, Option.some_bind]
        exact ih (row + row_step) r1 (by omega) (by omega)
    · rw [if_neg hc, if_neg hc]
      rfl

theorem grid_rows_vertices_length {F : Type} (ops : FloatOps F) (cell_height : F)
    (width : Int) (mrow : Int) (hmax : mrow ≤ (ROWS : Int) - 1) (row_step : Nat)
    (hstep : 1 ≤ row_step) :
    ∀ (fuel row : Nat), ∃ k,
      (grid_rows_vertices ops cell_height width mrow row_step fuel row).length = 6 * k ∧
      k ≤ ROWS - row := by
  intro fuel
  induction fuel with
  | zero => intro row; exact ⟨0, rfl, Nat.zero_le _⟩
  | succ fuel ih =>
    intro row
    rw [grid_rows_vertices]
    by_cases hc : (row : Int) ≤ mrow
    · obtain ⟨k, hk, hle⟩ := ih (row + row_step)
      refine ⟨k + 1, ?_, by omega⟩
      rw [if_pos hc, List.length_append, line_vertices_length, hk]
      omega
    · rw [if_neg hc]
      exact ⟨0, rfl, Nat.zero_le _⟩

theorem grid_step_pos {F : Type} (ops : FloatOps F) (d : F) : 1 ≤ grid_step ops d := by
  unfold grid_step
  split <;> omega

theorem max_row_le (board : Board) : max_row board ≤ (ROWS : Int) - 1 := by
  unfold max_row
  split <;> omega

/-- On a well-formed board with `0 ≤ current_row ≤ ROWS - 1`, `board_render` is the sequence of
`r_vertex` calls on the vertices `render_vertices`. -/
theorem board_render_eq {F : Type} (ops : FloatOps F) (show_grid : Bool) (r : Renderer F)
    (board : Board) (width height : Int) (hwf : board.WF) (h0 : 0 ≤ board.current_row)
    (h1 : board.current_row ≤ (ROWS : Int) - 1) :
    board_render ops show_grid r board width height =
      r_vertex_list r (render_vertices ops show_grid board width height) := by
  have hR : (ROWS : Int) = 100 := rfl
  have hR' : ROWS = 100 := rfl
  have hm : (max_row board + 1).toNat = board.current_row.toNat + 1 := by
    unfold max_row
    split <;> omega
  unfold board_render render_vertices cells_vertices
  simp only
  rw [hm, render_rows_loop_eq ops board hwf _ _ _ 0 r (by omega), r_vertex_list_append,
    List.range_eq_range']
  cases r_vertex_list r ((List.range' 0 (board.current_row.toNat + 1)).flatMap
    (row_vertices ops board (ops.div (ops.ofInt width) (ops.ofInt COLS))
      (ops.div (ops.ofInt height) (ops.ofInt ROWS)))) with
  | none => rfl
  | some r1 =>
    rw [Option.some_bind, Option.some_bind]
    by_cases hg : grid_shown ops show_grid (ops.div (ops.ofInt width) (ops.ofInt COLS))
        (ops.div (ops.ofInt height) (ops.ofInt ROWS)) = true
    · rw [if_pos hg, if_pos hg, r_vertex_list_append,
        grid_cols_loop_eq ops _ height _ (grid_step_pos ops _) (COLS + 2) 0 r1 (by omega)
          (by omega)]
      cases r_vertex_list r1 (grid_cols_vertices ops (ops.div (ops.ofInt width) (ops.ofInt COLS))
        height (grid_step ops (ops.div (ops.ofInt width) (ops.ofInt COLS))) (COLS + 2) 0) with
      | none => rfl
      | some r2 =>
        rw [Option.some_bind, Option.some_bind]
        exact grid_rows_loop_eq ops _ width _ (max_row_le board) _ (grid_step_pos ops _)
          (ROWS + 2) 0 r2 (by omega) (by omega)
    · rw [if_neg hg, if_neg hg]
      rfl


theorem r_vertex_list_room_of_le {F : Type} (vs : List (Vertex F)) :
    ∀ r : Renderer F, r.vertex_buf_sz + vs.length ≤ VERTEX_BUF_CAP →
      r_vertex_list_room r vs = true := by
  induction vs with
  | nil => intro r _; rfl
  | cons v vs ih =>
    intro r h
    simp only [List.length_cons] at h
    have hlt : r.vertex_buf_sz < VERTEX_BUF_CAP := by omega
    rw [r_vertex_list_room, r_vertex_spec, if_pos hlt]
    simp only [hlt, decide_True, Bool.true_and]
    exact ih _ (by simp only; omega)

theorem flatMap_length_six {α β : Type} (l : List α) (f : α → List β) (g : α → Nat)
    (h : ∀ a, (f a).length = 6 * g a) : (l.flatMap f).length = 6 * (l.map g).sum := by
  induction l with
  | nil => rfl
  | cons a l ih =>
    rw [List.flatMap_cons, List.length_append, h a, ih, List.map_cons, List.sum_cons]
    omega

theorem row_vertices_length {F : Type} (ops : FloatOps F) (board : Board)
    (cell_width cell_height : F) (row : Nat) :
    (row_vertices ops board cell_width cell_height row).length
      = 6 * (alive_cols (board.rows.getD row ⟨[]⟩)).length := by
  unfold row_vertices
  rw [flatMap_length_six _ _ (fun _ => 1) (fun c => quad_vertices_length ops _ _ _)]
  simp

theorem cells_vertices_length {F : Type} (ops : FloatOps F) (board : Board)
    (width height : Int) :
    (cells_vertices ops board width height).length = 6 * alive_count board := by
  unfold cells_vertices alive_count
  exact flatMap_length_six _ _ _ (fun row => row_vertices_length ops board _ _ row)

theorem alive_cols_length_le (row : Row) : (alive_cols row).length ≤ COLS := by
  unfold alive_cols
  calc _ ≤ (List.range COLS).length := List.length_filter_le _ _
    _ = COLS := List.length_range _

theorem sum_map_le_mul {α : Type} (l : List α) (g : α → Nat) (c : Nat) (h : ∀ a, g a ≤ c) :
    (l.map g).sum ≤ l.length * c := by
  induction l with
  | nil => simp
  | cons a l ih =>
    rw [List.map_cons, List.sum_cons, List.length_cons, Nat.succ_mul]
    have := h a
    omega

theorem alive_count_le (board : Board)
    (h1 : board.current_row ≤ (ROWS : Int) - 1) : alive_count board ≤ ROWS * COLS := by
  unfold alive_count
  have hR : (ROWS : Int) = 100 := rfl
  have hR' : ROWS = 100 := rfl
  calc _ ≤ (List.range (board.current_row.toNat + 1)).length * COLS :=
        sum_map_le_mul _ _ COLS (fun _ => alive_cols_length_le _)
    _ = (board.current_row.toNat + 1) * COLS := by rw [List.length_range]
    _ ≤ ROWS * COLS := Nat.mul_le_mul_right _ (by omega)

theorem render_vertices_length {F : Type} (ops : FloatOps F) (show_grid : Bool)
    (board : Board) (width height : Int)
    (h1 : board.current_row ≤ (ROWS : Int) - 1) :
    ∃ k, (render_vertices ops show_grid board width height).length = 6 * k ∧
      k ≤ COLS * ROWS + (COLS + 1) + (ROWS + 1) := by
  have ha := alive_count_le board h1
  unfold render_vertices
  rw [List.length_append, cells_vertices_length]
  split
  · obtain ⟨k1, hk1, hle1⟩ := grid_cols_vertices_length ops
      (ops.div (ops.ofInt width) (ops.ofInt COLS)) height _ (grid_step_pos ops _) (COLS + 2) 0
    obtain ⟨k2, hk2, hle2⟩ := grid_rows_vertices_length ops
      (ops.div (ops.ofInt height) (ops.ofInt ROWS)) width (max_row board) (max_row_le board) _
      (grid_step_pos ops _) (ROWS + 2) 0
    refine ⟨alive_count board + k1 + k2, ?_, ?_⟩
    · rw [List.length_append, hk1, hk2]; omega
    · rw [Nat.mul_comm COLS ROWS]; omega
  · refine ⟨alive_count board, by simp, ?_⟩
    rw [Nat.mul_comm COLS ROWS]; omega


theorem line_norm_finite (div' : XFloat → XFloat → XFloat) (a b : ℚ) (thickness : XFloat) :
    line_norm { ext_ops with div := div' } (v2f (.fin a) (.fin b)) (v2f (.fin a) (.fin b))
      thickness = v2f (.fin 0) (.fin 0) := by
  simp [line_norm, v2f_sub, v2f, ext_ops, XFloat.sub, XFloat.add, XFloat.neg, XFloat.mul,
    XFloat.sqrt, XFloat.lt, Rat.sqrt]

theorem line_vertices_finite (div' : XFloat → XFloat → XFloat) (a b : ℚ) (color : V4f XFloat)
    (thickness : XFloat) :
    line_vertices { ext_ops with div := div' } (v2f (.fin a) (.fin b)) (v2f (.fin a) (.fin b))
        color thickness =
      [⟨v2f (.fin a) (.fin b), v2f (.fin 0) (.fin 0), color⟩,
       ⟨v2f (.fin a) (.fin b), v2f (.fin 0) (.fin 1), color⟩,
       ⟨v2f (.fin a) (.fin b), v2f (.fin 1) (.fin 0), color⟩,
       ⟨v2f (.fin a) (.fin b), v2f (.fin 0) (.fin 1), color⟩,
       ⟨v2f (.fin a) (.fin b), v2f (.fin 1) (.fin 0), color⟩,
       ⟨v2f (.fin a) (.fin b), v2f (.fin 1) (.fin 1), color⟩] := by
  unfold line_vertices
  rw [line_norm_finite]
  simp [v2f_add, v2f_sub, v2f, ext_ops, XFloat.sub, XFloat.add, XFloat.neg]

/-- C12: for every (well-formed) board with `0 ≤ current_row ≤ ROWS - 1` and every viewport
size, with the grid disabled and from a cleared batch, `board_render` appends exactly
`6 * alive_count board` vertices, the quads of the alive cells of the rows `0 .. current_row`
in row-major order (`cells_vertices`), none for a row above `current_row`, and writes
nothing else; the board is only read. -/
theorem board_render_cells {F : Type} (ops : FloatOps F) (r : Renderer F) (board : Board)
    (width height : Int) (hwf : board.WF) (h0 : 0 ≤ board.current_row)
    (h1 : board.current_row ≤ (ROWS : Int) - 1) :
    ∃ r', board_render ops false (r_clear r) board width height = some r' ∧
      r'.vertex_buf_sz = 6 * alive_count board ∧
      (cells_vertices ops board width height).length = 6 * alive_count board ∧
      (∀ k, k < 6 * alive_count board →
        (cells_vertices ops board width height)[k]? = some (r'.vertex_buf k)) ∧
      ∀ k, 6 * alive_count board ≤ k → r'.vertex_buf k = r.vertex_buf k := by
  have hlen := cells_vertices_length ops board width height
  have hle := alive_count_le board h1
  have hcap : 6 * alive_count board ≤ VERTEX_BUF_CAP := by
    have : ROWS * COLS = 12000 := rfl
    have : VERTEX_BUF_CAP = 131072 := rfl
    omega
  have hrv : render_vertices ops false board width height
      = cells_vertices ops board width height := by
    unfold render_vertices grid_shown
    simp
  obtain ⟨r', hr', hsz, hbuf⟩ := r_vertex_list_spec (cells_vertices ops board width height)
    (r_clear r)
  have hsz0 : (r_clear r).vertex_buf_sz = 0 := rfl
  rw [hsz0] at hsz hbuf
  refine ⟨r', ?_, ?_, hlen, ?_, ?_⟩
  · rw [board_render_eq ops false (r_clear r) board width height hwf h0 h1, hrv]
    exact hr'
  · rw [hsz, if_pos (Nat.zero_le _), hlen]
    omega
  · intro k hk
    have hc : 0 ≤ k ∧ k < VERTEX_BUF_CAP := ⟨Nat.zero_le _, by omega⟩
    have hk' : k < (cells_vertices ops board width height).length := by rw [hlen]; exact hk
    rw [hbuf k, if_pos hc, Nat.sub_zero, List.getElem?_eq_getElem hk']
    rfl
  · intro k hk
    rw [hbuf k]
    split
    · rw [Nat.sub_zero, List.getElem?_eq_none (by rw [hlen]; exact hk)]
      rfl
    · rfl


set_option maxRecDepth 1000000 in
/-- Witness of C12: a board with an alive cell in each of its 100 rows and `current_row = 0`;
only the quad of row 0 is appended. -/
theorem board_render_cells_witness :
    one_row_board.WF ∧ 0 ≤ one_row_board.current_row ∧
    one_row_board.current_row ≤ (ROWS : Int) - 1 ∧ alive_count one_row_board = 1 ∧
    ∃ r', board_render exact_ops false (r_clear (batch_of_size 7)) one_row_board 1200 800
        = some r' ∧ r'.vertex_buf_sz = 6 := by
  obtain ⟨r', hr', hsz, _⟩ := board_render_cells exact_ops (batch_of_size 7) one_row_board
    1200 800 (by decide) (by decide) (by decide)
  have ha : alive_count one_row_board = 1 := by decide
  exact ⟨by decide, by decide, by decide, ha, r', hr', by rw [hsz, ha]⟩

theorem board_render_total {F : Type} (ops : FloatOps F) (show_grid : Bool) (r : Renderer F)
    (board : Board) (width height : Int) (hwf : board.WF) (h0 : 0 ≤ board.current_row)
    (h1 : board.current_row ≤ (ROWS : Int) - 1) :
    ∃ r', board_render ops show_grid r board width height = some r' := by
  obtain ⟨r', hr', _⟩ := r_vertex_list_spec (render_vertices ops show_grid board width height) r
  exact ⟨r', by rw [board_render_eq ops show_grid r board width height hwf h0 h1, hr']⟩

/-- C16: the capacity meets the worst-case bound,
`6 * (COLS*ROWS + (COLS+1) + (ROWS+1)) = 73332 ≤ VERTEX_BUF_CAP`, and for every (well-formed)
board with `0 ≤ current_row ≤ ROWS - 1`, every viewport size and either grid setting,
`board_render` on a cleared batch never takes the overflow branch of `r_vertex`: every vertex
passed to `r_vertex` is stored, in call order, and the final `vertex_buf_sz` is a multiple
of 6. -/
theorem board_render_no_overflow {F : Type} (ops : FloatOps F) (show_grid : Bool)
    (r : Renderer F) (board : Board) (width height : Int) (hwf : board.WF)
    (h0 : 0 ≤ board.current_row) (h1 : board.current_row ≤ (ROWS : Int) - 1) :
    6 * (COLS * ROWS + (COLS + 1) + (ROWS + 1)) = 73332 ∧ 73332 ≤ VERTEX_BUF_CAP ∧
    ∃ r', board_render ops show_grid (r_clear r) board width height = some r' ∧
      board_render ops show_grid (r_clear r) board width height =
        r_vertex_list (r_clear r) (render_vertices ops show_grid board width height) ∧
      r_vertex_list_room (r_clear r) (render_vertices ops show_grid board width height)
        = true ∧
      r'.vertex_buf_sz = (render_vertices ops show_grid board width height).length ∧
      (∀ k v, (render_vertices ops show_grid board width height)[k]? = some v →
        r'.vertex_buf k = v) ∧
      r'.vertex_buf_sz ≤ 6 * (COLS * ROWS + (COLS + 1) + (ROWS + 1)) ∧
      r'.vertex_buf_sz % 6 = 0 := by
  have hbound : 6 * (COLS * ROWS + (COLS + 1) + (ROWS + 1)) = 73332 := rfl
  have hcap : VERTEX_BUF_CAP = 131072 := rfl
  obtain ⟨k, hk, hkle⟩ := render_vertices_length ops show_grid board width height h1
  have heq := board_render_eq ops show_grid (r_clear r) board width height hwf h0 h1
  obtain ⟨r', hr', hsz, hbuf⟩ :=
    r_vertex_list_spec (render_vertices ops show_grid board width height) (r_clear r)
  have hsz0 : (r_clear r).vertex_buf_sz = 0 := rfl
  rw [hsz0] at hsz hbuf
  have hlen : (render_vertices ops show_grid board width height).length ≤ VERTEX_BUF_CAP := by
    omega
  have hsz' : r'.vertex_buf_sz = (render_vertices ops show_grid board width height).length := by
    rw [hsz, if_pos (Nat.zero_le _)]
    omega
  refine ⟨hbound, by rw [hcap]; decide, r', heq.trans hr', heq, ?_, hsz', ?_, ?_, ?_⟩
  · exact r_vertex_list_room_of_le _ _ (by rw [hsz0]; omega)
  · intro j v hv
    have hj : j < (render_vertices ops show_grid board width height).length := by
      by_contra hge
      rw [List.getElem?_eq_none (by omega)] at hv
      cases hv
    have hc : 0 ≤ j ∧ j < VERTEX_BUF_CAP := ⟨Nat.zero_le _, by omega⟩
    rw [hbuf j, if_pos hc, Nat.sub_zero, hv]
    rfl
  · rw [hsz', hk]; omega
  · rw [hsz', hk]; omega

set_option maxRecDepth 1000000 in
/-- Witness of C16: a board in the scrolling phase, grid enabled. -/
theorem board_render_no_overflow_witness :
    full_board.WF ∧ 0 ≤ full_board.current_row ∧ full_board.current_row ≤ (ROWS : Int) - 1 ∧
    ∃ r', board_render exact_ops true (r_clear (batch_of_size 7)) full_board 1200 800
        = some r' ∧ r'.vertex_buf_sz ≤ 73332 ∧ r'.vertex_buf_sz % 6 = 0 := by
  obtain ⟨_, _, r', hr', _, _, _, _, hle, hmod⟩ := board_render_no_overflow exact_ops true
    (batch_of_size 7) full_board 1200 800 (by decide) (by decide) (by decide)
  exact ⟨by decide, by decide, by decide, r', hr', hle, hmod⟩

/-- C17, as stated, fails: at the point `(+inf, 2)` the direction `p - p` is `(NaN, 0)`, the
offset is `(0, NaN)`, its length is NaN, the normalisation is skipped and the first vertex is
stored at `(+inf, NaN)`, which is not `p`. -/
theorem r_line_claim_fails_at_infinity :
    ext_batch.vertex_buf_sz + 6 ≤ VERTEX_BUF_CAP ∧
    line_norm ext_ops inf_point inf_point (.fin 3) = v2f (.fin 0) .nan ∧
    ∃ r', r_line ext_ops ext_batch inf_point inf_point ext_red (.fin 3) = some r' ∧
      r'.vertex_buf_sz = 6 ∧
      (r'.vertex_buf 0).pos = v2f .pinf .nan ∧ (r'.vertex_buf 0).pos ≠ inf_point := by
  have hnorm : line_norm ext_ops inf_point inf_point (.fin 3) = v2f (.fin 0) .nan := by
    simp [line_norm, inf_point, v2f_sub, v2f, ext_ops, XFloat.sub, XFloat.add, XFloat.neg,
      XFloat.mul, XFloat.sqrt, XFloat.lt]
  obtain ⟨r', hr', hsz, hbuf⟩ :=
    r_vertex_list_spec (line_vertices ext_ops inf_point inf_point ext_red (.fin 3)) ext_batch
  have hpos : (r'.vertex_buf 0).pos = v2f .pinf .nan := by
    rw [hbuf 0, if_pos ⟨Nat.le_refl _, by decide⟩]
    unfold line_vertices
    rw [hnorm]
    rfl
  refine ⟨by decide, hnorm, r', (r_line_eq_list _ _ _ _ _ _).trans hr', ?_, hpos, ?_⟩
  · rw [hsz, if_pos (by decide), line_vertices_length]
    rfl
  · rw [hpos]
    decide

/-- C17: for every point `p` with finite coordinates, every colour and every thickness,
`r_line(p, p, color, thickness)` on a batch with room for 6 vertices appends 6 vertices whose
positions all equal `p` (the offset `line_norm` is zero: a zero-width line) and performs no
division: the result is the same whatever the division operation is. -/
theorem r_line_degenerate (r : Renderer XFloat) (a b : ℚ) (color : V4f XFloat)
    (thickness : XFloat) (h : r.vertex_buf_sz + 6 ≤ VERTEX_BUF_CAP) :
    ∃ r', r_line ext_ops r (v2f (.fin a) (.fin b)) (v2f (.fin a) (.fin b)) color thickness
        = some r' ∧
      r'.vertex_buf_sz = r.vertex_buf_sz + 6 ∧
      (∀ k, k < 6 → (r'.vertex_buf (r.vertex_buf_sz + k)).pos = v2f (.fin a) (.fin b)) ∧
      line_norm ext_ops (v2f (.fin a) (.fin b)) (v2f (.fin a) (.fin b)) thickness
        = v2f (ext_ops.lit 0) (ext_ops.lit 0) ∧
      ∀ div' : XFloat → XFloat → XFloat,
        r_line { ext_ops with div := div' } r (v2f (.fin a) (.fin b)) (v2f (.fin a) (.fin b))
          color thickness = some r' := by
  have hvs := line_vertices_finite XFloat.div a b color thickness
  obtain ⟨r', hr', hsz, hbuf⟩ := r_vertex_list_spec
    (line_vertices ext_ops (v2f (.fin a) (.fin b)) (v2f (.fin a) (.fin b)) color thickness) r
  refine ⟨r', (r_line_eq_list ext_ops r _ _ color thickness).trans hr', ?_, ?_,
    line_norm_finite XFloat.div a b thickness, ?_⟩
  · rw [hsz, if_pos (by omega), line_vertices_length]
    omega
  · intro k hk
    have hc : r.vertex_buf_sz ≤ r.vertex_buf_sz + k ∧ r.vertex_buf_sz + k < VERTEX_BUF_CAP :=
      ⟨by omega, by omega⟩
    have hvs' : line_vertices ext_ops (v2f (.fin a) (.fin b)) (v2f (.fin a) (.fin b)) color
        thickness = _ := hvs
    rw [hbuf, if_pos hc, Nat.add_sub_cancel_left, hvs']
    have : k = 0 ∨ k = 1 ∨ k = 2 ∨ k = 3 ∨ k = 4 ∨ k = 5 := by omega
    rcases this with rfl | rfl | rfl | rfl | rfl | rfl <;> rfl
  · intro div'
    have hvs' : line_vertices ext_ops (v2f (.fin a) (.fin b)) (v2f (.fin a) (.fin b)) color
        thickness = _ := hvs
    rw [r_line_eq_list, line_vertices_finite div' a b color thickness, ← hvs']
    exact hr'

/-- Witness of C17: the point (1, 2), thickness 3, on the empty batch. -/
theorem r_line_degenerate_witness :
    ext_batch.vertex_buf_sz + 6 ≤ VERTEX_BUF_CAP ∧
    ∃ r', r_line ext_ops ext_batch (v2f (.fin 1) (.fin 2)) (v2f (.fin 1) (.fin 2)) ext_red
        (.fin 3) = some r' ∧
      r'.vertex_buf_sz = 6 ∧ ∀ k, k < 6 → (r'.vertex_buf k).pos = v2f (.fin 1) (.fin 2) := by
  obtain ⟨r', hr', hsz, hpos, _, _⟩ := r_line_degenerate ext_batch 1 2 ext_red (.fin 3)
    (by decide)
  refine ⟨by decide, r', hr', hsz, ?_⟩
  intro k hk
  have := hpos k hk
  rw [show ext_batch.vertex_buf_sz + k = k from Nat.zero_add k] at this
  exact this

/-- C19, as stated, fails: after 2147483648 calls from `board_init` the 32-bit counter has
wrapped around and `generation` is `-2147483648`, not the number of calls. -/
theorem generation_wraps_after_INT_MAX_calls :
    ∃ b0 b, board_init draws_50 zero_board = some b0 ∧
      board_advance 2147483648 b0 = some b ∧
      b.generation = -2147483648 ∧ b.generation ≠ ((2147483648 : Nat) : Int) := by
  obtain ⟨r, _, hb0⟩ := board_init_spec draws_50 zero_board
  obtain ⟨b, hb, _, hg, _⟩ := board_reachable_spec draws_50 zero_board _ 2147483648 hb0
  have hg' : b.generation = -2147483648 := by rw [hg]; decide
  refine ⟨_, b, hb0, hb, hg', ?_⟩
  rw [hg']
  decide

/-- C19, amended: for every `n`, the board obtained from `board_init` by exactly `n` calls of
`board_next_generation` has `current_row = min n (ROWS - 1)` and, as long as `n ≤ INT_MAX`,
`generation = n` (in general `generation` is `n` reduced to a 32-bit `int`); hence
`0 ≤ current_row ≤ ROWS - 1`; a further call and `board_render` return on it, so every row
index they use is in range; the call taken after `n` calls fills while `n < ROWS - 1` and
scrolls from `n = ROWS - 1` on, the first scroll being taken at `generation = ROWS - 1`. -/
theorem board_counters {F : Type} (draws : Nat → Nat) (prior : Board) (n : Nat)
    (ops : FloatOps F) (show_grid : Bool) (r : Renderer F) (width height : Int) :
    ∃ b0 b b', board_init draws prior = some b0 ∧ board_advance n b0 = some b ∧
      b.generation = wrap_int n ∧ ((n : Int) ≤ INT_MAX → b.generation = n) ∧
      b.current_row = min (n : Int) ((ROWS : Int) - 1) ∧
      0 ≤ b.current_row ∧ b.current_row ≤ (ROWS : Int) - 1 ∧
      board_next_generation b = some b' ∧
      (∃ r', board_render ops show_grid r b width height = some r') ∧
      (n < ROWS - 1 → b'.current_row = b.current_row + 1 ∧
        ∀ j : Nat, j ≤ n → b'.rows[j]? = b.rows[j]?) ∧
      (ROWS - 1 ≤ n → b'.current_row = b.current_row ∧
        ∀ j : Nat, j < ROWS - 1 → b'.rows[j]? = b.rows[j + 1]?) := by
  have hR : (ROWS : Int) = 100 := rfl
  have hR' : ROWS = 100 := rfl
  obtain ⟨r0, _, hb0⟩ := board_init_spec draws prior
  obtain ⟨b, hb, hwf, hg, hc⟩ := board_reachable_spec draws prior _ n hb0
  have hgn : (n : Int) ≤ INT_MAX → b.generation = n := fun h => by
    rw [hg, wrap_int_calls n h]
  have h0 : 0 ≤ b.current_row := by rw [hc]; omega
  have h1 : b.current_row ≤ (ROWS : Int) - 1 := by rw [hc]; omega
  have hrender := board_render_total ops show_grid r b width height hwf h0 h1
  by_cases hn : n < ROWS - 1
  · have hlt : b.current_row < (ROWS : Int) - 1 := by rw [hc]; omega
    obtain ⟨prev, _, hstep⟩ := board_next_generation_fill b hwf h0 hlt
    refine ⟨_, b, _, hb0, hb, hg, hgn, hc, h0, h1, hstep, hrender, fun _ => ⟨rfl, ?_⟩,
      fun h => by omega⟩
    intro j hj
    show (b.rows.set _ _)[j]? = _
    rw [List.getElem?_set, if_neg (by omega)]
  · have hnot : ¬ b.current_row < (ROWS : Int) - 1 := by rw [hc]; omega
    obtain ⟨last, b', _, hstep, hc', _, _, hshift, _⟩ := board_next_generation_scroll b hwf hnot
    exact ⟨_, b, b', hb0, hb, hg, hgn, hc, h0, h1, hstep, hrender, fun h => absurd h hn,
      fun _ => ⟨hc', hshift⟩⟩

set_option maxRecDepth 1000000 in
/-- Witness of the amended C19: three calls from the board of `draws_50`; the fourth call
fills. -/
theorem board_counters_witness :
    ∃ b0 b b', board_init draws_50 zero_board = some b0 ∧ board_advance 3 b0 = some b ∧
      b.generation = 3 ∧ b.current_row = 3 ∧ board_next_generation b = some b' ∧
      b'.current_row = 4 := by
  obtain ⟨b0, b, b', h0, hb, _, hg, hc, _, _, hstep, _, hfill, _⟩ :=
    board_counters draws_50 zero_board 3 exact_ops true (batch_of_size 0) 1200 800
  have hc3 : b.current_row = 3 := by rw [hc]; decide
  refine ⟨b0, b, b', h0, hb, hg (by decide), hc3, hstep, ?_⟩
  rw [(hfill (by decide)).1, hc3]
  rfl

/-! ## Terminal variant against the hard-boundary rule -/

/-- One iteration of the loop of `rule110.c` stores the Rule 110 value at an interior column. -/
theorem terminal_next_row_body_eq (W : Nat) (prev next : Row) (hlen : prev.cells.length = W)
    (hb : prev.binary) (i : Nat) (h1 : 1 ≤ i) (h2 : i + 1 < W) (hn : i < next.cells.length) :
    Rule110.next_row_body prev i next = some ⟨next.cells.set i (rule110_at W prev i)⟩ := by
  have hleft : arr_get prev.cells (i - 1) = some (left_of prev i) := by
    unfold left_of
    rw [if_neg (by omega)]
    exact arr_get_eq_getD _ _ (by omega)
  have hcenter : arr_get prev.cells i = some (prev.cells.getD i 0) :=
    arr_get_eq_getD _ _ (by omega)
  have hright : arr_get prev.cells (i + 1) = some (right_of W prev i) := by
    unfold right_of
    rw [if_neg (by omega)]
    exact arr_get_eq_getD _ _ (by omega)
  have hpat : arr_get Rule110.patterns
      (pattern_index (left_of prev i) (prev.cells.getD i 0) (right_of W prev i))
      = some (rule110 (left_of prev i) (prev.cells.getD i 0) (right_of W prev i)) :=
    (patterns_lookup _ _ _ (left_of_binary prev hb i) (getD_binary prev hb i)
      (right_of_binary W prev hb i)).2
  unfold Rule110.next_row_body
  rw [hleft, hcenter, hright]
  simp only [Option.some_bind, hpat, arr_set, hn, if_true, rule110_at]

theorem terminal_next_row_loop_spec (W : Nat) (prev : Row) (hlen : prev.cells.length = W)
    (hb : prev.binary) :
    ∀ (n i : Nat) (next : Row), 1 ≤ i → i + n + 1 = W → next.cells.length = W →
      (∀ j, j < W → next.cells[j]? =
        some (if 1 ≤ j ∧ j < i then rule110_at W prev j else O)) →
      ∃ next', Rule110.next_row_loop prev n i next = some next' ∧ next'.cells.length = W ∧
        ∀ j, j < W → next'.cells[j]? = some (Rule110.interior_at W prev j) := by
  intro n
  induction n with
  | zero =>
    intro i next hi hin hl hinv
    refine ⟨next, rfl, hl, ?_⟩
    intro j hj
    rw [hinv j hj]
    unfold Rule110.interior_at
    by_cases hc : 1 ≤ j ∧ j < i
    · rw [if_pos hc, if_pos ⟨hc.1, by omega⟩]
    · rw [if_neg hc, if_neg (by omega)]
  | succ n ih =>
    intro i next hi hin hl hinv
    rw [Rule110.next_row_loop,
      terminal_next_row_body_eq W prev next hlen hb i hi (by omega) (by omega),
      Option.some_bind]
    apply ih (i + 1) _ (by omega) (by omega) (by simpa using hl)
    intro j hj
    show (next.cells.set i _)[j]? = _
    rw [List.getElem?_set]
    by_cases hij : i = j
    · subst hij
      rw [if_pos rfl, if_pos (by omega), if_pos ⟨hi, by omega⟩]
    · rw [if_neg hij, hinv j hj]
      by_cases hc : 1 ≤ j ∧ j < i
      · rw [if_pos hc, if_pos ⟨hc.1, by omega⟩]
      · rw [if_neg hc, if_neg (by omega)]

/-- Function `next_row` of `rule110.c` returns a row of width `W`: the Rule 110 value at the
interior columns, a dead cell at the two border columns. -/
theorem terminal_next_row_w_spec (W : Nat) (prev : Row) (hlen : prev.cells.length = W)
    (hb : prev.binary) :
    ∃ t, Rule110.next_row_w W prev = some t ∧ t.cells.length = W ∧
      ∀ j, j < W → t.cells[j]? = some (Rule110.interior_at W prev j) := by
  unfold Rule110.next_row_w
  by_cases hW : 2 ≤ W
  · apply terminal_next_row_loop_spec W prev hlen hb (W - 2) 1 (zero_row W) (le_refl _)
      (by omega) (by simp [zero_row])
    intro j hj
    rw [if_neg (by omega)]
    simp [zero_row, hj]
  · have h0 : W - 2 = 0 := by omega
    rw [h0, Rule110.next_row_loop]
    refine ⟨zero_row W, rfl, by simp [zero_row], ?_⟩
    intro j hj
    unfold Rule110.interior_at
    rw [if_neg (by omega)]
    simp [zero_row, hj]


/-- Comparison of the two `next_row` functions on one binary row of width `W`. -/
theorem terminal_compare (W : Nat) (prev : Row) (hlen : prev.cells.length = W)
    (hb : prev.binary) :
    ∃ t h, Rule110.next_row_w W prev = some t ∧ next_row_w W prev = some h ∧
      t.cells.length = W ∧ h.cells.length = W ∧
      (∀ i, 1 ≤ i → i + 2 ≤ W → t.cells[i]? = h.cells[i]?) ∧
      (∀ i, i < W → (i = 0 ∨ i = W - 1) → t.cells[i]? = some O) ∧
      (t ≠ h ↔ (h.cells[0]? = some I ∨ h.cells[W - 1]? = some I)) := by
  obtain ⟨t, ht, htlen, htc⟩ := terminal_next_row_w_spec W prev hlen hb
  have hh := next_row_w_eq W prev hlen hb
  have hhlen : (rule110_row W prev).cells.length = W := by simp [rule110_row]
  have hhc : ∀ j, j < W → (rule110_row W prev).cells[j]? = some (rule110_at W prev j) :=
    fun j hj => rule110_row_getElem? W prev j hj
  have hborder : ∀ j, j < W → (j = 0 ∨ j = W - 1) → t.cells[j]? = some O := by
    intro j hj hjb
    rw [htc j hj]
    unfold Rule110.interior_at
    rw [if_neg (by omega)]
  have hOI : (some O : Option Cell) ≠ some I := by decide
  refine ⟨t, rule110_row W prev, ht, hh, htlen, hhlen, ?_, hborder, ?_⟩
  · intro i h1 h2
    rw [htc i (by omega), hhc i (by omega)]
    unfold Rule110.interior_at
    rw [if_pos ⟨h1, by omega⟩]
  · constructor
    · intro hne
      by_contra hnb
      apply hne
      have hcells : t.cells = (rule110_row W prev).cells := by
        apply List.ext_getElem?
        intro j
        by_cases hj : j < W
        · rw [hhc j hj]
          by_cases hint : 1 ≤ j ∧ j + 1 < W
          · rw [htc j hj]
            unfold Rule110.interior_at
            rw [if_pos hint]
          · have hjb : j = 0 ∨ j = W - 1 := by omega
            rw [hborder j hj hjb]
            rcases rule110_binary (left_of prev j) (prev.cells.getD j 0) (right_of W prev j)
              with h0 | h1
            · unfold rule110_at
              rw [h0]
            · exfalso
              apply hnb
              have hI : (rule110_row W prev).cells[j]? = some I := by
                rw [hhc j hj]
                unfold rule110_at
                rw [h1]
              rcases hjb with rfl | rfl
              · exact Or.inl hI
              · exact Or.inr hI
        · rw [List.getElem?_eq_none (by omega), List.getElem?_eq_none (by omega)]
      cases t
      cases hrow : rule110_row W prev
      rw [hrow] at hcells
      simp only at hcells
      rw [hcells]
    · intro halive heq
      rcases halive with h0 | h1
      · have hW : 0 < W := by
          by_contra hge
          rw [List.getElem?_eq_none (by omega)] at h0
          cases h0
        have := hborder 0 hW (Or.inl rfl)
        rw [heq, h0] at this
        exact hOI this.symm
      · have hW : W - 1 < W := by
          by_contra hge
          rw [List.getElem?_eq_none (by omega)] at h1
          cases h1
        have := hborder (W - 1) hW (Or.inr rfl)
        rw [heq, h1] at this
        exact hOI this.symm

theorem alive_row_binary (W : Nat) : (Rule110.alive_row W).binary := by
  intro c hc
  right
  exact List.eq_of_mem_replicate hc

/-- On the all-alive row the hard-boundary rule makes column 0 alive. -/
theorem alive_row_border (W : Nat) (hW : 1 ≤ W) :
    (rule110_row W (Rule110.alive_row W)).cells[0]? = some I := by
  rw [rule110_row_getElem? W _ 0 (by omega)]
  apply congrArg some
  unfold rule110_at left_of right_of
  rw [if_pos rfl]
  have hc : (Rule110.alive_row W).cells.getD 0 0 = I := by
    have h0 : 0 < W := hW
    simp [Rule110.alive_row, List.getD_eq_getElem?_getD, List.getElem?_replicate, h0]
  rw [hc]
  by_cases h1 : 0 = W - 1
  · rw [if_pos h1]; rfl
  · rw [if_neg h1]
    have hr : (Rule110.alive_row W).cells.getD (0 + 1) 0 = I := by
      have : 1 < W := by omega
      simp [Rule110.alive_row, List.getD_eq_getElem?_getD, List.getElem?_replicate, this]
    rw [hr]; rfl

/-- C21: at every row width `W` and for every binary row of that width, `next_row` of
`rule110.c` and the hard-boundary `next_row` of `visualization.c` both return a row; they
agree on every interior column `1 .. W - 2`; the terminal variant always outputs 0 at the
columns 0 and `W - 1`; the two results differ exactly when the hard-boundary rule makes a
border column alive; and the two functions are not equal: for `W ≥ 1` they differ on the
all-alive row. -/
theorem terminal_vs_hard_boundary (W : Nat) (prev : Row) (hlen : prev.cells.length = W)
    (hb : prev.binary) :
    (∃ t h, Rule110.next_row_w W prev = some t ∧ next_row_w W prev = some h ∧
      t.cells.length = W ∧ h.cells.length = W ∧
      (∀ i, 1 ≤ i → i + 2 ≤ W → t.cells[i]? = h.cells[i]?) ∧
      (∀ i, i < W → (i = 0 ∨ i = W - 1) → t.cells[i]? = some O) ∧
      (t ≠ h ↔ (h.cells[0]? = some I ∨ h.cells[W - 1]? = some I))) ∧
    (1 ≤ W → ∃ ta ha, Rule110.next_row_w W (Rule110.alive_row W) = some ta ∧
      next_row_w W (Rule110.alive_row W) = some ha ∧ ta ≠ ha) := by
  refine ⟨terminal_compare W prev hlen hb, ?_⟩
  intro hW
  obtain ⟨ta, ha, hta, hha, _, _, _, _, hiff⟩ := terminal_compare W (Rule110.alive_row W)
    (by simp [Rule110.alive_row]) (alive_row_binary W)
  refine ⟨ta, ha, hta, hha, hiff.mpr (Or.inl ?_)⟩
  have hha' := next_row_w_eq W (Rule110.alive_row W) (by simp [Rule110.alive_row])
    (alive_row_binary W)
  rw [hha] at hha'
  cases hha'
  exact alive_row_border W hW

set_option maxRecDepth 100000 in
/-- Witness of C21: the all-alive row at the width `ROW_SIZE` of the terminal variant; the
two results differ at column 0. -/
theorem terminal_vs_hard_boundary_witness :
    (Rule110.alive_row Rule110.ROW_SIZE).cells.length = Rule110.ROW_SIZE ∧
    (Rule110.alive_row Rule110.ROW_SIZE).binary ∧
    ∃ t h, Rule110.next_row (Rule110.alive_row Rule110.ROW_SIZE) = some t ∧
      next_row_w Rule110.ROW_SIZE (Rule110.alive_row Rule110.ROW_SIZE) = some h ∧
      t.cells[0]? = some O ∧ h.cells[0]? = some I ∧ t ≠ h := by
  obtain ⟨⟨t, h, ht, hh, _, _, _, hborder, hiff⟩, _⟩ :=
    terminal_vs_hard_boundary Rule110.ROW_SIZE (Rule110.alive_row Rule110.ROW_SIZE)
      (by decide) (by decide)
  have hh' := next_row_w_eq Rule110.ROW_SIZE (Rule110.alive_row Rule110.ROW_SIZE)
    (by decide) (by decide)
  rw [hh] at hh'
  cases hh'
  have hI := alive_row_border Rule110.ROW_SIZE (by decide)
  exact ⟨by decide, by decide, t, _, ht, hh, hborder 0 (by decide) (Or.inl rfl), hI,
    hiff.mpr (Or.inl hI)⟩

end Automato
